import Mathlib

/-!
# Scam runtime values (`src/scamval.c`)

A shallow embedding of the value model of the Scam interpreter: tagged values,
the sequence, string and dictionary containers, structural equality, the type
lattice and the printer.

Modelling conventions.

* A `scamval*` handle is modelled by the value it points to, following the
  ownership discipline of the source (a value sits in the root set, in one
  container slot, in one dictionary slot or in one lambda field).  A C function
  that mutates its arguments returns the new state of every object it touches.
* The storage of a sequence is the list of its first `count` slots, so
  `count` is the length of that list, and `none` is the NULL pointer (no
  slots); `mem_size` is kept as a separate field.
* A byte is a `Char`; `'\x00'` is the terminating NUL.  A string buffer is the
  whole allocated block, `none` being the NULL pointer.
* Undefined behaviour of the C code (a read through NULL, a read or write
  outside a block) is the result `none`.
* `size_t` and `long long` payloads are `Nat` and `Int`; the one product that
  can wrap (`mem_size *= SEQ_SIZE_GROW`) is reduced modulo `2^64`.
* `collector.c` is not among the sources.  Its three entry points that the
  value model relies on are modelled from the specification; a collection
  cycle is not modelled (the specification makes it a no-op for values that are
  still in use), and `gc_malloc`/`gc_realloc` return a block of the size asked
  for.
* The result of `scamval_print` is the list of bytes it writes to the standard
  output; the rendering of a `double` by `%f` is a parameter of the model.
-/

namespace Scam

/-! ## Type codes -/

/-- Type codes of `scamval.h`: the concrete tags followed by the abstract
codes that are only used for typechecking. -/
inductive scamtype where
  | SCAM_INT | SCAM_DEC | SCAM_BOOL | SCAM_LIST | SCAM_STR | SCAM_LAMBDA
  | SCAM_PORT | SCAM_BUILTIN | SCAM_SEXPR | SCAM_SYM | SCAM_ERR | SCAM_NULL
  | SCAM_DICT
  | SCAM_SEQ | SCAM_CONTAINER | SCAM_NUM | SCAM_CMP | SCAM_FUNCTION | SCAM_ANY
  deriving DecidableEq, Repr

open scamtype

/-- Tags whose payload is a handle array (`vals.arr`). -/
inductive seqkind where
  | list | sexpr
  deriving DecidableEq, Repr

/-- Tags whose payload is a byte buffer (`vals.s`). -/
inductive strkind where
  | str | sym | err
  deriving DecidableEq, Repr

/-! ## IEEE-754 doubles, as bit patterns -/

/-- A C `double`, given by its 64-bit pattern (sign, 11 exponent bits, 52
fraction bits). -/
structure Dbl where
  bits : Nat
  deriving DecidableEq, Repr

/-- NaN: exponent all ones, fraction non-zero. -/
def Dbl.isNaN (x : Dbl) : Bool :=
  x.bits / 2 ^ 52 % 2048 == 2047 && x.bits % 2 ^ 52 != 0

/-- Order key of a non-NaN double: the sign-magnitude pattern read as a signed
integer (both zeros map to 0; the map is strictly monotone on the rest). -/
def Dbl.key (x : Dbl) : Int :=
  if x.bits / 2 ^ 63 % 2 = 0 then ((x.bits % 2 ^ 63 : Nat) : Int)
  else - ((x.bits % 2 ^ 63 : Nat) : Int)

/-- C `==` on doubles. -/
def Dbl.eq (x y : Dbl) : Bool := !x.isNaN && !y.isNaN && x.key == y.key

/-- C `>` on doubles. -/
def Dbl.gt (x y : Dbl) : Bool := !x.isNaN && !y.isNaN && decide (y.key < x.key)

/-- Position of the highest set bit of `m`, searched for at most `fuel`
halvings. -/
def Dbl.ilog2 : Nat → Nat → Nat
  | 0, _ => 0
  | fuel + 1, m => if m < 2 then 0 else Dbl.ilog2 fuel (m / 2) + 1

/-- Conversion of a non-zero magnitude to exponent and 53-bit significand,
rounding to nearest, ties to even. -/
def Dbl.ofMag (m : Nat) : Nat :=
  let e := Dbl.ilog2 m m
  if e ≤ 52 then (e + 1023) * 2 ^ 52 + (m * 2 ^ (52 - e) - 2 ^ 52)
  else
    let sh := e - 52
    let q := m / 2 ^ sh
    let r := m % 2 ^ sh
    let half := 2 ^ (sh - 1)
    let q1 := if half < r ∨ (r = half ∧ q % 2 = 1) then q + 1 else q
    -- a carry out of the significand lands in the exponent field
    (e + 1023) * 2 ^ 52 + (q1 - 2 ^ 52)

/-- Conversion `(double) n` of a `long long`. -/
def Dbl.ofInt (n : Int) : Dbl :=
  if n = 0 then ⟨0⟩
  else if 0 < n then ⟨Dbl.ofMag n.natAbs⟩
  else ⟨2 ^ 63 + Dbl.ofMag n.natAbs⟩

/-! ## Values -/

/-- The `scamval` struct.  Every constructor carries the collector's `is_root`
flag; the remaining fields are the members of the struct that the tag uses. -/
inductive scamval where
  | int (is_root : Bool) (n : Int)
  | dec (is_root : Bool) (d : Dbl)
  | bool (is_root : Bool) (n : Int)
  | seq (k : seqkind) (is_root : Bool) (mem_size : Nat)
      (arr : Option (List scamval))
  | str (k : strkind) (is_root : Bool) (count mem_size : Nat)
      (s : Option (List Char))
  | lambda (is_root : Bool) (env parameters body : scamval)
  | builtin (is_root : Bool) (fn : Nat) (constant : Bool)
  | port (is_root : Bool) (closed : Bool) (fp : Option Nat)
  | dict (is_root : Bool) (enclosing : Option scamval) (syms vals : scamval)
  | null (is_root : Bool)
  deriving Repr

namespace scamval

/-- The `type` field. -/
def type : scamval → scamtype
  | int _ _ => SCAM_INT
  | dec _ _ => SCAM_DEC
  | bool _ _ => SCAM_BOOL
  | seq .list _ _ _ => SCAM_LIST
  | seq .sexpr _ _ _ => SCAM_SEXPR
  | str .str _ _ _ _ => SCAM_STR
  | str .sym _ _ _ _ => SCAM_SYM
  | str .err _ _ _ _ => SCAM_ERR
  | lambda _ _ _ _ => SCAM_LAMBDA
  | builtin _ _ _ => SCAM_BUILTIN
  | port _ _ _ => SCAM_PORT
  | dict _ _ _ _ => SCAM_DICT
  | null _ => SCAM_NULL

/-- The `is_root` field. -/
def is_root : scamval → Bool
  | int r _ => r
  | dec r _ => r
  | bool r _ => r
  | seq _ r _ _ => r
  | str _ r _ _ _ => r
  | lambda r _ _ _ => r
  | builtin r _ _ => r
  | port r _ _ => r
  | dict r _ _ _ => r
  | null r => r

/-- Write the `is_root` field. -/
def with_root (b : Bool) : scamval → scamval
  | int _ n => int b n
  | dec _ d => dec b d
  | bool _ n => bool b n
  | seq k _ m a => seq k b m a
  | str k _ c m s => str k b c m s
  | lambda _ e p bd => lambda b e p bd
  | builtin _ f c => builtin b f c
  | port _ st fp => port b st fp
  | dict _ e ks vs => dict b e ks vs
  | null _ => null b

end scamval

open scamval

/-! ## Collector interface (`collector.h`) -/

/-- Modelled from the spec: `collector.c` is not among the sources.
`gc_new_scamval` "allocates, zero-initializes the payload area, sets is-root,
registers the object"; this is the flag it leaves on the new object. -/
def gc_new_is_root : Bool := true

/-- Modelled from the spec: `collector.c` is not among the sources.
`set_root(v)` sets the is-root bit of `v`. -/
def gc_set_root (v : scamval) : scamval := v.with_root true

/-- Modelled from the spec: `collector.c` is not among the sources.
`unset_root(v)` clears the is-root bit of `v`. -/
def gc_unset_root (v : scamval) : scamval := v.with_root false

/-- Source: `scamnull`: the new object, with `is_root` reset to 0. -/
def scamnull : scamval := .null false

/-! ## Typechecking -/

/-- Source: `scamval_typecheck`. -/
def scamval_typecheck (v : scamval) (type : scamtype) : Bool :=
  match type with
  | SCAM_ANY => true
  | SCAM_SEQ => v.type == SCAM_LIST || v.type == SCAM_STR
  | SCAM_CONTAINER => v.type == SCAM_LIST || v.type == SCAM_STR || v.type == SCAM_DICT
  | SCAM_NUM => v.type == SCAM_INT || v.type == SCAM_DEC
  | SCAM_CMP => v.type == SCAM_STR || v.type == SCAM_INT || v.type == SCAM_DEC
  | SCAM_FUNCTION => v.type == SCAM_LAMBDA || v.type == SCAM_BUILTIN
  | t => v.type == t

/-! ## Accessors -/

/-- Source: `scam_as_int` (`vals.n`).  The member belongs to `Int` and `Bool`
values and the source reads it under those tags only; for the other tags the
bytes of the union are not modelled and 0 stands for them. -/
def scam_as_int : scamval → Int
  | .int _ n => n
  | .bool _ n => n
  | _ => 0

/-- Source: `scam_as_bool` (`vals.n`). -/
def scam_as_bool (v : scamval) : Int := scam_as_int v

/-- Source: `scam_as_dec`: the stored double, or the integer converted. -/
def scam_as_dec : scamval → Dbl
  | .dec _ d => d
  | v => Dbl.ofInt (scam_as_int v)

/-- Source: `scam_as_str` (`vals.s`); NULL for a value without a buffer. -/
def scam_as_str : scamval → Option (List Char)
  | .str _ _ _ _ s => s
  | _ => none

/-- The slots of a sequence: its first `count` handles. -/
def scamseq_elems : scamval → List scamval
  | .seq _ _ _ (some a) => a
  | _ => []

/-- Source: `scamseq_len` (the `count` field, which sequences and strings use;
0 for the other tags, whose header the collector zero-initialises). -/
def scamseq_len : scamval → Nat
  | .seq _ _ _ a => (a.getD []).length
  | .str _ _ count _ _ => count
  | _ => 0

/-- Source: `scamseq_get`: `arr[i]`, with no bounds check in the source. -/
def scamseq_get (seq : scamval) (i : Nat) : Option scamval :=
  match seq with
  | .seq _ _ _ (some a) => a.get? i
  | _ => none

/-! ## C strings -/

/-- The NUL byte. -/
def NUL : Char := Char.ofNat 0

/-- C `strcmp` on two blocks: the difference of the first pair of bytes that
differ, 0 when both strings end together, `none` when a block ends before its
string does. -/
def strcmp : List Char → List Char → Option Int
  | c1 :: r1, c2 :: r2 =>
    if c1 ≠ c2 then some ((c1.toNat : Int) - (c2.toNat : Int))
    else if c1 = NUL then some 0
    else strcmp r1 r2
  | _, _ => none

/-- C `strcmp` on two pointers, either of which may be NULL. -/
def strcmp_ptr : Option (List Char) → Option (List Char) → Option Int
  | some a, some b => strcmp a b
  | _, _ => none

/-- The text of a block: the bytes before its first NUL; `none` when the block
holds no NUL. -/
def cstr : List Char → Option (List Char)
  | [] => none
  | c :: r => if c = NUL then some [] else (cstr r).map (c :: ·)

/-! ## Errors -/

/-- Source: `MAX_ERROR_SIZE`. -/
def MAX_ERROR_SIZE : Nat := 100

/-- Source: `scamerr`, applied to the text that the format and its arguments
expand to: `vsnprintf` stores at most `MAX_ERROR_SIZE - 1` bytes and a NUL in a
block of `MAX_ERROR_SIZE` bytes (the bytes after the NUL are written as NUL
here).  `count` and `mem_size` stay as the collector zero-initialised them. -/
def scamerr (msg : List Char) : scamval :=
  let text := msg.take (MAX_ERROR_SIZE - 1)
  .str .err gc_new_is_root 0 0
    (some (text ++ List.replicate (MAX_ERROR_SIZE - text.length) NUL))

/-! ## Equality -/

/-- Source: `scamval_numeric_eq`. -/
def scamval_numeric_eq (v1 v2 : scamval) : Bool :=
  if v1.type = SCAM_INT then
    if v2.type = SCAM_INT then scam_as_int v1 == scam_as_int v2
    else Dbl.eq (Dbl.ofInt (scam_as_int v1)) (scam_as_dec v2)
  else
    if v2.type = SCAM_INT then Dbl.eq (scam_as_dec v1) (Dbl.ofInt (scam_as_int v2))
    else Dbl.eq (scam_as_dec v1) (scam_as_dec v2)

/-- The loop of `scamdict_lookup` over the local entries, with the comparison
`scamval_eq(key, ·)` as parameter: `some (some v)` when the first key that
compares equal sits at a position whose value is `v`, `some none` on a miss,
`none` when that position lies outside the value list. -/
def lookup_scan (eqk : scamval → Option Bool) :
    List scamval → List scamval → Option (Option scamval)
  | [], _ => some none
  | this_key :: ks, vs =>
    match eqk this_key with
    | none => none
    | some true => (vs.head?).map some
    | some false => lookup_scan eqk ks vs.tail

/-- The error of a terminal miss in `scamdict_lookup`. -/
def unbound_variable (key : scamval) : Option scamval :=
  if key.type = SCAM_STR then
    ((scam_as_str key).bind cstr).map fun text =>
      scamerr ("unbound variable '".toList ++ text ++ "'".toList)
  else some (scamerr "unbound variable".toList)

mutual
/-- The body of `scamdict_lookup` with the comparison `scamval_eq(key, ·)` as
parameter `eqk`.  A dictionary whose key list or value list is not a sequence
is outside the model. -/
def lookup_with (eqk : scamval → Option Bool) (key : scamval) :
    scamval → Option scamval
  | .dict _ enclosing (.seq _ _ _ ks) (.seq _ _ _ vs) =>
    match lookup_scan eqk (ks.getD []) (vs.getD []) with
    | none => none
    | some (some v) => some v
    | some none => lookup_with_enclosing eqk key enclosing
  | _ => none
/-- The tail of `scamdict_lookup`: recurse into the enclosing dictionary, or
report the key as unbound. -/
def lookup_with_enclosing (eqk : scamval → Option Bool) (key : scamval) :
    Option scamval → Option scamval
  | some e => lookup_with eqk key e
  | none => unbound_variable key
end

/-- The loop of `scamval_list_eq`, the comparisons `scamval_eq(v1[i], ·)` given
as a list. -/
def list_eq_scan : List (scamval → Option Bool) → List scamval → Option Bool
  | [], _ => some true
  | c :: cs, y :: ys =>
    match c y with
    | some true => list_eq_scan cs ys
    | r => r
  | _ :: _, [] => none

/-- The loop of `scamval_dict_eq`, the comparisons `scamval_eq(key_i, ·)` and
`scamval_eq(val_i, ·)` of the first dictionary given as lists with its keys. -/
def dict_eq_scan (v2 : scamval) :
    List scamval → List (scamval → Option Bool) → List (scamval → Option Bool) → Option Bool
  | [], _, _ => some true
  | key :: ks, kc :: kcs, vc :: vcs =>
    match lookup_with kc key v2 with
    | none => none
    | some val2 =>
      match vc val2 with
      | some true => dict_eq_scan v2 ks kcs vcs
      | r => r
  | _ :: _, _, _ => none

mutual
/-- Source: `scamval_eq`.  `none` is undefined behaviour. -/
def scamval_eq (v1 v2 : scamval) : Option Bool :=
  if scamval_typecheck v1 SCAM_NUM && scamval_typecheck v2 SCAM_NUM then
    some (scamval_numeric_eq v1 v2)
  else if v1.type = v2.type then
    match v1 with
    | .bool _ n => some (n == scam_as_bool v2)
    | .seq _ _ _ a =>
      if scamseq_len v1 = scamseq_len v2 then
        list_eq_scan (scamval_eq_slots a) (scamseq_elems v2)
      else some false
    | .str .sym _ _ _ s => (strcmp_ptr s (scam_as_str v2)).map (· == 0)
    | .str .str _ _ _ s => (strcmp_ptr s (scam_as_str v2)).map (· == 0)
    | .dict _ _ (.seq _ _ _ ks) (.seq _ _ _ vs) =>
      dict_eq_scan v2 (ks.getD []) (scamval_eq_slots ks) (scamval_eq_slots vs)
    | .dict _ _ _ _ => none
    | .null _ => some true
    | _ => some false
  else some false
/-- The comparison `scamval_eq(x, ·)` for every slot `x` of a storage block. -/
def scamval_eq_slots : Option (List scamval) → List (scamval → Option Bool)
  | some a => scamval_eq_each a
  | none => []
/-- The comparison `scamval_eq(x, ·)` for every `x` of a list. -/
def scamval_eq_each : List scamval → List (scamval → Option Bool)
  | [] => []
  | x :: xs => scamval_eq x :: scamval_eq_each xs
end

/-- Source: `scamdict_lookup`. -/
def scamdict_lookup (dct key : scamval) : Option scamval :=
  lookup_with (fun this_key => scamval_eq key this_key) key dct

/-- The loop of `scamval_list_eq` over two slot lists. -/
def scamval_list_eq_loop : List scamval → List scamval → Option Bool
  | [], _ => some true
  | x :: xs, y :: ys =>
    match scamval_eq x y with
    | some true => scamval_list_eq_loop xs ys
    | r => r
  | _ :: _, [] => none

/-- Source: `scamval_list_eq`. -/
def scamval_list_eq (v1 v2 : scamval) : Option Bool :=
  if scamseq_len v1 = scamseq_len v2 then
    scamval_list_eq_loop (scamseq_elems v1) (scamseq_elems v2)
  else some false

/-- The loop of `scamval_dict_eq` over the keys and values of `v1`. -/
def scamval_dict_eq_loop (v2 : scamval) : List scamval → List scamval → Option Bool
  | [], _ => some true
  | key :: ks, val1 :: vs =>
    match scamdict_lookup v2 key with
    | none => none
    | some val2 =>
      match scamval_eq val1 val2 with
      | some true => scamval_dict_eq_loop v2 ks vs
      | r => r
  | _ :: _, [] => none

/-- Source: `scamval_dict_eq`: every local key of `v1` is looked up in `v2`
and the two values are compared. -/
def scamval_dict_eq (v1 v2 : scamval) : Option Bool :=
  match v1 with
  | .dict _ _ (.seq _ _ _ ks) (.seq _ _ _ vs) =>
    scamval_dict_eq_loop v2 (ks.getD []) (vs.getD [])
  | _ => none

/-- Source: the body of `scamval_eq`, written with `scamval_list_eq`,
`scamval_dict_eq` and a `switch` on the tag as in the C text;
`scamval_eq_source_eq` shows that it is `scamval_eq`. -/
def scamval_eq_source (v1 v2 : scamval) : Option Bool :=
  if scamval_typecheck v1 SCAM_NUM && scamval_typecheck v2 SCAM_NUM then
    some (scamval_numeric_eq v1 v2)
  else if v1.type = v2.type then
    match v1.type with
    | SCAM_BOOL => some (scam_as_bool v1 == scam_as_bool v2)
    | SCAM_SEXPR => scamval_list_eq v1 v2
    | SCAM_LIST => scamval_list_eq v1 v2
    | SCAM_SYM => (strcmp_ptr (scam_as_str v1) (scam_as_str v2)).map (· == 0)
    | SCAM_STR => (strcmp_ptr (scam_as_str v1) (scam_as_str v2)).map (· == 0)
    | SCAM_DICT => scamval_dict_eq v1 v2
    | SCAM_NULL => some true
    | _ => some false
  else some false

/-! ## Sequences -/

/-- Source: `SEQ_SIZE_INITIAL`. -/
def SEQ_SIZE_INITIAL : Nat := 5
/-- Source: `SEQ_SIZE_GROW`. -/
def SEQ_SIZE_GROW : Nat := 2

/-- Source: `scam_internal_seq`. -/
def scam_internal_seq (k : seqkind) : scamval := .seq k gc_new_is_root 0 none

/-- Source: `scamlist`. -/
def scamlist : scamval := scam_internal_seq .list

/-- Source: `scamsexpr`. -/
def scamsexpr : scamval := scam_internal_seq .sexpr

/-- Source: `scamseq_grow`.  `gc_malloc` and `gc_realloc` return a block of the
size asked for. -/
def scamseq_grow (seq : scamval) (min_new_sz : Nat) : scamval :=
  match seq with
  | .seq k r _ none =>
    let mem_size := SEQ_SIZE_INITIAL
    let mem_size := if mem_size < min_new_sz then min_new_sz else mem_size
    .seq k r mem_size (some [])
  | .seq k r mem_size (some a) =>
    let mem_size := mem_size * SEQ_SIZE_GROW % 2 ^ 64
    let mem_size := if mem_size < min_new_sz then min_new_sz else mem_size
    .seq k r mem_size (some (a.take mem_size))
  | v => v

/-- Source: `scamseq_resize`. -/
def scamseq_resize (seq : scamval) (new_sz : Nat) : scamval :=
  match seq with
  | .seq k r _ none => .seq k r new_sz (some [])
  | .seq k r _ (some a) => .seq k r new_sz (some (a.take new_sz))
  | v => v

/-- Source: `scamseq_pop`: the popped value (or the range error) and the
sequence afterwards. -/
def scamseq_pop (seq : scamval) (i : Nat) : Option (scamval × scamval) :=
  if i < scamseq_len seq then
    match seq with
    | .seq k r m (some a) =>
      match a.get? i with
      | some ret => some (gc_set_root ret, .seq k r m (some (a.eraseIdx i)))
      | none => none
    | _ => none
  else some (scamerr "attempted sequence access out of range".toList, seq)

/-- Source: `scamseq_delete`. -/
def scamseq_delete (seq : scamval) (i : Nat) : Option scamval :=
  (scamseq_pop seq i).map fun p => p.2

/-- Source: `scamseq_set`. -/
def scamseq_set (seq : scamval) (i : Nat) (v : scamval) : Option scamval :=
  if i < scamseq_len seq then
    match seq with
    | .seq k r m (some a) => some (.seq k r m (some (a.set i v)))
    | _ => none
  else some seq

/-- Source: `scamseq_insert`.  The `memmove` and the store need non-NULL
storage with room for the new count and an index not past the old end. -/
def scamseq_insert (seq : scamval) (i : Nat) (v : scamval) : Option scamval :=
  let v := gc_unset_root v
  match seq with
  | .seq k r mem_size a =>
    let count := (a.getD []).length + 1
    let seq1 := if count > mem_size then scamseq_grow (.seq k r mem_size a) count
                else .seq k r mem_size a
    match seq1 with
    | .seq k r mem_size (some a) =>
      if i < count ∧ count ≤ mem_size then
        some (.seq k r mem_size (some (a.take i ++ v :: a.drop i)))
      else none
    | _ => none
  | _ => none

/-- Source: `scamseq_prepend`. -/
def scamseq_prepend (seq v : scamval) : Option scamval := scamseq_insert seq 0 v

/-- Source: `scamseq_append`. -/
def scamseq_append (seq v : scamval) : Option scamval :=
  scamseq_insert seq (scamseq_len seq) v

/-- The `while` loop of `scamseq_concat`; `fuel` bounds the number of
iterations and `none` is also the result when it runs out. -/
def scamseq_concat_loop : Nat → scamval → scamval → Option (scamval × scamval)
  | fuel, seq1, seq2 =>
    if scamseq_len seq2 > 0 then
      match fuel with
      | 0 => none
      | fuel + 1 =>
        match scamseq_pop seq2 0 with
        | none => none
        | some (x, seq2) =>
          match scamseq_append seq1 x with
          | none => none
          | some seq1 => scamseq_concat_loop fuel seq1 seq2
    else some (seq1, seq2)

/-- Source: `scamseq_concat`: both sequences afterwards.  Every iteration of
the loop removes one element of `seq2`, so its length bounds the loop. -/
def scamseq_concat (seq1 seq2 : scamval) : Option (scamval × scamval) :=
  if scamseq_len seq2 > 0 then
    let seq1 := scamseq_resize seq1 (scamseq_len seq1 + scamseq_len seq2)
    scamseq_concat_loop (scamseq_len seq2) seq1 seq2
  else some (seq1, seq2)

/-! ## Dictionaries -/

/-- Source: `scamdict`. -/
def scamdict (enclosing : Option scamval) : scamval :=
  .dict gc_new_is_root enclosing (gc_unset_root scamlist) (gc_unset_root scamlist)

/-- Source: `scamdict_keys`. -/
def scamdict_keys : scamval → Option scamval
  | .dict _ _ syms _ => some syms
  | _ => none

/-- Source: `scamdict_vals`. -/
def scamdict_vals : scamval → Option scamval
  | .dict _ _ _ vals => some vals
  | _ => none

/-- Source: `scamdict_enclosing`. -/
def scamdict_enclosing : scamval → Option scamval
  | .dict _ enclosing _ _ => enclosing
  | _ => none

/-- Source: `scamdict_len`. -/
def scamdict_len (dct : scamval) : Nat :=
  match scamdict_keys dct with
  | some syms => scamseq_len syms
  | none => 0

/-- Source: `scamdict_key`. -/
def scamdict_key (dct : scamval) (i : Nat) : Option scamval :=
  (scamdict_keys dct).bind fun syms => scamseq_get syms i

/-- Source: `scamdict_val`. -/
def scamdict_val (dct : scamval) (i : Nat) : Option scamval :=
  (scamdict_vals dct).bind fun vals => scamseq_get vals i

/-- The scan of `scamdict_bind`: the first position from `i` on whose key
satisfies `scamval_eq(key, sym)`. -/
def bind_scan (sym : scamval) : List scamval → Nat → Option (Option Nat)
  | [], _ => some none
  | key :: ks, i =>
    match scamval_eq key sym with
    | none => none
    | some true => some (some i)
    | some false => bind_scan sym ks (i + 1)

/-- Source: `scamdict_bind`: the dictionary afterwards. -/
def scamdict_bind (dct sym val : scamval) : Option scamval :=
  let sym := gc_unset_root sym
  let val := gc_unset_root val
  if sym.type = SCAM_PORT ∨ sym.type = SCAM_LAMBDA ∨ sym.type = SCAM_BUILTIN ∨
      sym.type = SCAM_NULL then
    -- unbindable types
    some dct
  else
    match dct with
    | .dict r enclosing keys vals =>
      match bind_scan sym (scamseq_elems keys) 0 with
      | none => none
      | some (some i) =>
        match scamseq_get vals i with
        | none => none
        | some _ => (scamseq_set vals i val).map fun vals => .dict r enclosing keys vals
      | some none =>
        match scamseq_append keys sym with
        | none => none
        | some keys =>
          match scamseq_append vals val with
          | none => none
          | some vals => some (.dict r enclosing keys vals)
    | _ => none

/-! ## Strings -/

/-- Source: `scam_internal_str`.  The argument is the block that the
`const char*` points to; `strlen` and `strdup` see its bytes up to the first
NUL. -/
def scam_internal_str (k : strkind) (s : List Char) : scamval :=
  let text := s.takeWhile (· ≠ NUL)
  .str k gc_new_is_root text.length (text.length + 1) (some (text ++ [NUL]))

/-- Source: `scamstr`. -/
def scamstr (s : List Char) : scamval := scam_internal_str .str s

/-- Source: `scamsym`. -/
def scamsym (s : List Char) : scamval := scam_internal_str .sym s

/-- Source: `scamstr_empty`. -/
def scamstr_empty : scamval := .str .str gc_new_is_root 0 0 none

/-- Source: `scamstr_len` (the `count` field). -/
def scamstr_len : scamval → Nat
  | .seq _ _ _ a => (a.getD []).length
  | .str _ _ count _ _ => count
  | _ => 0

/-- Source: `scamstr_resize`.  The bytes that `gc_malloc` and `gc_realloc`
leave indeterminate are written as NUL here. -/
def scamstr_resize (s : scamval) (new_sz : Nat) : scamval :=
  match s with
  | .str k r count _ none => .str k r count new_sz (some (List.replicate new_sz NUL))
  | .str k r count _ (some b) =>
    .str k r count new_sz (some (b.take new_sz ++ List.replicate (new_sz - b.length) NUL))
  | v => v

/-- The copying loop of `scamstr_concat`, `todo` iterations from index `i`:
`dst[n1 + i] = src[i]`.  A read outside `src` or a write outside `dst` is
undefined. -/
def scamstr_concat_loop (src : List Char) (n1 : Nat) :
    Nat → Nat → List Char → Option (List Char)
  | 0, _, dst => some dst
  | todo + 1, i, dst =>
    match src.get? i with
    | none => none
    | some c =>
      if n1 + i < dst.length then scamstr_concat_loop src n1 todo (i + 1) (dst.set (n1 + i) c)
      else none

/-- Source: `scamstr_concat`: both strings afterwards. -/
def scamstr_concat (s1 s2 : scamval) : Option (scamval × scamval) :=
  let n1 := scamstr_len s1
  let n2 := scamstr_len s2
  match scamstr_resize s1 (n1 + n2 + 1) with
  | .str k r _ mem_size (some dst) =>
    match scam_as_str s2 with
    | none => none
    | some src =>
      -- for (int i = 0; i <= n2; i++)
      match scamstr_concat_loop src n1 (n2 + 1) 0 dst with
      | none => none
      | some dst => some (.str k r (n1 + n2) mem_size (some dst), gc_unset_root s2)
  | _ => none

/-! ## Well-formedness -/

/-- The capacity invariant of a sequence: NULL storage has capacity 0, and
otherwise `count ≤ mem_size`. -/
def seq_ok : scamval → Prop
  | .seq _ _ mem_size none => mem_size = 0
  | .seq _ _ mem_size (some a) => a.length ≤ mem_size
  | _ => False

/-- The value is a sequence (tag `List` or `SExpr`). -/
def is_seq : scamval → Prop
  | .seq _ _ _ _ => True
  | _ => False

/-- The block of a string after `scamstr_resize` to `new_sz` bytes. -/
def resized_block (s : Option (List Char)) (new_sz : Nat) : List Char :=
  match s with
  | none => List.replicate new_sz NUL
  | some b => b.take new_sz ++ List.replicate (new_sz - b.length) NUL

/-- The value is a string (tag `Str`, `Sym` or `Err`). -/
def is_str : scamval → Prop
  | .str _ _ _ _ _ => True
  | _ => False

/-- The block of the string is not NULL and holds its `count` bytes and one
more (the terminator). -/
def str_block_ok : scamval → Prop
  | .str _ _ count _ (some b) => count < b.length
  | _ => False

/-- The text of a string as C consumers (`strcmp`, `printf`) see it. -/
def str_text (v : scamval) : Option (List Char) := (scam_as_str v).bind cstr


mutual
/-- Keys on which binding and lookup agree: built from `Int`, `Dec` other than
NaN, `Bool`, and `Str` or `Sym` with a NUL-terminated block, possibly nested in
`List`s and `SExpr`s. -/
def keyable : scamval → Bool
  | .int _ _ => true
  | .dec _ d => !d.isNaN
  | .bool _ _ => true
  | .str .str _ _ _ s => (s.bind cstr).isSome
  | .str .sym _ _ _ s => (s.bind cstr).isSome
  | .seq _ _ _ a => keyable_slots a
  | _ => false
/-- `keyable` for every slot of a storage block. -/
def keyable_slots : Option (List scamval) → Bool
  | none => true
  | some a => keyable_all a
/-- `keyable` for every element of a list. -/
def keyable_all : List scamval → Bool
  | [] => true
  | x :: xs => keyable x && keyable_all xs
end

mutual
/-- Values that `strcmp` can be run on wherever `scamval_eq` may reach through
sequences: every `Str` and `Sym`, at the top or nested in `List`s and `SExpr`s,
has a NUL-terminated block. -/
def cmp_ok : scamval → Bool
  | .str .str _ _ _ s => (s.bind cstr).isSome
  | .str .sym _ _ _ s => (s.bind cstr).isSome
  | .seq _ _ _ a => cmp_ok_slots a
  | _ => true
/-- `cmp_ok` for every slot of a storage block. -/
def cmp_ok_slots : Option (List scamval) → Bool
  | none => true
  | some a => cmp_ok_all a
/-- `cmp_ok` for every element of a list. -/
def cmp_ok_all : List scamval → Bool
  | [] => true
  | x :: xs => cmp_ok x && cmp_ok_all xs
end

/-- The keys of a dictionary, in insertion order. -/
def dict_key_list (dct : scamval) : List scamval :=
  match scamdict_keys dct with
  | some syms => scamseq_elems syms
  | none => []

/-- The values of a dictionary, in insertion order. -/
def dict_val_list (dct : scamval) : List scamval :=
  match scamdict_vals dct with
  | some vals => scamseq_elems vals
  | none => []

/-- The invariant of a dictionary: its key list and its value list are
sequences that satisfy the capacity invariant and have the same length. -/
def dict_ok : scamval → Prop
  | .dict _ _ syms vals => seq_ok syms ∧ seq_ok vals ∧ scamseq_len syms = scamseq_len vals
  | _ => False

/-- The tags that `scamdict_bind` refuses as keys. -/
def unbindable (t : scamtype) : Prop :=
  t = SCAM_PORT ∨ t = SCAM_LAMBDA ∨ t = SCAM_BUILTIN ∨ t = SCAM_NULL

instance (t : scamtype) : Decidable (unbindable t) := by
  unfold unbindable
  infer_instance

/-- The reference definition of binding, on the key and value lists: an
unbindable key changes nothing; otherwise the value at the first position whose
key is equal to `k` under `scamval_eq` is replaced by `v`; otherwise `k` and `v`
are appended.  `k` and `v` lose their root status. -/
def bind_ref (keys vals : List scamval) (k v : scamval) : List scamval × List scamval :=
  if unbindable k.type then (keys, vals)
  else
    match keys.findIdx? (fun key => scamval_eq key k == some true) with
    | some i => (keys, vals.set i (gc_unset_root v))
    | none => (keys ++ [gc_unset_root k], vals ++ [gc_unset_root v])

/-- A finite sequence of `scamdict_bind` calls, one per key and value pair. -/
def scamdict_bind_all : scamval → List (scamval × scamval) → Option scamval
  | dct, [] => some dct
  | dct, (k, v) :: rest =>
    match scamdict_bind dct k v with
    | none => none
    | some dct => scamdict_bind_all dct rest

/-! ## Concrete inputs -/

/-- A sequence with one element, with room for five. -/
def seq_one : scamval := .seq .list true 5 (some [.int false 7])

/-- A dictionary with the one binding `"a" ↦ 1` and no enclosing dictionary. -/
def dict_one : scamval :=
  .dict true none (.seq .list false 5 (some [gc_unset_root (scamstr "a".toList)]))
    (.seq .list false 5 (some [.int false 1]))

/-- The empty dictionary after binding the dictionary `dict_one` to 10. -/
def dict_keyed_by_dict : scamval :=
  .dict true none (.seq .list false 5 (some [gc_unset_root dict_one]))
    (.seq .list false 5 (some [.int false 10]))

/-- `dict_keyed_by_dict` after binding the empty dictionary to 20. -/
def dict_keyed_by_dicts : scamval :=
  .dict true none
    (.seq .list false 5 (some [gc_unset_root dict_one, gc_unset_root (scamdict none)]))
    (.seq .list false 5 (some [.int false 10, .int false 20]))

/-- The dictionary `dict_one` after binding `"b"` to 2. -/
def dict_two : scamval :=
  .dict true none
    (.seq .list false 5
      (some [gc_unset_root (scamstr "a".toList), gc_unset_root (scamstr "b".toList)]))
    (.seq .list false 5 (some [.int false 1, .int false 2]))

/-- Source: `is_numeric_type`. -/
def is_numeric_type (type : scamtype) : Bool := type == SCAM_INT || type == SCAM_DEC

/-- Source: `is_seq_type`. -/
def is_seq_type (type : scamtype) : Bool := type == SCAM_LIST || type == SCAM_STR

/-- Source: `is_container_type`. -/
def is_container_type (type : scamtype) : Bool :=
  type == SCAM_LIST || type == SCAM_STR || type == SCAM_DICT

/-- Source: `narrowest_type`. -/
def narrowest_type (type1 type2 : scamtype) : scamtype :=
  if type1 = type2 then type1
  else if is_numeric_type type1 && is_numeric_type type2 then SCAM_NUM
  else if is_seq_type type1 && is_seq_type type2 then SCAM_SEQ
  else if is_container_type type1 && is_container_type type2 then SCAM_CONTAINER
  else SCAM_ANY

/-- The tags that values carry, in the order of the enumeration. -/
def concrete_tags : List scamtype :=
  [SCAM_INT, SCAM_DEC, SCAM_BOOL, SCAM_LIST, SCAM_STR, SCAM_LAMBDA, SCAM_PORT, SCAM_BUILTIN,
   SCAM_SEXPR, SCAM_SYM, SCAM_ERR, SCAM_NULL, SCAM_DICT]

/-- The codes that are only used for typechecking. -/
def abstract_codes : List scamtype :=
  [SCAM_SEQ, SCAM_CONTAINER, SCAM_NUM, SCAM_CMP, SCAM_FUNCTION, SCAM_ANY]

/-- The types that `narrowest_type` can return: the concrete tags and `Num`,
`Seq`, `Container`, `Any` (the lattice of the specification's glossary). -/
def narrowest_lattice : List scamtype :=
  concrete_tags ++ [SCAM_NUM, SCAM_SEQ, SCAM_CONTAINER, SCAM_ANY]

/-- The set of tags of a type code, in the words of the specification:
`Num = {Int, Dec}`, `Seq = {List, Str}`, `Container = {List, Str, Dict}`,
`Cmp = {Int, Dec, Str}`, `Function = {Lambda, Builtin}`, `Any` = every tag, and a
concrete tag stands for itself. -/
def type_set : scamtype → List scamtype
  | SCAM_NUM => [SCAM_INT, SCAM_DEC]
  | SCAM_SEQ => [SCAM_LIST, SCAM_STR]
  | SCAM_CONTAINER => [SCAM_LIST, SCAM_STR, SCAM_DICT]
  | SCAM_CMP => [SCAM_INT, SCAM_DEC, SCAM_STR]
  | SCAM_FUNCTION => [SCAM_LAMBDA, SCAM_BUILTIN]
  | SCAM_ANY => concrete_tags
  | t => [t]

/-- The test that `scamval_typecheck` makes, as a function of the value's tag
(`scamval_typecheck_tag` shows that it is that test). -/
def tag_passes (tag type : scamtype) : Bool :=
  match type with
  | SCAM_ANY => true
  | SCAM_SEQ => tag == SCAM_LIST || tag == SCAM_STR
  | SCAM_CONTAINER => tag == SCAM_LIST || tag == SCAM_STR || tag == SCAM_DICT
  | SCAM_NUM => tag == SCAM_INT || tag == SCAM_DEC
  | SCAM_CMP => tag == SCAM_STR || tag == SCAM_INT || tag == SCAM_DEC
  | SCAM_FUNCTION => tag == SCAM_LAMBDA || tag == SCAM_BUILTIN
  | t => tag == t

/-- A value of each concrete tag (an `Int` for the abstract codes, which no
value carries). -/
def sample_of_tag : scamtype → scamval
  | SCAM_DEC => .dec true ⟨0⟩
  | SCAM_BOOL => .bool true 0
  | SCAM_LIST => .seq .list true 0 none
  | SCAM_STR => .str .str true 0 0 none
  | SCAM_LAMBDA => .lambda true (.null false) (.null false) (.null false)
  | SCAM_PORT => .port true true none
  | SCAM_BUILTIN => .builtin true 0 false
  | SCAM_SEXPR => .seq .sexpr true 0 none
  | SCAM_SYM => .str .sym true 0 0 none
  | SCAM_ERR => .str .err true 0 0 none
  | SCAM_NULL => .null false
  | SCAM_DICT => .dict true none (.seq .list false 0 none) (.seq .list false 0 none)
  | _ => .int true 0

/-- The check behind the minimality of `narrowest_type` on two concrete tags,
over the finite tables: the result accepts both tags, and every type of
`narrowest_lattice` that accepts both accepts every tag that the result
accepts. -/
def narrowest_least_check : Bool :=
  concrete_tags.all fun a => concrete_tags.all fun b =>
    tag_passes a (narrowest_type a b) && tag_passes b (narrowest_type a b) &&
    narrowest_lattice.all fun s =>
      !(tag_passes a s && tag_passes b s) ||
        concrete_tags.all fun t => !tag_passes t (narrowest_type a b) || tag_passes t s

/-! ## Ordered comparison -/

/-- Source: `scamval_numeric_gt`. -/
def scamval_numeric_gt (v1 v2 : scamval) : Bool :=
  if v1.type = SCAM_INT then
    if v2.type = SCAM_INT then decide (scam_as_int v1 > scam_as_int v2)
    else Dbl.gt (Dbl.ofInt (scam_as_int v1)) (scam_as_dec v2)
  else
    if v2.type = SCAM_INT then Dbl.gt (scam_as_dec v1) (Dbl.ofInt (scam_as_int v2))
    else Dbl.gt (scam_as_dec v1) (scam_as_dec v2)

/-- Source: `scamval_gt`.  `none` is undefined behaviour (`strcmp` through NULL
or past the end of a block). -/
def scamval_gt (v1 v2 : scamval) : Option Bool :=
  if scamval_typecheck v1 SCAM_NUM && scamval_typecheck v2 SCAM_NUM then
    some (scamval_numeric_gt v1 v2)
  else if scamval_typecheck v1 SCAM_STR && scamval_typecheck v2 SCAM_STR then
    (strcmp_ptr (scam_as_str v1) (scam_as_str v2)).map fun r => decide (r > 0)
  else some false

/-- Lexicographic order on byte strings, in the words of the specification:
the first string is greater when, at the first position where the two differ,
it has the greater byte, or when the second is a proper initial part of it. -/
def bytes_gt : List Char → List Char → Bool
  | [], _ => false
  | _ :: _, [] => true
  | c1 :: r1, c2 :: r2 =>
    if c1.toNat > c2.toNat then true
    else if c1.toNat < c2.toNat then false
    else bytes_gt r1 r2

/-! ## Subsequences -/

/-- Modelled from the spec: `collector.c` is not among the sources.
`copy(v)` "produces a deep structural copy whose children are freshly
allocated; the returned value is a root": in the value model, the same value
with its root flag set. -/
def gc_copy_scamval (v : scamval) : scamval := gc_set_root v

/-- The `for` loop of `scamseq_subseq`, `todo` iterations from index `i`:
append a copy of `seq[i]` to `ret`. -/
def scamseq_subseq_loop (seq : scamval) : Nat → Nat → scamval → Option scamval
  | 0, _, ret => some ret
  | todo + 1, i, ret =>
    match scamseq_get seq i with
    | none => none
    | some x =>
      match scamseq_append ret (gc_copy_scamval x) with
      | none => none
      | some ret => scamseq_subseq_loop seq todo (i + 1) ret

/-- Source: `scamseq_subseq` (the parameter `end` of the source is `stop`
here).  The function is modelled on sequences; for a value of another tag and a
range that passes the test, the result `none` stands for a value outside the
model. -/
def scamseq_subseq (seq : scamval) (start stop : Nat) : Option scamval :=
  let n := scamseq_len seq
  if stop ≤ n ∧ start ≤ stop then
    match seq with
    | .seq k _ _ _ => scamseq_subseq_loop seq (stop - start) start (scam_internal_seq k)
    | _ => none
  else some (scamerr "attempted sequence access out of bounds".toList)

/-! ## Conditions for the laws of equality -/

mutual
/-- No `Dict` at the top or inside `List`s and `SExpr`s at any depth (the
fields of a `Lambda` are not looked at by `scamval_eq`). -/
def dict_free : scamval → Bool
  | .dict _ _ _ _ => false
  | .seq _ _ _ a => dict_free_slots a
  | _ => true
/-- `dict_free` for every slot of a storage block. -/
def dict_free_slots : Option (List scamval) → Bool
  | none => true
  | some a => dict_free_all a
/-- `dict_free` for every element of a list. -/
def dict_free_all : List scamval → Bool
  | [] => true
  | x :: xs => dict_free x && dict_free_all xs
end

/-- No key of the list compares equal to an earlier one:
`scamval_eq(later, earlier)` is false for every pair. -/
def distinct_keys : List scamval → Bool
  | [] => true
  | k :: ks => ks.all (fun later => scamval_eq later k == some false) && distinct_keys ks

mutual
/-- Values that are equal to themselves under `scamval_eq`: `Int`, `Dec`
other than NaN, `Bool`, `Null`, `Str` and `Sym` with a NUL-terminated block,
`List`s and `SExpr`s of such values, and `Dict`s whose keys and values are such
values, with a value for every key and no key equal to an earlier one. -/
def eq_refl_ok : scamval → Bool
  | .int _ _ => true
  | .dec _ d => !d.isNaN
  | .bool _ _ => true
  | .null _ => true
  | .str .str _ _ _ s => (s.bind cstr).isSome
  | .str .sym _ _ _ s => (s.bind cstr).isSome
  | .seq _ _ _ a => eq_refl_ok_slots a
  | .dict _ _ (.seq _ _ _ ks) (.seq _ _ _ vs) =>
    eq_refl_ok_slots ks && eq_refl_ok_slots vs &&
      decide ((ks.getD []).length ≤ (vs.getD []).length) && distinct_keys (ks.getD [])
  | _ => false
/-- `eq_refl_ok` for every slot of a storage block. -/
def eq_refl_ok_slots : Option (List scamval) → Bool
  | none => true
  | some a => eq_refl_ok_all a
/-- `eq_refl_ok` for every element of a list. -/
def eq_refl_ok_all : List scamval → Bool
  | [] => true
  | x :: xs => eq_refl_ok x && eq_refl_ok_all xs
end

/-- A dictionary whose key list and value list are sequences. -/
def is_dict : scamval → Prop
  | .dict _ _ (.seq _ _ _ _) (.seq _ _ _ _) => True
  | _ => False

/-! ## More concrete inputs -/

/-- The list `[{}]`, holding the empty dictionary. -/
def list_of_empty_dict : scamval :=
  .seq .list true 5 (some [gc_unset_root (scamdict none)])

/-- The list `[{"a":1}]`, holding `dict_one`. -/
def list_of_dict_one : scamval :=
  .seq .list true 5 (some [gc_unset_root dict_one])

/-- The list `["a" 1]`. -/
def list_a_one : scamval :=
  .seq .list true 5 (some [gc_unset_root (scamstr "a".toList), .int false 1])


/-! ## Constructors -/

/-- Source: `scamint`. -/
def scamint (n : Int) : scamval := .int gc_new_is_root n

/-- Source: `scamdec`. -/
def scamdec (d : Dbl) : scamval := .dec gc_new_is_root d

/-- Source: `scambool`. -/
def scambool (b : Int) : scamval := .bool gc_new_is_root b

/-- Source: `scamlambda`. -/
def scamlambda (env parameters body : scamval) : scamval :=
  .lambda gc_new_is_root env parameters body

/-- Source: `scambuiltin`; the function pointer is a number here. -/
def scambuiltin (bltin : Nat) : scamval := .builtin gc_new_is_root bltin false

/-- Source: `scambuiltin_const`. -/
def scambuiltin_const (bltin : Nat) : scamval := .builtin gc_new_is_root bltin true

/-- Source: `scamport`; the `FILE*` is a number, `none` for NULL, and the
status is closed exactly for NULL. -/
def scamport (fp : Option Nat) : scamval := .port gc_new_is_root fp.isNone fp

/-! ## Narrowest type of a sequence -/

/-- The loop of `scamseq_narrowest_type` over the elements after the first. -/
def narrowest_scan : List scamval → scamtype → scamtype
  | [], type_so_far => type_so_far
  | x :: xs, type_so_far => narrowest_scan xs (narrowest_type x.type type_so_far)

/-- Source: `scamseq_narrowest_type`; `none` for an argument that is not a
sequence. -/
def scamseq_narrowest_type (args : scamval) : Option scamtype :=
  match args with
  | .seq _ _ _ a =>
    match a.getD [] with
    | [] => some SCAM_ANY
    | first :: rest => some (narrowest_scan rest first.type)
  | _ => none

/-- The list `[1 2.0 3]`. -/
def list_int_dec_int : scamval :=
  .seq .list true 5 (some [.int false 1, .dec false (Dbl.ofInt 2), .int false 3])

/-- The list `[1 3 2.0]`. -/
def list_int_int_dec : scamval :=
  .seq .list true 5 (some [.int false 1, .int false 3, .dec false (Dbl.ofInt 2)])

/-! ## String operations -/

/-- C `EOF` converted to `char`. -/
def EOF_char : Char := Char.ofNat 255

/-- Source: `scamstr_no_copy`: the value takes the block itself, with `count`
and `mem_size` both `strlen(s)`; `none` when the block holds no NUL. -/
def scamstr_no_copy (s : List Char) : Option scamval :=
  (cstr s).map fun text => .str .str gc_new_is_root text.length text.length (some s)

/-- Source: `scamstr_from_char`. -/
def scamstr_from_char (c : Char) : scamval := .str .str gc_new_is_root 1 2 (some [c, NUL])

/-- Source: `scamstr_get`. -/
def scamstr_get (v : scamval) (i : Nat) : Option Char :=
  if i < scamstr_len v then (scam_as_str v).bind fun b => b.get? i
  else some EOF_char

/-- Source: `scamstr_remove`.  The `memmove` reads the bytes from `end` up to
`count` and the store writes at the new `count`, so the block must hold `count`
bytes. -/
def scamstr_remove (v : scamval) (start stop : Nat) : Option scamval :=
  if stop ≤ scamstr_len v ∧ start < stop then
    match v with
    | .str k r count mem_size (some b) =>
      if count ≤ b.length then
        let moved := b.take start ++ (b.take count).drop stop ++ b.drop (start + (count - stop))
        let count := count - (stop - start)
        some (.str k r count mem_size (some (moved.set count NUL)))
      else none
    | _ => none
  else some v

/-- Source: `scamstr_pop`: the byte returned and the string afterwards. -/
def scamstr_pop (v : scamval) (i : Nat) : Option (Char × scamval) :=
  if i < scamstr_len v then
    match (scam_as_str v).bind fun b => b.get? i with
    | none => none
    | some ret => (scamstr_remove v i (i + 1)).map fun v => (ret, v)
  else some (EOF_char, v)

/-- Source: `scamstr_truncate`: a NUL is stored at index `i`; `count` is not
written. -/
def scamstr_truncate (v : scamval) (i : Nat) : Option scamval :=
  if i < scamstr_len v then
    match v with
    | .str k r count mem_size (some b) =>
      if i < b.length then some (.str k r count mem_size (some (b.set i NUL))) else none
    | _ => none
  else some v

/-- C `strncpy(dst, src, n)`: the `n` bytes written to `dst`, the bytes of `src`
up to its NUL, padded with NULs; `none` when `src` ends before that. -/
def strncpy : List Char → Nat → Option (List Char)
  | _, 0 => some []
  | [], _ + 1 => none
  | c :: r, n + 1 =>
    if c = NUL then some (List.replicate (n + 1) NUL) else (strncpy r n).map (c :: ·)

/-- Source: `scamstr_substr`. -/
def scamstr_substr (v : scamval) (start stop : Nat) : Option scamval :=
  if stop ≤ scamstr_len v ∧ start ≤ stop then
    match scam_as_str v with
    | none => none
    | some b =>
      match strncpy (b.drop start) (stop - start) with
      | none => none
      | some s => scamstr_no_copy (s ++ [NUL])
  else some (scamerr "string access out of bounds".toList)

/-! ## Unbound keys -/

mutual
/-- No key of the dictionary or of any dictionary along its enclosing chain is
equal to `key`: every comparison `scamval_eq(key, this_key)` that
`scamdict_lookup` makes answers false. -/
def unbound_in (key : scamval) : scamval → Bool
  | .dict _ enclosing (.seq _ _ _ ks) (.seq _ _ _ _) =>
    (ks.getD []).all (fun this_key => scamval_eq key this_key == some false) &&
      unbound_in_enclosing key enclosing
  | _ => false
/-- `unbound_in` for the enclosing dictionary, if there is one. -/
def unbound_in_enclosing (key : scamval) : Option scamval → Bool
  | some e => unbound_in key e
  | none => true
end

/-- The `mem_size` field of a sequence. -/
def seq_mem_size : scamval → Nat
  | .seq _ _ mem_size _ => mem_size
  | _ => 0

/-- A call of the sequence API that modifies the sequence `seq` under
consideration: `scamseq_insert(seq, i, v)`, `scamseq_append(seq, v)`,
`scamseq_prepend(seq, v)`, `scamseq_pop(seq, i)`, `scamseq_delete(seq, i)`,
`scamseq_concat(seq, seq2)` and `scamseq_concat(seq1, seq)`. -/
inductive seq_op where
  | insert (i : Nat) (v : scamval)
  | append (v : scamval)
  | prepend (v : scamval)
  | pop (i : Nat)
  | delete (i : Nat)
  | concat (seq2 : scamval)
  | concat_onto (seq1 : scamval)

/-- The sequence after the call; `none` when the call is undefined. -/
def apply_seq_op (seq : scamval) : seq_op → Option scamval
  | .insert i v => scamseq_insert seq i v
  | .append v => scamseq_append seq v
  | .prepend v => scamseq_prepend seq v
  | .pop i => (scamseq_pop seq i).map fun p => p.2
  | .delete i => scamseq_delete seq i
  | .concat seq2 => (scamseq_concat seq seq2).map fun p => p.1
  | .concat_onto seq1 => (scamseq_concat seq1 seq).map fun p => p.2

/-- The sequence after a series of calls, first call first. -/
def run_seq_ops : scamval → List seq_op → Option scamval
  | s, [] => some s
  | s, op :: ops =>
    match apply_seq_op s op with
    | none => none
    | some s => run_seq_ops s ops

/-- The condition on a call: an insert index is not past the end, and the
other argument of a concatenation is a sequence. -/
def seq_op_in_range (seq : scamval) : seq_op → Bool
  | .insert i _ => decide (i ≤ scamseq_len seq)
  | .concat (.seq _ _ _ _) => true
  | .concat _ => false
  | .concat_onto (.seq _ _ _ _) => true
  | .concat_onto _ => false
  | _ => true

/-- Every call of the series meets `seq_op_in_range` on the sequence it is
applied to. -/
def seq_ops_in_range : scamval → List seq_op → Bool
  | _, [] => true
  | s, op :: ops =>
    seq_op_in_range s op &&
      match apply_seq_op s op with
      | none => true
      | some s => seq_ops_in_range s ops

/-- A series of calls: six appends, a pop, a concatenation of `["a" 1]`, an
insert at the end, a delete out of range and a prepend. -/
def sample_seq_ops : List seq_op :=
  [.append (scamint 1), .append (scamint 2), .append (scamint 3), .append (scamint 4),
    .append (scamint 5), .append (scamint 6), .pop 0, .concat list_a_one,
    .insert 7 (scamint 8), .delete 9, .prepend (scamint 0)]

/-! ## Printing -/

/-- The double quote. -/
def DQUOTE : Char := Char.ofNat 34

/-- C `printf("%lli", n)`: the decimal digits of `n`, after a minus sign when
`n` is negative. -/
def fmt_lli (n : Int) : List Char :=
  if n < 0 then '-' :: Nat.toDigits 10 n.natAbs else Nat.toDigits 10 n.natAbs

/-- The loop of `scamseq_print` from index `i`, the output of `scamval_print`
on each of the remaining elements given as a list (`none` where that call is
undefined): each element, then a space unless `i` is `count - 1`. -/
def seq_print_scan (count : Nat) : Nat → List (Option (List Char)) → Option (List Char)
  | _, [] => some []
  | i, p :: ps =>
    match p with
    | none => none
    | some out =>
      (seq_print_scan count (i + 1) ps).map fun rest =>
        out ++ (if i ≠ count - 1 then " ".toList else []) ++ rest

/-- The loop of `scamdict_print` from index `i`, the output of `scamval_print`
on each of the remaining keys and on the values from `i` on given as lists: the
key, a colon, the value, then a space unless `i` is `scamdict_len(dct) - 1`.
A key without a value at its index is a read outside the value list. -/
def dict_print_scan (len : Nat) :
    Nat → List (Option (List Char)) → List (Option (List Char)) → Option (List Char)
  | _, [], _ => some []
  | i, some key :: ks, some val :: vs =>
    (dict_print_scan len (i + 1) ks vs).map fun rest =>
      key ++ ":".toList ++ val ++ (if i ≠ len - 1 then " ".toList else []) ++ rest
  | _, _ :: _, _ => none

mutual
/-- Source: `scamval_print`: the bytes written to the standard output, `none`
when a `%s` is handed NULL or a block without NUL, or when a dictionary is not
made of two sequences.  The rendering of a `double` by `%f` is the parameter
`fmt_f`.  The `switch` has no case for `Null`, for which nothing is written. -/
def scamval_print (fmt_f : Dbl → List Char) : scamval → Option (List Char)
  | .int _ n => some (fmt_lli n)
  | .dec _ d => some (fmt_f d)
  | .bool _ n => some (if n ≠ 0 then "true".toList else "false".toList)
  | .seq .list _ _ a =>
    (seq_print_scan (a.getD []).length 0 (scamval_print_slots fmt_f a)).map fun body =>
      "[".toList ++ body ++ "]".toList
  | .seq .sexpr _ _ a =>
    (seq_print_scan (a.getD []).length 0 (scamval_print_slots fmt_f a)).map fun body =>
      "(".toList ++ body ++ ")".toList
  | .lambda _ _ _ _ => some "<Scam function>".toList
  | .builtin _ _ _ => some "<Scam builtin>".toList
  | .port _ _ _ => some "<Scam port>".toList
  | .str .str _ _ _ s => (s.bind cstr).map fun text => [DQUOTE] ++ text ++ [DQUOTE]
  | .str .sym _ _ _ s => s.bind cstr
  | .str .err _ _ _ s => (s.bind cstr).map fun text => "Error: ".toList ++ text
  | .dict _ _ (.seq _ _ _ ks) (.seq _ _ _ vs) =>
    (dict_print_scan (ks.getD []).length 0 (scamval_print_slots fmt_f ks)
        (scamval_print_slots fmt_f vs)).map fun body =>
      "\x7b".toList ++ body ++ "\x7d".toList
  | .dict _ _ _ _ => none
  | .null _ => some []
/-- The output of `scamval_print` on every slot of a storage block. -/
def scamval_print_slots (fmt_f : Dbl → List Char) :
    Option (List scamval) → List (Option (List Char))
  | some a => scamval_print_each fmt_f a
  | none => []
/-- The output of `scamval_print` on every element of a list. -/
def scamval_print_each (fmt_f : Dbl → List Char) :
    List scamval → List (Option (List Char))
  | [] => []
  | x :: xs => scamval_print fmt_f x :: scamval_print_each fmt_f xs
end

mutual
/-- The canonical rendering in the words of the specification: the decimal
integer for `Int`; `%f` style for `Dec`; `true` or `false` for `Bool`; the raw
bytes in double quotes for `Str`; the bare text for `Sym`; `Error: ` followed
by the message for `Err`; `[`, the renderings of the elements separated by
single spaces, `]` for `List`, and the same in parentheses for `SExpr`; `{`,
the `key:value` renderings in insertion order separated by single spaces, `}`
for `Dict`; the fixed texts for `Lambda`, `Builtin` and `Port`; nothing for
`Null`. -/
def rendering (fmt_f : Dbl → List Char) : scamval → List Char
  | .int _ n => fmt_lli n
  | .dec _ d => fmt_f d
  | .bool _ n => if n = 0 then "false".toList else "true".toList
  | .str .str _ _ _ s => [DQUOTE] ++ (s.bind cstr).getD [] ++ [DQUOTE]
  | .str .sym _ _ _ s => (s.bind cstr).getD []
  | .str .err _ _ _ s => "Error: ".toList ++ (s.bind cstr).getD []
  | .seq .list _ _ a =>
    "[".toList ++ List.intercalate " ".toList (rendering_slots fmt_f a) ++ "]".toList
  | .seq .sexpr _ _ a =>
    "(".toList ++ List.intercalate " ".toList (rendering_slots fmt_f a) ++ ")".toList
  | .dict _ _ (.seq _ _ _ ks) (.seq _ _ _ vs) =>
    "\x7b".toList ++
      List.intercalate " ".toList
        (List.zipWith (fun key val => key ++ ":".toList ++ val)
          (rendering_slots fmt_f ks) (rendering_slots fmt_f vs)) ++
      "\x7d".toList
  | .dict _ _ _ _ => []
  | .lambda _ _ _ _ => "<Scam function>".toList
  | .builtin _ _ _ => "<Scam builtin>".toList
  | .port _ _ _ => "<Scam port>".toList
  | .null _ => []
/-- The renderings of the slots of a storage block. -/
def rendering_slots (fmt_f : Dbl → List Char) : Option (List scamval) → List (List Char)
  | some a => rendering_all fmt_f a
  | none => []
/-- The renderings of the elements of a list. -/
def rendering_all (fmt_f : Dbl → List Char) : List scamval → List (List Char)
  | [] => []
  | x :: xs => rendering fmt_f x :: rendering_all fmt_f xs
end

mutual
/-- Values that `scamval_print` is defined on: every `Str`, `Sym` and `Err`, at
the top or inside sequences and dictionaries, has a NUL-terminated block, and
every `Dict` is made of a key list and a value list of the same length. -/
def print_ok : scamval → Bool
  | .str _ _ _ _ s => (s.bind cstr).isSome
  | .seq _ _ _ a => print_ok_slots a
  | .dict _ _ (.seq _ _ _ ks) (.seq _ _ _ vs) =>
    print_ok_slots ks && print_ok_slots vs &&
      decide ((ks.getD []).length = (vs.getD []).length)
  | .dict _ _ _ _ => false
  | _ => true
/-- `print_ok` for every slot of a storage block. -/
def print_ok_slots : Option (List scamval) → Bool
  | none => true
  | some a => print_ok_all a
/-- `print_ok` for every element of a list. -/
def print_ok_all : List scamval → Bool
  | [] => true
  | x :: xs => print_ok x && print_ok_all xs
end

/-- The double `%f` rendering used in examples, which hold no `Dec`. -/
def fmt_f_none : Dbl → List Char := fun _ => []

/-! ## Dictionaries with a key that cannot be compared -/

/-- The empty dictionary after binding the empty string of `scamstr_empty`
to 1. -/
def dict_keyed_by_empty_str : scamval :=
  .dict true none (.seq .list false 5 (some [gc_unset_root scamstr_empty]))
    (.seq .list false 5 (some [.int false 1]))

/-- The dictionary `{2: 3}`. -/
def dict_2_3 : scamval :=
  .dict true none (.seq .list false 5 (some [.int false 2]))
    (.seq .list false 5 (some [.int false 3]))

/-- The dictionary `{1: s}` with `s` the empty string of `scamstr_empty`. -/
def dict_1_empty_str : scamval :=
  .dict true none (.seq .list false 5 (some [.int false 1]))
    (.seq .list false 5 (some [gc_unset_root scamstr_empty]))

/-- The dictionary `{1: "a", 2: 3}`. -/
def dict_1a_2_3 : scamval :=
  .dict true none (.seq .list false 5 (some [.int false 1, .int false 2]))
    (.seq .list false 5 (some [gc_unset_root (scamstr "a".toList), .int false 3]))

/-- The empty dictionary after binding `dict_2_3` to 10 and `dict_1_empty_str`
to 20. -/
def dict_keyed_mixed : scamval :=
  .dict true none
    (.seq .list false 5 (some [gc_unset_root dict_2_3, gc_unset_root dict_1_empty_str]))
    (.seq .list false 5 (some [.int false 10, .int false 20]))
/-! ## Root flags -/

theorem with_root_with_root (b c : Bool) (v : scamval) :
    (v.with_root b).with_root c = v.with_root c := by
  cases v <;> rfl

theorem is_root_with_root (b : Bool) (v : scamval) : (v.with_root b).is_root = b := by
  cases v <;> rfl

theorem with_root_is_root (v : scamval) : v.with_root v.is_root = v := by
  cases v <;> rfl

theorem type_with_root (b : Bool) (v : scamval) : (v.with_root b).type = v.type := by
  cases v with
  | seq k _ _ _ => cases k <;> rfl
  | str k _ _ _ _ => cases k <;> rfl
  | _ => rfl

theorem gc_unset_root_set_root (v : scamval) :
    gc_unset_root (gc_set_root v) = gc_unset_root v :=
  with_root_with_root true false v

theorem gc_unset_root_idem (v : scamval) :
    gc_unset_root (gc_unset_root v) = gc_unset_root v :=
  with_root_with_root false false v

theorem gc_unset_root_of_not_root (v : scamval) (h : v.is_root = false) :
    gc_unset_root v = v := by
  have := with_root_is_root v
  rw [h] at this
  exact this

/-! ## Sequence lemmas -/

theorem scamseq_grow_seq (k : seqkind) (r : Bool) (m : Nat) (a : Option (List scamval))
    (n : Nat) (h : (a.getD []).length ≤ n) :
    ∃ m', scamseq_grow (.seq k r m a) n = .seq k r m' (some (a.getD [])) ∧ n ≤ m' := by
  cases a with
  | none =>
    refine ⟨if SEQ_SIZE_INITIAL < n then n else SEQ_SIZE_INITIAL, rfl, ?_⟩
    split_ifs <;> omega
  | some l =>
    simp only [Option.getD_some] at h ⊢
    refine ⟨if m * SEQ_SIZE_GROW % 2 ^ 64 < n then n else m * SEQ_SIZE_GROW % 2 ^ 64, ?_, ?_⟩
    · have hle : l.length ≤
          (if m * SEQ_SIZE_GROW % 2 ^ 64 < n then n else m * SEQ_SIZE_GROW % 2 ^ 64) := by
        split_ifs <;> omega
      simp only [scamseq_grow]
      rw [List.take_of_length_le hle]
    · split_ifs <;> omega

/-- An in-range insert into a sequence that satisfies the capacity invariant
succeeds; the new slots are the old ones with the value spliced in, the new
capacity covers them, and it is the old capacity when that had room. -/
theorem scamseq_insert_seq (k : seqkind) (r : Bool) (m : Nat) (a : Option (List scamval))
    (i : Nat) (v : scamval) (hs : seq_ok (.seq k r m a)) (hi : i ≤ (a.getD []).length) :
    ∃ m', scamseq_insert (.seq k r m a) i v =
        some (.seq k r m' (some ((a.getD []).take i ++ gc_unset_root v :: (a.getD []).drop i)))
      ∧ (a.getD []).length + 1 ≤ m' ∧ ((a.getD []).length + 1 ≤ m → m' = m) := by
  by_cases hc : (a.getD []).length + 1 > m
  · obtain ⟨m', hg, hm'⟩ := scamseq_grow_seq k r m a ((a.getD []).length + 1) (by omega)
    refine ⟨m', ?_, hm', fun h => by omega⟩
    have hlt : i < (a.getD []).length + 1 ∧ (a.getD []).length + 1 ≤ m' := by omega
    simp only [scamseq_insert, hc, if_true, hg, hlt, and_self]
  · cases a with
    | none =>
      simp only [seq_ok] at hs
      subst hs
      simp at hc
    | some l =>
      simp only [Option.getD_some] at hi hc ⊢
      refine ⟨m, ?_, by omega, fun _ => rfl⟩
      have hlt : i < l.length + 1 ∧ l.length + 1 ≤ m := by omega
      simp [scamseq_insert, hc, hlt]

theorem get?_splice_lt (l : List scamval) (v : scamval) (i j : Nat) (hi : i ≤ l.length)
    (hj : j < i) : (l.take i ++ v :: l.drop i).get? j = l.get? j := by
  simp only [List.get?_eq_getElem?]
  rw [List.getElem?_append_left (by simp; omega), List.getElem?_take_of_lt hj]

theorem get?_splice_eq (l : List scamval) (v : scamval) (i : Nat) (hi : i ≤ l.length) :
    (l.take i ++ v :: l.drop i).get? i = some v := by
  simp only [List.get?_eq_getElem?]
  rw [List.getElem?_append_right (by simp)]
  simp [Nat.min_eq_left hi]

theorem get?_splice_gt (l : List scamval) (v : scamval) (i j : Nat) (hi : i ≤ l.length)
    (hj : i ≤ j) : (l.take i ++ v :: l.drop i).get? (j + 1) = l.get? j := by
  simp only [List.get?_eq_getElem?]
  rw [List.getElem?_append_right (by simp; omega)]
  simp only [List.length_take, Nat.min_eq_left hi]
  have : j + 1 - i = (j - i) + 1 := by omega
  rw [this, List.getElem?_cons_succ, List.getElem?_drop]
  congr 1
  omega

theorem scamseq_pop_head (k : seqkind) (r : Bool) (m : Nat) (x : scamval) (l : List scamval) :
    scamseq_pop (.seq k r m (some (x :: l))) 0 = some (gc_set_root x, .seq k r m (some l)) := by
  simp [scamseq_pop, scamseq_len]

/-- The loop of `scamseq_concat` moves every element of the second sequence to
the end of the first, given room for them and fuel for each. -/
theorem scamseq_concat_loop_seq (k2 : seqkind) (r2 : Bool) (m2 : Nat) (l2 : List scamval) :
    ∀ (fuel : Nat) (k : seqkind) (r : Bool) (m : Nat) (l1 : List scamval),
      l2.length ≤ fuel → l1.length + l2.length ≤ m →
      scamseq_concat_loop fuel (.seq k r m (some l1)) (.seq k2 r2 m2 (some l2)) =
        some (.seq k r m (some (l1 ++ l2.map gc_unset_root)), .seq k2 r2 m2 (some [])) := by
  induction l2 with
  | nil =>
    intro fuel k r m l1 _ _
    cases fuel <;> simp [scamseq_concat_loop, scamseq_len]
  | cons x l2 ih =>
    intro fuel k r m l1 hf hm
    cases fuel with
    | zero => simp at hf
    | succ fuel =>
      simp only [List.length_cons] at hf hm
      obtain ⟨m', hins, _, hkeep⟩ := scamseq_insert_seq k r m (some l1) l1.length
        (gc_set_root x) (by simp only [seq_ok]; omega) (by simp)
      have hm' : m' = m := hkeep (by simp only [Option.getD_some]; omega)
      subst hm'
      simp only [Option.getD_some, List.take_length, List.drop_length,
        gc_unset_root_set_root] at hins
      have happ : scamseq_append (.seq k r m' (some l1)) (gc_set_root x) =
          some (.seq k r m' (some (l1 ++ [gc_unset_root x]))) := by
        simpa [scamseq_append, scamseq_len] using hins
      rw [scamseq_concat_loop]
      simp only [scamseq_len, Option.getD_some, List.length_cons, Nat.succ_pos, if_true,
        gt_iff_lt, Nat.zero_lt_succ, scamseq_pop_head, happ]
      rw [ih fuel k r m' (l1 ++ [gc_unset_root x]) (by omega) (by simp; omega)]
      simp

/-- C9.  For every sequence `s` that satisfies the capacity invariant, every
index `i ≤ scamseq_len s` and every value `v`, `scamseq_insert s i v` succeeds;
afterwards the length has grown by one, `scamseq_get s i` is `v` with its
is-root flag cleared, the elements before `i` are unchanged, each original
element at `j ≥ i` sits at `j + 1`; `scamseq_append` is the case
`i = scamseq_len s` (so the last element is `v`) and `scamseq_prepend` the case
`i = 0`. -/
theorem scamseq_insert_post (s v : scamval) (i : Nat) (hs : seq_ok s)
    (hi : i ≤ scamseq_len s) :
    ∃ s', scamseq_insert s i v = some s' ∧
      scamseq_len s' = scamseq_len s + 1 ∧
      scamseq_get s' i = some (gc_unset_root v) ∧
      (gc_unset_root v).is_root = false ∧
      gc_unset_root v = v.with_root false ∧
      (∀ j, j < i → scamseq_get s' j = scamseq_get s j) ∧
      (∀ j, i ≤ j → j < scamseq_len s → scamseq_get s' (j + 1) = scamseq_get s j) ∧
      scamseq_prepend s v = scamseq_insert s 0 v ∧
      scamseq_append s v = scamseq_insert s (scamseq_len s) v ∧
      (i = scamseq_len s → scamseq_get s' (scamseq_len s' - 1) = some (gc_unset_root v)) := by
  match s, hs with
  | .seq k r m a, hs =>
    simp only [scamseq_len] at hi
    obtain ⟨m', hins, _, _⟩ := scamseq_insert_seq k r m a i v hs hi
    have hlen : scamseq_len (.seq k r m' (some ((a.getD []).take i ++ gc_unset_root v ::
        (a.getD []).drop i))) = (a.getD []).length + 1 := by
      simp [scamseq_len]
      omega
    have hget : scamseq_get (.seq k r m' (some ((a.getD []).take i ++ gc_unset_root v ::
        (a.getD []).drop i))) i = some (gc_unset_root v) := by
      simp only [scamseq_get]
      exact get?_splice_eq _ _ _ hi
    refine ⟨_, hins, hlen, hget, is_root_with_root false v, rfl, ?_, ?_, rfl, rfl, ?_⟩
    · intro j hj
      cases a with
      | none => simp at hi; omega
      | some l =>
        simp only [scamseq_get, Option.getD_some]
        exact get?_splice_lt _ _ _ _ hi hj
    · intro j hj hjl
      cases a with
      | none => simp [scamseq_len] at hjl
      | some l =>
        simp only [scamseq_get, Option.getD_some]
        exact get?_splice_gt _ _ _ _ hi hj
    · intro hie
      rw [hlen]
      simp only [scamseq_len] at hie
      rw [Nat.add_sub_cancel, ← hie]
      exact hget

/-- A concrete instance of `scamseq_insert_post`: inserting at index 1 of a
one-element list. -/
theorem scamseq_insert_post_witness :
    ∃ s', scamseq_insert seq_one 1 (.int true 8) = some s' ∧
      scamseq_len s' = scamseq_len seq_one + 1 ∧
      scamseq_get s' 1 = some (gc_unset_root (.int true 8)) ∧
      (gc_unset_root (.int true 8)).is_root = false ∧
      gc_unset_root (.int true 8) = (scamval.int true 8).with_root false ∧
      (∀ j, j < 1 → scamseq_get s' j = scamseq_get seq_one j) ∧
      (∀ j, 1 ≤ j → j < scamseq_len seq_one →
        scamseq_get s' (j + 1) = scamseq_get seq_one j) ∧
      scamseq_prepend seq_one (.int true 8) = scamseq_insert seq_one 0 (.int true 8) ∧
      scamseq_append seq_one (.int true 8) =
        scamseq_insert seq_one (scamseq_len seq_one) (.int true 8) ∧
      (1 = scamseq_len seq_one →
        scamseq_get s' (scamseq_len s' - 1) = some (gc_unset_root (.int true 8))) :=
  scamseq_insert_post seq_one (.int true 8) 1 (by simp [seq_one, seq_ok]) (by decide)

/-- C10.  For every non-empty sequence `s` that satisfies the capacity
invariant and every value `v`: `scamseq_pop s 0` returns element 0 (as a root),
and `scamseq_prepend` of `v` onto what is left gives a sequence of the original
length whose element 0 is `v` (flag cleared) and whose elements `1..` are the
original ones; prepending the popped element itself puts the original element
back in front of the original rest, and gives back `s` itself when that
element was not a root. -/
theorem scamseq_pop_prepend (s v : scamval) (hs : seq_ok s) (hne : 0 < scamseq_len s) :
    ∃ e0 s1 s2 s3, scamseq_get s 0 = some e0 ∧
      scamseq_pop s 0 = some (gc_set_root e0, s1) ∧
      scamseq_prepend s1 v = some s2 ∧
      scamseq_len s2 = scamseq_len s ∧
      scamseq_get s2 0 = some (gc_unset_root v) ∧
      (∀ j, 1 ≤ j → scamseq_get s2 j = scamseq_get s j) ∧
      scamseq_prepend s1 (gc_set_root e0) = some s3 ∧
      scamseq_len s3 = scamseq_len s ∧
      scamseq_get s3 0 = some (gc_unset_root e0) ∧
      (∀ j, 1 ≤ j → scamseq_get s3 j = scamseq_get s j) ∧
      (e0.is_root = false → s3 = s) := by
  match s, hs, hne with
  | .seq k r m (some (x :: l)), hs, _ =>
    simp only [seq_ok, List.length_cons] at hs
    have hprep : ∀ w, scamseq_prepend (.seq k r m (some l)) w =
        some (.seq k r m (some (gc_unset_root w :: l))) := by
      intro w
      obtain ⟨m', hins, _, hkeep⟩ := scamseq_insert_seq k r m (some l) 0 w
        (by simp only [seq_ok]; omega) (by simp)
      have hm' : m' = m := hkeep (by simp only [Option.getD_some]; omega)
      subst hm'
      simpa [scamseq_prepend] using hins
    refine ⟨x, .seq k r m (some l), _, _, by simp [scamseq_get], scamseq_pop_head k r m x l,
      hprep v, by simp [scamseq_len], by simp [scamseq_get], ?_, hprep (gc_set_root x),
      by simp [scamseq_len], by simp [scamseq_get, gc_unset_root_set_root], ?_, ?_⟩
    · intro j hj
      obtain ⟨j, rfl⟩ : ∃ j', j = j' + 1 := ⟨j - 1, by omega⟩
      simp [scamseq_get]
    · intro j hj
      obtain ⟨j, rfl⟩ : ∃ j', j = j' + 1 := ⟨j - 1, by omega⟩
      simp [scamseq_get]
    · intro hx
      rw [gc_unset_root_set_root, gc_unset_root_of_not_root x hx]
  | .seq k r m (some []), _, hne => simp [scamseq_len] at hne
  | .seq k r m none, _, hne => simp [scamseq_len] at hne

/-- A concrete instance of `scamseq_pop_prepend` on a one-element list. -/
theorem scamseq_pop_prepend_witness :
    ∃ e0 s1 s2 s3, scamseq_get seq_one 0 = some e0 ∧
      scamseq_pop seq_one 0 = some (gc_set_root e0, s1) ∧
      scamseq_prepend s1 (.int true 8) = some s2 ∧
      scamseq_len s2 = scamseq_len seq_one ∧
      scamseq_get s2 0 = some (gc_unset_root (.int true 8)) ∧
      (∀ j, 1 ≤ j → scamseq_get s2 j = scamseq_get seq_one j) ∧
      scamseq_prepend s1 (gc_set_root e0) = some s3 ∧
      scamseq_len s3 = scamseq_len seq_one ∧
      scamseq_get s3 0 = some (gc_unset_root e0) ∧
      (∀ j, 1 ≤ j → scamseq_get s3 j = scamseq_get seq_one j) ∧
      (e0.is_root = false → s3 = seq_one) :=
  scamseq_pop_prepend seq_one (.int true 8) (by simp [seq_one, seq_ok]) (by decide)

/-- C8.  For all sequences `a` and `b`, `scamseq_concat a b` succeeds; afterwards
the elements of `a` are the original elements of `a` followed by the original
elements of `b` in order, each with its is-root flag cleared (so the very same
values when they were not roots), the length of `a` is the sum of the two
lengths, and `b` has length 0. -/
theorem scamseq_concat_post (a b : scamval) (ha : is_seq a) (hb : is_seq b) :
    ∃ a' b', scamseq_concat a b = some (a', b') ∧
      scamseq_elems a' = scamseq_elems a ++ (scamseq_elems b).map gc_unset_root ∧
      ((∀ x ∈ scamseq_elems b, x.is_root = false) →
        scamseq_elems a' = scamseq_elems a ++ scamseq_elems b) ∧
      scamseq_len a' = scamseq_len a + scamseq_len b ∧
      scamseq_len b' = 0 := by
  have key : ∃ a' b', scamseq_concat a b = some (a', b') ∧
      scamseq_elems a' = scamseq_elems a ++ (scamseq_elems b).map gc_unset_root ∧
      scamseq_len a' = scamseq_len a + scamseq_len b ∧
      scamseq_len b' = 0 := by
    match a, ha, b, hb with
    | .seq k r m a1, _, .seq k2 r2 m2 none, _ =>
      exact ⟨.seq k r m a1, .seq k2 r2 m2 none, by simp [scamseq_concat, scamseq_len],
        by simp [scamseq_elems], by simp [scamseq_len], by simp [scamseq_len]⟩
    | .seq k r m a1, _, .seq k2 r2 m2 (some []), _ =>
      exact ⟨.seq k r m a1, .seq k2 r2 m2 (some []), by simp [scamseq_concat, scamseq_len],
        by simp [scamseq_elems], by simp [scamseq_len], by simp [scamseq_len]⟩
    | .seq k r m none, _, .seq k2 r2 m2 (some (x :: l2)), _ =>
      refine ⟨.seq k r (0 + (l2.length + 1)) (some ([] ++ (x :: l2).map gc_unset_root)),
        .seq k2 r2 m2 (some []), ?_, ?_, ?_, ?_⟩
      · simp only [scamseq_concat, scamseq_len, Option.getD_some, List.length_cons,
          gt_iff_lt, Nat.zero_lt_succ, if_true, scamseq_resize, Option.getD_none,
          List.length_nil]
        exact scamseq_concat_loop_seq k2 r2 m2 (x :: l2) _ k r _ [] (by simp) (by simp)
      · simp [scamseq_elems]
      · simp [scamseq_len]
      · simp [scamseq_len]
    | .seq k r m (some l1), _, .seq k2 r2 m2 (some (x :: l2)), _ =>
      refine ⟨.seq k r (l1.length + (l2.length + 1)) (some (l1 ++ (x :: l2).map gc_unset_root)),
        .seq k2 r2 m2 (some []), ?_, ?_, ?_, ?_⟩
      · simp only [scamseq_concat, scamseq_len, Option.getD_some, List.length_cons,
          gt_iff_lt, Nat.zero_lt_succ, if_true, scamseq_resize]
        rw [List.take_of_length_le (by omega)]
        exact scamseq_concat_loop_seq k2 r2 m2 (x :: l2) _ k r _ l1 (by simp) (by simp)
      · simp [scamseq_elems]
      · simp [scamseq_len]
      · simp [scamseq_len]
  obtain ⟨a', b', h1, h2, h3, h4⟩ := key
  refine ⟨a', b', h1, h2, ?_, h3, h4⟩
  intro hroot
  rw [h2]
  congr 1
  calc (scamseq_elems b).map gc_unset_root = (scamseq_elems b).map id :=
        List.map_congr_left fun x hx => gc_unset_root_of_not_root x (hroot x hx)
    _ = scamseq_elems b := List.map_id _

/-- A concrete instance of `scamseq_concat_post`: a list and a two-element
S-expression. -/
theorem scamseq_concat_post_witness :
    ∃ a' b', scamseq_concat seq_one (.seq .sexpr true 2 (some [.int false 1, .int false 2]))
        = some (a', b') ∧
      scamseq_elems a' = scamseq_elems seq_one ++
        (scamseq_elems (.seq .sexpr true 2 (some [.int false 1, .int false 2]))).map
          gc_unset_root ∧
      ((∀ x ∈ scamseq_elems (.seq .sexpr true 2 (some [.int false 1, .int false 2])),
          x.is_root = false) →
        scamseq_elems a' = scamseq_elems seq_one ++
          scamseq_elems (.seq .sexpr true 2 (some [.int false 1, .int false 2]))) ∧
      scamseq_len a' = scamseq_len seq_one +
        scamseq_len (.seq .sexpr true 2 (some [.int false 1, .int false 2])) ∧
      scamseq_len b' = 0 :=
  scamseq_concat_post seq_one _ trivial trivial

/-! ## String lemmas -/

theorem cstr_append_nul (t rest : List Char) (h : ∀ c ∈ t, c ≠ NUL) :
    cstr (t ++ NUL :: rest) = some t := by
  induction t with
  | nil => simp [cstr]
  | cons c t ih =>
    have hc : c ≠ NUL := h c (List.mem_cons_self _ _)
    have ht : ∀ d ∈ t, d ≠ NUL := fun d hd => h d (List.mem_cons_of_mem _ hd)
    simp [cstr, hc, ih ht]

theorem cstr_eq_some (buf t : List Char) (h : cstr buf = some t) :
    (∀ c ∈ t, c ≠ NUL) ∧ ∃ rest, buf = t ++ NUL :: rest := by
  induction buf generalizing t with
  | nil => simp [cstr] at h
  | cons c buf ih =>
    simp only [cstr] at h
    split_ifs at h with hc
    · cases h
      exact ⟨by simp, buf, by simp [hc]⟩
    · cases hb : cstr buf with
      | none => simp [hb] at h
      | some t' =>
        simp only [hb, Option.map_some', Option.some.injEq] at h
        subst h
        obtain ⟨h1, rest, h2⟩ := ih t' hb
        refine ⟨?_, rest, by simp [h2]⟩
        intro d hd
        rcases List.mem_cons.mp hd with rfl | hd
        · exact hc
        · exact h1 d hd

theorem take_set_succ (l : List Char) :
    ∀ (n : Nat) (c : Char), n < l.length → (l.set n c).take (n + 1) = l.take n ++ [c] := by
  induction l with
  | nil => intro n c h; simp at h
  | cons x l ih =>
    intro n c h
    cases n with
    | zero => simp
    | succ n =>
      simp only [List.length_cons, Nat.add_lt_add_iff_right] at h
      simp [ih n c h]

theorem drop_set_lt (l : List Char) :
    ∀ (n m : Nat) (c : Char), n < m → (l.set n c).drop m = l.drop m := by
  induction l with
  | nil => intro n m c _; simp
  | cons x l ih =>
    intro n m c h
    cases m with
    | zero => omega
    | succ m =>
      cases n with
      | zero => simp
      | succ n => simp [ih n m c (by omega)]

/-- The copying loop of `scamstr_concat` succeeds when the source holds the
bytes it reads and the destination the bytes it writes; it replaces the
`todo` bytes of the destination from `n1 + i` on by those of the source from
`i` on. -/
theorem scamstr_concat_loop_eq (src : List Char) (n1 : Nat) :
    ∀ (todo i : Nat) (dst : List Char), i + todo ≤ src.length →
      n1 + i + todo ≤ dst.length →
      scamstr_concat_loop src n1 todo i dst =
        some (dst.take (n1 + i) ++ (src.drop i).take todo ++ dst.drop (n1 + i + todo)) := by
  intro todo
  induction todo with
  | zero =>
    intro i dst _ _
    simp [scamstr_concat_loop]
  | succ todo ih =>
    intro i dst hs hd
    have hi : i < src.length := by omega
    have hget : src.get? i = some src[i] := by
      rw [List.get?_eq_getElem?]
      exact List.getElem?_eq_getElem hi
    have hlt : n1 + i < dst.length := by omega
    rw [scamstr_concat_loop]
    simp only [hget, hlt, if_true]
    rw [ih (i + 1) (dst.set (n1 + i) src[i]) (by omega) (by simp; omega)]
    congr 1
    have h1 : (dst.set (n1 + i) src[i]).take (n1 + (i + 1)) = dst.take (n1 + i) ++ [src[i]] :=
      take_set_succ dst (n1 + i) src[i] hlt
    have h2 : (dst.set (n1 + i) src[i]).drop (n1 + (i + 1) + todo) =
        dst.drop (n1 + i + (todo + 1)) := by
      rw [drop_set_lt dst (n1 + i) _ src[i] (by omega)]
      congr 1
      omega
    have h3 : (src.drop i).take (todo + 1) = src[i] :: (src.drop (i + 1)).take todo := by
      rw [List.drop_eq_getElem_cons hi, List.take_succ_cons]
    rw [h1, h2, h3]
    simp

theorem resized_block_length (s : Option (List Char)) (n : Nat) :
    (resized_block s n).length = n := by
  cases s with
  | none => simp [resized_block]
  | some b =>
    simp only [resized_block, List.length_append, List.length_take, List.length_replicate]
    omega

theorem resized_block_take (b : List Char) (n c : Nat) (hc : c ≤ b.length) (hn : c ≤ n) :
    (resized_block (some b) n).take c = b.take c := by
  simp only [resized_block]
  rw [List.take_append_of_le_length (by simp; omega), List.take_take, Nat.min_eq_left hn]

/-- `scamstr_concat` on two strings succeeds when the second one has a block
that holds its bytes and the terminator; the first one gets its own first
`count` bytes followed by the `count + 1` bytes of the second, the second one
only loses its root flag. -/
theorem scamstr_concat_str (k : strkind) (r : Bool) (c m : Nat) (s1 : Option (List Char))
    (k2 : strkind) (r2 : Bool) (c2 m2 : Nat) (src : List Char) (h2 : c2 < src.length) :
    scamstr_concat (.str k r c m s1) (.str k2 r2 c2 m2 (some src)) =
      some (.str k r (c + c2) (c + c2 + 1)
              (some ((resized_block s1 (c + c2 + 1)).take c ++ src.take (c2 + 1))),
            .str k2 false c2 m2 (some src)) := by
  have hres : scamstr_resize (.str k r c m s1) (c + c2 + 1) =
      .str k r c (c + c2 + 1) (some (resized_block s1 (c + c2 + 1))) := by
    cases s1 <;> rfl
  have hloop := scamstr_concat_loop_eq src c (c2 + 1) 0 (resized_block s1 (c + c2 + 1))
    (by omega) (by rw [resized_block_length]; omega)
  have hdrop : (resized_block s1 (c + c2 + 1)).drop (c + 0 + (c2 + 1)) = [] := by
    apply List.drop_of_length_le
    rw [resized_block_length]
    omega
  rw [hdrop] at hloop
  simp only [Nat.add_zero, List.drop_zero, List.append_nil] at hloop
  simp only [scamstr_concat, scamstr_len, hres, scam_as_str, hloop]
  rfl

/-- When both strings have a text whose length is their `count`,
`scamstr_concat` leaves the concatenation of the two texts in the first one,
with the sum of the two lengths. -/
theorem scamstr_concat_text (a b : scamval) (ta tb : List Char) (ha : is_str a)
    (hb : is_str b) (hta : str_text a = some ta) (htb : str_text b = some tb)
    (hla : ta.length = scamstr_len a) (hlb : tb.length = scamstr_len b) :
    ∃ a' b', scamstr_concat a b = some (a', b') ∧ str_text a' = some (ta ++ tb) ∧
      scamstr_len a' = scamstr_len a + scamstr_len b := by
  match a, ha, b, hb with
  | .str k r c m s1, _, .str k2 r2 c2 m2 s2, _ =>
    cases s1 with
    | none => simp [str_text, scam_as_str] at hta
    | some b1 =>
      cases s2 with
      | none => simp [str_text, scam_as_str] at htb
      | some src =>
        simp only [str_text, scam_as_str, Option.some_bind] at hta htb
        simp only [scamstr_len] at hla hlb
        obtain ⟨hna, ra, rfl⟩ := cstr_eq_some b1 ta hta
        obtain ⟨hnb, rb, rfl⟩ := cstr_eq_some src tb htb
        have h2 : c2 < (tb ++ NUL :: rb).length := by simp; omega
        refine ⟨_, _, scamstr_concat_str k r c m _ k2 r2 c2 m2 _ h2, ?_, by simp [scamstr_len]⟩
        rw [resized_block_take _ _ _ (by simp; omega) (by omega)]
        have e1 : (ta ++ NUL :: ra).take c = ta := by
          rw [← hla]; simp
        have e2 : (tb ++ NUL :: rb).take (c2 + 1) = tb ++ [NUL] := by
          rw [← hlb, List.take_append_eq_append_take]
          simp
        simp only [str_text, scam_as_str, Option.some_bind, e1, e2]
        rw [← List.append_assoc]
        exact cstr_append_nul (ta ++ tb) [] (by
          intro d hd
          rcases List.mem_append.mp hd with hd | hd
          · exact hna d hd
          · exact hnb d hd)

/-- C6 (defect).  With an empty string made by `scamstr_empty` as second
argument, `scamstr_concat` reads `s2->vals.s[0]` through a NULL pointer: the
call has no defined result. -/
theorem scamstr_concat_empty_second_undefined :
    scamstr_concat (scamstr "x".toList) scamstr_empty = none := rfl

/-- C7 (as stated, refuted).  After `scamstr_concat("a", "b")` the second
string does not have length 0. -/
theorem scamstr_concat_second_not_emptied :
    ¬ ∃ a' b', scamstr_concat (scamstr "a".toList) (scamstr "b".toList) = some (a', b') ∧
      scamstr_len b' = 0 := by
  rintro ⟨a', b', h, hl⟩
  have hc : scamstr_concat (scamstr "a".toList) (scamstr "b".toList) =
      some (.str .str true 2 3 (some ['a', 'b', NUL]), .str .str false 1 2 (some ['b', NUL])) :=
    rfl
  rw [hc] at h
  cases h
  simp [scamstr_len] at hl

/-- C7 (amended).  For every string `a` and every string `b` whose block holds
its bytes and the terminator, `scamstr_concat a b` succeeds and leaves `b` as it
was except for the is-root flag, which is cleared: the length and the bytes of
`b` are unchanged. -/
theorem scamstr_concat_second_kept (a b : scamval) (ha : is_str a) (hb : str_block_ok b) :
    ∃ a', scamstr_concat a b = some (a', gc_unset_root b) ∧
      scamstr_len (gc_unset_root b) = scamstr_len b ∧
      scam_as_str (gc_unset_root b) = scam_as_str b ∧
      (gc_unset_root b).is_root = false := by
  match a, ha, b, hb with
  | .str k r c m s1, _, .str k2 r2 c2 m2 (some src), hb =>
    exact ⟨_, scamstr_concat_str k r c m s1 k2 r2 c2 m2 src hb, rfl, rfl, rfl⟩

/-- A concrete instance of `scamstr_concat_second_kept`: `"a"` and `"b"`. -/
theorem scamstr_concat_second_kept_witness :
    ∃ a', scamstr_concat (scamstr "a".toList) (scamstr "b".toList) =
        some (a', gc_unset_root (scamstr "b".toList)) ∧
      scamstr_len (gc_unset_root (scamstr "b".toList)) = scamstr_len (scamstr "b".toList) ∧
      scam_as_str (gc_unset_root (scamstr "b".toList)) = scam_as_str (scamstr "b".toList) ∧
      (gc_unset_root (scamstr "b".toList)).is_root = false :=
  scamstr_concat_second_kept (scamstr "a".toList) (scamstr "b".toList) trivial
    (show (1 : Nat) < 2 by decide)

/-! ## Equality: root flags are not looked at -/

theorem scamval_typecheck_with_root (b : Bool) (v : scamval) (t : scamtype) :
    scamval_typecheck (v.with_root b) t = scamval_typecheck v t := by
  simp only [scamval_typecheck, type_with_root]

theorem scam_as_int_with_root (b : Bool) (v : scamval) :
    scam_as_int (v.with_root b) = scam_as_int v := by
  cases v <;> rfl

theorem scam_as_bool_with_root (b : Bool) (v : scamval) :
    scam_as_bool (v.with_root b) = scam_as_bool v :=
  scam_as_int_with_root b v

theorem scam_as_dec_with_root (b : Bool) (v : scamval) :
    scam_as_dec (v.with_root b) = scam_as_dec v := by
  cases v <;> rfl

theorem scam_as_str_with_root (b : Bool) (v : scamval) :
    scam_as_str (v.with_root b) = scam_as_str v := by
  cases v <;> rfl

theorem scamseq_len_with_root (b : Bool) (v : scamval) :
    scamseq_len (v.with_root b) = scamseq_len v := by
  cases v <;> rfl

theorem scamseq_elems_with_root (b : Bool) (v : scamval) :
    scamseq_elems (v.with_root b) = scamseq_elems v := by
  cases v with
  | seq k r m a => cases a <;> rfl
  | _ => rfl

theorem scamval_numeric_eq_with_root_left (b : Bool) (x y : scamval) :
    scamval_numeric_eq (x.with_root b) y = scamval_numeric_eq x y := by
  simp only [scamval_numeric_eq, type_with_root, scam_as_int_with_root, scam_as_dec_with_root]

theorem scamval_numeric_eq_with_root_right (b : Bool) (x y : scamval) :
    scamval_numeric_eq x (y.with_root b) = scamval_numeric_eq x y := by
  simp only [scamval_numeric_eq, type_with_root, scam_as_int_with_root, scam_as_dec_with_root]

theorem lookup_with_with_root (eqk : scamval → Option Bool) (key : scamval) (b : Bool)
    (d : scamval) : lookup_with eqk key (d.with_root b) = lookup_with eqk key d := by
  cases d with
  | dict r e ks vs =>
    cases ks <;> cases vs <;> simp [scamval.with_root, lookup_with]
  | _ => simp [scamval.with_root, lookup_with]

theorem dict_eq_scan_with_root (b : Bool) (v2 : scamval) :
    ∀ (ks : List scamval) (kcs vcs : List (scamval → Option Bool)),
      dict_eq_scan (v2.with_root b) ks kcs vcs = dict_eq_scan v2 ks kcs vcs := by
  intro ks
  induction ks with
  | nil => intro kcs vcs; simp [dict_eq_scan]
  | cons key ks ih =>
    intro kcs vcs
    cases kcs with
    | nil => simp [dict_eq_scan]
    | cons kc kcs =>
      cases vcs with
      | nil => simp [dict_eq_scan]
      | cons vc vcs => simp only [dict_eq_scan, lookup_with_with_root, ih]

theorem scamval_eq_with_root_right (b : Bool) (x y : scamval) :
    scamval_eq x (y.with_root b) = scamval_eq x y := by
  cases x with
  | seq k r m a =>
    cases k <;> simp only [scamval_eq, scamval_typecheck_with_root,
      scamval_numeric_eq_with_root_right, type_with_root, scamseq_len_with_root,
      scamseq_elems_with_root]
  | str k r c m s =>
    cases k <;> simp only [scamval_eq, scamval_typecheck_with_root,
      scamval_numeric_eq_with_root_right, type_with_root, scam_as_str_with_root]
  | dict r e ks vs =>
    cases ks <;> cases vs <;> simp only [scamval_eq, scamval_typecheck_with_root,
      scamval_numeric_eq_with_root_right, type_with_root, dict_eq_scan_with_root]
  | _ =>
    simp only [scamval_eq, scamval_typecheck_with_root, scamval_numeric_eq_with_root_right,
      type_with_root, scam_as_bool_with_root]

theorem scamval_eq_with_root_left (b : Bool) (x y : scamval) :
    scamval_eq (x.with_root b) y = scamval_eq x y := by
  cases x with
  | seq k r m a =>
    cases k <;> simp [scamval.with_root, scamval_eq, scamval_typecheck, scamval.type, scamseq_len]
  | str k r c m s =>
    cases k <;> simp [scamval.with_root, scamval_eq, scamval_typecheck, scamval.type]
  | dict r e ks vs =>
    cases ks <;> cases vs <;>
      simp [scamval.with_root, scamval_eq, scamval_typecheck, scamval.type]
  | _ =>
    simp [scamval.with_root, scamval_eq, scamval_typecheck, scamval.type, scamval_numeric_eq,
      scam_as_int, scam_as_dec]

/-! ## Equality: the recursion and the source text agree -/

theorem list_eq_scan_eq_loop (xs : List scamval) :
    ∀ (ys : List scamval), list_eq_scan (scamval_eq_each xs) ys = scamval_list_eq_loop xs ys := by
  induction xs with
  | nil => intro ys; simp [scamval_eq_each, list_eq_scan, scamval_list_eq_loop]
  | cons x xs ih =>
    intro ys
    cases ys with
    | nil => simp [scamval_eq_each, list_eq_scan, scamval_list_eq_loop]
    | cons y ys =>
      simp only [scamval_eq_each, list_eq_scan, scamval_list_eq_loop, ih]

theorem dict_eq_scan_eq_loop (v2 : scamval) (ks : List scamval) :
    ∀ (vs : List scamval),
      dict_eq_scan v2 ks (scamval_eq_each ks) (scamval_eq_each vs) =
        scamval_dict_eq_loop v2 ks vs := by
  induction ks with
  | nil => intro vs; simp [dict_eq_scan, scamval_dict_eq_loop]
  | cons key ks ih =>
    intro vs
    cases vs with
    | nil => simp [scamval_eq_each, dict_eq_scan, scamval_dict_eq_loop]
    | cons v vs =>
      simp only [scamval_eq_each, dict_eq_scan, scamval_dict_eq_loop, scamdict_lookup, ih]

theorem scamval_eq_slots_getD (a : Option (List scamval)) :
    scamval_eq_slots a = scamval_eq_each (a.getD []) := by
  cases a <;> simp [scamval_eq_slots, scamval_eq_each]

/-- The structural recursion `scamval_eq` computes the body of the C function
as written in the source. -/
theorem scamval_eq_source_eq (v1 v2 : scamval) : scamval_eq v1 v2 = scamval_eq_source v1 v2 := by
  cases v1 with
  | seq k r m a =>
    cases k <;> cases a <;>
      simp only [scamval_eq, scamval_eq_source, scamval.type, scamval_list_eq, scamseq_elems,
        scamval_eq_slots, list_eq_scan_eq_loop] <;> rfl
  | str k r c m s =>
    cases k <;> simp only [scamval_eq, scamval_eq_source, scamval.type, scam_as_str]
  | dict r e ks vs =>
    cases ks <;> cases vs <;>
      simp only [scamval_eq, scamval_eq_source, scamval.type, scamval_dict_eq,
        scamval_eq_slots_getD, dict_eq_scan_eq_loop]
  | _ =>
    simp only [scamval_eq, scamval_eq_source, scamval.type, scam_as_bool, scam_as_int]

/-- `scamdict_lookup` unfolds to the C text: scan the local entries, then
recurse into the enclosing dictionary, then report the key as unbound. -/
theorem scamdict_lookup_source (r : Bool) (e : Option scamval) (kk vk : seqkind) (kr vr : Bool)
    (km vm : Nat) (ka va : Option (List scamval)) (key : scamval) :
    scamdict_lookup (.dict r e (.seq kk kr km ka) (.seq vk vr vm va)) key =
      match lookup_scan (fun this_key => scamval_eq key this_key) (ka.getD []) (va.getD []) with
      | none => none
      | some (some v) => some v
      | some none =>
        match e with
        | some p => scamdict_lookup p key
        | none => unbound_variable key := by
  simp only [scamdict_lookup, lookup_with]
  cases lookup_scan (fun this_key => scamval_eq key this_key) (ka.getD []) (va.getD []) with
  | none => rfl
  | some o =>
    cases o with
    | some v => rfl
    | none => cases e <;> simp [lookup_with_enclosing]

/-! ## Equality on keys -/

theorem scamseq_elems_seq (k : seqkind) (r : Bool) (m : Nat) (a : Option (List scamval)) :
    scamseq_elems (.seq k r m a) = a.getD [] := by
  cases a <;> rfl

theorem scamval_eq_of_type_ne (x y : scamval)
    (hnum : (scamval_typecheck x SCAM_NUM && scamval_typecheck y SCAM_NUM) = false)
    (ht : x.type ≠ y.type) : scamval_eq x y = some false := by
  cases x with
  | seq k r m a => cases k <;> simp [scamval_eq, hnum, ht]
  | str k r c m s => cases k <;> simp [scamval_eq, hnum, ht]
  | dict r e ks vs => cases ks <;> cases vs <;> simp [scamval_eq, hnum, ht]
  | _ => simp [scamval_eq, hnum, ht]

theorem char_toNat_sub_ne (c1 c2 : Char) (h : c1 ≠ c2) :
    (c1.toNat : Int) - (c2.toNat : Int) ≠ 0 := by
  intro h0
  apply h
  have : c1.toNat = c2.toNat := by omega
  calc c1 = Char.ofNat c1.toNat := (Char.ofNat_toNat c1).symm
    _ = Char.ofNat c2.toNat := by rw [this]
    _ = c2 := Char.ofNat_toNat c2

theorem cstr_cons_isSome (c : Char) (a : List Char) (h : (cstr (c :: a)).isSome) (hc : c ≠ NUL) :
    (cstr a).isSome := by
  simp only [cstr, hc, if_false] at h
  cases hb : cstr a with
  | none => simp [hb] at h
  | some t => simp

/-- On two NUL-terminated blocks `strcmp` is defined both ways and reports
equality both ways or neither way. -/
theorem strcmp_comm (a : List Char) :
    ∀ (b : List Char), (cstr a).isSome → (cstr b).isSome →
      ∃ z w, strcmp a b = some z ∧ strcmp b a = some w ∧ (z = 0 ↔ w = 0) := by
  induction a with
  | nil => intro b h; simp [cstr] at h
  | cons c1 a ih =>
    intro b ha hb
    cases b with
    | nil => simp [cstr] at hb
    | cons c2 b =>
      by_cases hne : c1 = c2
      · subst hne
        by_cases hc : c1 = NUL
        · exact ⟨0, 0, by simp [strcmp, hc], by simp [strcmp, hc], Iff.rfl⟩
        · obtain ⟨z, w, hz, hw, hzw⟩ := ih b (cstr_cons_isSome c1 a ha hc)
            (cstr_cons_isSome c1 b hb hc)
          exact ⟨z, w, by simp [strcmp, hc, hz], by simp [strcmp, hc, hw], hzw⟩
      · have hne' : c2 ≠ c1 := fun h => hne h.symm
        refine ⟨(c1.toNat : Int) - (c2.toNat : Int), (c2.toNat : Int) - (c1.toNat : Int),
          by simp [strcmp, hne], by simp [strcmp, hne'], ?_⟩
        constructor
        · intro h; exact absurd h (char_toNat_sub_ne c1 c2 hne)
        · intro h; exact absurd h (char_toNat_sub_ne c2 c1 hne')

theorem strcmp_self (a : List Char) (h : (cstr a).isSome) : strcmp a a = some 0 := by
  induction a with
  | nil => simp [cstr] at h
  | cons c a ih =>
    rw [strcmp]
    by_cases hc : c = NUL
    · simp [hc]
    · simp only [ne_eq, not_true_eq_false, if_false, hc]
      exact ih (cstr_cons_isSome c a h hc)

theorem strcmp_ptr_comm (s t : Option (List Char)) (hs : (s.bind cstr).isSome)
    (ht : (t.bind cstr).isSome) :
    ∃ b, (strcmp_ptr s t).map (· == 0) = some b ∧ (strcmp_ptr t s).map (· == 0) = some b := by
  cases s with
  | none => simp at hs
  | some a =>
    cases t with
    | none => simp at ht
    | some c =>
      simp only [Option.some_bind] at hs ht
      obtain ⟨z, w, hz, hw, hzw⟩ := strcmp_comm a c hs ht
      refine ⟨z == 0, by simp [strcmp_ptr, hz], ?_⟩
      simp only [strcmp_ptr, hw, Option.map_some', Option.some.injEq]
      rw [Bool.eq_iff_iff]
      simp [hzw]

theorem Dbl.eq_comm (x y : Dbl) : Dbl.eq x y = Dbl.eq y x := by
  rw [Bool.eq_iff_iff]
  simp only [Dbl.eq, Bool.and_eq_true, Bool.not_eq_true', beq_iff_eq]
  constructor
  · rintro ⟨⟨h1, h2⟩, h3⟩; exact ⟨⟨h2, h1⟩, h3.symm⟩
  · rintro ⟨⟨h1, h2⟩, h3⟩; exact ⟨⟨h2, h1⟩, h3.symm⟩

theorem Dbl.eq_self (d : Dbl) (h : d.isNaN = false) : Dbl.eq d d = true := by
  simp [Dbl.eq, h]

theorem scamval_eq_mismatch (x y : scamval)
    (hnum : (scamval_typecheck x SCAM_NUM && scamval_typecheck y SCAM_NUM) = false)
    (ht : x.type ≠ y.type) :
    ∃ b, scamval_eq x y = some b ∧ scamval_eq y x = some b :=
  ⟨false, scamval_eq_of_type_ne x y hnum ht,
    scamval_eq_of_type_ne y x (by rw [Bool.and_comm]; exact hnum) (Ne.symm ht)⟩

theorem cmp_ok_slots_eq (a : Option (List scamval)) :
    cmp_ok_slots a = cmp_ok_all (a.getD []) := by
  cases a <;> simp [cmp_ok_slots, cmp_ok_all]

theorem keyable_slots_eq (a : Option (List scamval)) :
    keyable_slots a = keyable_all (a.getD []) := by
  cases a <;> simp [keyable_slots, keyable_all]

theorem scamval_eq_seq (k k2 : seqkind) (r r2 : Bool) (m m2 : Nat)
    (a a2 : Option (List scamval)) :
    scamval_eq (.seq k r m a) (.seq k2 r2 m2 a2) =
      if k = k2 then
        if (a.getD []).length = (a2.getD []).length then
          list_eq_scan (scamval_eq_each (a.getD [])) (a2.getD [])
        else some false
      else some false := by
  cases k <;> cases k2 <;>
    simp [scamval_eq, scamval_typecheck, scamval.type, scamseq_len, scamseq_elems_seq,
      scamval_eq_slots_getD]

mutual
/-- A key built from numbers, booleans, terminated strings and symbols, and
sequences of such compares the same way in both argument orders, and the
comparison is defined, against every value whose strings are terminated. -/
theorem scamval_eq_comm : ∀ (k x : scamval), keyable k = true → cmp_ok x = true →
    ∃ b, scamval_eq k x = some b ∧ scamval_eq x k = some b
  | .int r n, x, _, _ => by
    cases x with
    | int r2 m =>
      refine ⟨n == m, by simp [scamval_eq, scamval_typecheck, scamval.type,
        scamval_numeric_eq, scam_as_int], ?_⟩
      have hc : (m == n) = (n == m) :=
        Bool.eq_iff_iff.mpr (by simp only [beq_iff_eq]; exact eq_comm)
      simp [scamval_eq, scamval_typecheck, scamval.type, scamval_numeric_eq, scam_as_int, hc]
    | dec r2 d =>
      refine ⟨Dbl.eq (Dbl.ofInt n) d, by simp [scamval_eq, scamval_typecheck, scamval.type,
        scamval_numeric_eq, scam_as_int, scam_as_dec], ?_⟩
      simp [scamval_eq, scamval_typecheck, scamval.type, scamval_numeric_eq, scam_as_int,
        scam_as_dec, Dbl.eq_comm d]
    | seq k2 _ _ _ =>
      cases k2 <;> exact scamval_eq_mismatch _ _ (by simp [scamval_typecheck, scamval.type])
        (by simp [scamval.type])
    | str k2 _ _ _ _ =>
      cases k2 <;> exact scamval_eq_mismatch _ _ (by simp [scamval_typecheck, scamval.type])
        (by simp [scamval.type])
    | _ =>
      exact scamval_eq_mismatch _ _ (by simp [scamval_typecheck, scamval.type])
        (by simp [scamval.type])
  | .dec r d, x, _, _ => by
    cases x with
    | int r2 m =>
      refine ⟨Dbl.eq d (Dbl.ofInt m), by simp [scamval_eq, scamval_typecheck, scamval.type,
        scamval_numeric_eq, scam_as_int, scam_as_dec], ?_⟩
      simp [scamval_eq, scamval_typecheck, scamval.type, scamval_numeric_eq, scam_as_int,
        scam_as_dec, Dbl.eq_comm d]
    | dec r2 d2 =>
      refine ⟨Dbl.eq d d2, by simp [scamval_eq, scamval_typecheck, scamval.type,
        scamval_numeric_eq, scam_as_dec], ?_⟩
      simp [scamval_eq, scamval_typecheck, scamval.type, scamval_numeric_eq,
        scam_as_dec, Dbl.eq_comm d]
    | seq k2 _ _ _ =>
      cases k2 <;> exact scamval_eq_mismatch _ _ (by simp [scamval_typecheck, scamval.type])
        (by simp [scamval.type])
    | str k2 _ _ _ _ =>
      cases k2 <;> exact scamval_eq_mismatch _ _ (by simp [scamval_typecheck, scamval.type])
        (by simp [scamval.type])
    | _ =>
      exact scamval_eq_mismatch _ _ (by simp [scamval_typecheck, scamval.type])
        (by simp [scamval.type])
  | .bool r n, x, _, _ => by
    cases x with
    | bool r2 m =>
      refine ⟨n == m, by simp [scamval_eq, scamval_typecheck, scamval.type, scam_as_bool,
        scam_as_int], ?_⟩
      have hc : (m == n) = (n == m) :=
        Bool.eq_iff_iff.mpr (by simp only [beq_iff_eq]; exact eq_comm)
      simp [scamval_eq, scamval_typecheck, scamval.type, scam_as_bool, scam_as_int, hc]
    | seq k2 _ _ _ =>
      cases k2 <;> exact scamval_eq_mismatch _ _ (by simp [scamval_typecheck, scamval.type])
        (by simp [scamval.type])
    | str k2 _ _ _ _ =>
      cases k2 <;> exact scamval_eq_mismatch _ _ (by simp [scamval_typecheck, scamval.type])
        (by simp [scamval.type])
    | _ =>
      exact scamval_eq_mismatch _ _ (by simp [scamval_typecheck, scamval.type])
        (by simp [scamval.type])
  | .str .str r c m s, x, hk, hx => by
    simp only [keyable] at hk
    cases x with
    | str k2 r2 c2 m2 s2 =>
      cases k2 with
      | str =>
        simp only [cmp_ok] at hx
        simpa [scamval_eq, scamval_typecheck, scamval.type, scam_as_str] using
          strcmp_ptr_comm s s2 hk hx
      | _ =>
        exact scamval_eq_mismatch _ _ (by simp [scamval_typecheck, scamval.type])
          (by simp [scamval.type])
    | seq k2 _ _ _ =>
      cases k2 <;> exact scamval_eq_mismatch _ _ (by simp [scamval_typecheck, scamval.type])
        (by simp [scamval.type])
    | _ =>
      exact scamval_eq_mismatch _ _ (by simp [scamval_typecheck, scamval.type])
        (by simp [scamval.type])
  | .str .sym r c m s, x, hk, hx => by
    simp only [keyable] at hk
    cases x with
    | str k2 r2 c2 m2 s2 =>
      cases k2 with
      | sym =>
        simp only [cmp_ok] at hx
        simpa [scamval_eq, scamval_typecheck, scamval.type, scam_as_str] using
          strcmp_ptr_comm s s2 hk hx
      | _ =>
        exact scamval_eq_mismatch _ _ (by simp [scamval_typecheck, scamval.type])
          (by simp [scamval.type])
    | seq k2 _ _ _ =>
      cases k2 <;> exact scamval_eq_mismatch _ _ (by simp [scamval_typecheck, scamval.type])
        (by simp [scamval.type])
    | _ =>
      exact scamval_eq_mismatch _ _ (by simp [scamval_typecheck, scamval.type])
        (by simp [scamval.type])
  | .seq k r m a, x, hk, hx => by
    simp only [keyable] at hk
    cases x with
    | seq k2 r2 m2 a2 =>
      simp only [cmp_ok, cmp_ok_slots_eq] at hx
      rw [scamval_eq_seq, scamval_eq_seq]
      by_cases hkk : k = k2
      · subst hkk
        by_cases hl : (a.getD []).length = (a2.getD []).length
        · simp only [if_true, hl]
          exact scamval_eq_comm_slots a (a2.getD []) hk hx hl
        · have hl' : ¬ (a2.getD []).length = (a.getD []).length := fun h => hl h.symm
          exact ⟨false, by simp [hl], by simp [hl']⟩
      · have hkk' : ¬ k2 = k := fun h => hkk h.symm
        exact ⟨false, by simp [hkk], by simp [hkk']⟩
    | str k2 _ _ _ _ =>
      cases k <;> cases k2 <;>
        exact scamval_eq_mismatch _ _ (by simp [scamval_typecheck, scamval.type])
          (by simp [scamval.type])
    | _ =>
      cases k <;> exact scamval_eq_mismatch _ _ (by simp [scamval_typecheck, scamval.type])
        (by simp [scamval.type])
  | .str .err _ _ _ _, _, h, _ => by simp [keyable] at h
  | .lambda _ _ _ _, _, h, _ => by simp [keyable] at h
  | .builtin _ _ _, _, h, _ => by simp [keyable] at h
  | .port _ _ _, _, h, _ => by simp [keyable] at h
  | .dict _ _ _ _, _, h, _ => by simp [keyable] at h
  | .null _, _, h, _ => by simp [keyable] at h
/-- `scamval_eq_comm` for the slots of a storage block. -/
theorem scamval_eq_comm_slots : ∀ (a : Option (List scamval)) (ys : List scamval),
    keyable_slots a = true → cmp_ok_all ys = true → (a.getD []).length = ys.length →
    ∃ b, list_eq_scan (scamval_eq_each (a.getD [])) ys = some b ∧
      list_eq_scan (scamval_eq_each ys) (a.getD []) = some b
  | none, ys, _, _, hl => by
    cases ys with
    | nil => exact ⟨true, by simp [scamval_eq_each, list_eq_scan],
        by simp [scamval_eq_each, list_eq_scan]⟩
    | cons y ys => simp at hl
  | some l, ys, hk, hx, hl => by
    simp only [keyable_slots] at hk
    exact scamval_eq_comm_each l ys hk hx hl
/-- `scamval_eq_comm` along two lists of equal length. -/
theorem scamval_eq_comm_each : ∀ (l ys : List scamval),
    keyable_all l = true → cmp_ok_all ys = true → l.length = ys.length →
    ∃ b, list_eq_scan (scamval_eq_each l) ys = some b ∧
      list_eq_scan (scamval_eq_each ys) l = some b
  | [], ys, _, _, hl => by
    cases ys with
    | nil => exact ⟨true, by simp [scamval_eq_each, list_eq_scan],
        by simp [scamval_eq_each, list_eq_scan]⟩
    | cons y ys => simp at hl
  | x :: xs, [], _, _, hl => by simp at hl
  | x :: xs, y :: ys, hk, hx, hl => by
    simp only [keyable_all, Bool.and_eq_true] at hk
    simp only [cmp_ok_all, Bool.and_eq_true] at hx
    simp only [List.length_cons, Nat.add_right_cancel_iff] at hl
    obtain ⟨b, h1, h2⟩ := scamval_eq_comm x y hk.1 hx.1
    obtain ⟨bs, h3, h4⟩ := scamval_eq_comm_each xs ys hk.2 hx.2 hl
    cases b with
    | true => exact ⟨bs, by simp [scamval_eq_each, list_eq_scan, h1, h3],
        by simp [scamval_eq_each, list_eq_scan, h2, h4]⟩
    | false => exact ⟨false, by simp [scamval_eq_each, list_eq_scan, h1],
        by simp [scamval_eq_each, list_eq_scan, h2]⟩
end

mutual
/-- A key built from numbers other than NaN, booleans, terminated strings and
symbols, and sequences of such is equal to itself under `scamval_eq`. -/
theorem scamval_eq_self : ∀ (k : scamval), keyable k = true → scamval_eq k k = some true
  | .int _ n, _ => by
    simp [scamval_eq, scamval_typecheck, scamval.type, scamval_numeric_eq, scam_as_int]
  | .dec _ d, h => by
    simp only [keyable, Bool.not_eq_true'] at h
    simp [scamval_eq, scamval_typecheck, scamval.type, scamval_numeric_eq, scam_as_dec,
      Dbl.eq_self d h]
  | .bool _ n, _ => by
    simp [scamval_eq, scamval_typecheck, scamval.type, scam_as_bool, scam_as_int]
  | .str .str _ _ _ s, h => by
    simp only [keyable] at h
    cases s with
    | none => simp at h
    | some b =>
      simp [scamval_eq, scamval_typecheck, scamval.type, scam_as_str, strcmp_ptr,
        strcmp_self b h]
  | .str .sym _ _ _ s, h => by
    simp only [keyable] at h
    cases s with
    | none => simp at h
    | some b =>
      simp [scamval_eq, scamval_typecheck, scamval.type, scam_as_str, strcmp_ptr,
        strcmp_self b h]
  | .seq k _ _ a, h => by
    simp only [keyable] at h
    rw [scamval_eq_seq]
    simpa using scamval_eq_slots_self a h
  | .str .err _ _ _ _, h => by simp [keyable] at h
  | .lambda _ _ _ _, h => by simp [keyable] at h
  | .builtin _ _ _, h => by simp [keyable] at h
  | .port _ _ _, h => by simp [keyable] at h
  | .dict _ _ _ _, h => by simp [keyable] at h
  | .null _, h => by simp [keyable] at h
/-- `scamval_eq_self` for the slots of a storage block. -/
theorem scamval_eq_slots_self : ∀ (a : Option (List scamval)), keyable_slots a = true →
    list_eq_scan (scamval_eq_each (a.getD [])) (a.getD []) = some true
  | none, _ => by simp [scamval_eq_each, list_eq_scan]
  | some l, h => by
    simp only [keyable_slots] at h
    simpa using scamval_eq_each_self l h
/-- `scamval_eq_self` along a list. -/
theorem scamval_eq_each_self : ∀ (l : List scamval), keyable_all l = true →
    list_eq_scan (scamval_eq_each l) l = some true
  | [], _ => by simp [scamval_eq_each, list_eq_scan]
  | x :: xs, h => by
    simp only [keyable_all, Bool.and_eq_true] at h
    simp [scamval_eq_each, list_eq_scan, scamval_eq_self x h.1, scamval_eq_each_self xs h.2]
end

mutual
theorem cmp_ok_of_keyable : ∀ (k : scamval), keyable k = true → cmp_ok k = true
  | .int _ _, _ => rfl
  | .dec _ _, _ => rfl
  | .bool _ _, _ => rfl
  | .str .str _ _ _ _, h => by simpa [keyable, cmp_ok] using h
  | .str .sym _ _ _ _, h => by simpa [keyable, cmp_ok] using h
  | .str .err _ _ _ _, _ => rfl
  | .seq _ _ _ a, h => by
    simp only [keyable] at h
    simpa [cmp_ok] using cmp_ok_slots_of_keyable a h
  | .lambda _ _ _ _, _ => rfl
  | .builtin _ _ _, _ => rfl
  | .port _ _ _, _ => rfl
  | .dict _ _ _ _, _ => rfl
  | .null _, _ => rfl
theorem cmp_ok_slots_of_keyable : ∀ (a : Option (List scamval)),
    keyable_slots a = true → cmp_ok_slots a = true
  | none, _ => rfl
  | some l, h => by
    simp only [keyable_slots] at h
    simpa [cmp_ok_slots] using cmp_ok_all_of_keyable l h
theorem cmp_ok_all_of_keyable : ∀ (l : List scamval), keyable_all l = true → cmp_ok_all l = true
  | [], _ => rfl
  | x :: xs, h => by
    simp only [keyable_all, Bool.and_eq_true] at h
    simp [cmp_ok_all, cmp_ok_of_keyable x h.1, cmp_ok_all_of_keyable xs h.2]
end

theorem cmp_ok_with_root (b : Bool) (v : scamval) : cmp_ok (v.with_root b) = cmp_ok v := by
  cases v with
  | str k r c m s => cases k <;> rfl
  | seq k r m a => simp [scamval.with_root, cmp_ok]
  | _ => rfl

theorem keyable_with_root (b : Bool) (v : scamval) : keyable (v.with_root b) = keyable v := by
  cases v with
  | str k r c m s => cases k <;> rfl
  | seq k r m a => simp [scamval.with_root, keyable]
  | _ => rfl

theorem cmp_ok_all_append (l1 l2 : List scamval) :
    cmp_ok_all (l1 ++ l2) = (cmp_ok_all l1 && cmp_ok_all l2) := by
  induction l1 with
  | nil => simp [cmp_ok_all]
  | cons x l1 ih => simp [cmp_ok_all, ih, Bool.and_assoc]

theorem not_unbindable_of_keyable (k : scamval) (h : keyable k = true) :
    ¬ unbindable k.type := by
  cases k with
  | seq kd r m a => cases kd <;> simp [unbindable, scamval.type]
  | str kd r c m s => cases kd <;> simp [unbindable, scamval.type]
  | int r n => simp [unbindable, scamval.type]
  | dec r n => simp [unbindable, scamval.type]
  | bool r n => simp [unbindable, scamval.type]
  | _ => simp [keyable] at h

/-! ## The scans of `scamdict_bind` and `scamdict_lookup` -/

theorem bind_scan_eq_findIdx (sym : scamval) (ks : List scamval) :
    ∀ (i0 : Nat), (∀ key ∈ ks, (scamval_eq key sym).isSome) →
      bind_scan sym ks i0 =
        some (ks.findIdx? (fun key => scamval_eq key sym == some true) i0) := by
  induction ks with
  | nil => intro i0 _; simp [bind_scan]
  | cons key ks ih =>
    intro i0 hdef
    have hk := hdef key (List.mem_cons_self _ _)
    have hks : ∀ key' ∈ ks, (scamval_eq key' sym).isSome :=
      fun key' h => hdef key' (List.mem_cons_of_mem _ h)
    cases hb : scamval_eq key sym with
    | none => simp [hb] at hk
    | some b =>
      cases b with
      | true => simp [bind_scan, hb]
      | false => simp only [bind_scan, hb, List.findIdx?_cons, ih (i0 + 1) hks]; simp

theorem lookup_scan_eq_findIdx (eqk : scamval → Option Bool) (ks : List scamval) :
    ∀ (vs : List scamval), (∀ key ∈ ks, (eqk key).isSome) → ks.length ≤ vs.length →
      lookup_scan eqk ks vs =
        some ((ks.findIdx? (fun key => eqk key == some true)).bind fun i => vs.get? i) := by
  induction ks with
  | nil => intro vs _ _; simp [lookup_scan]
  | cons key ks ih =>
    intro vs hdef hlen
    have hk := hdef key (List.mem_cons_self _ _)
    have hks : ∀ key' ∈ ks, (eqk key').isSome :=
      fun key' h => hdef key' (List.mem_cons_of_mem _ h)
    cases vs with
    | nil => simp at hlen
    | cons v vs =>
      simp only [List.length_cons, Nat.add_le_add_iff_right] at hlen
      cases hb : eqk key with
      | none => simp [hb] at hk
      | some b =>
        cases b with
        | true => simp [lookup_scan, hb]
        | false =>
          simp only [lookup_scan, hb, List.tail_cons, ih vs hks hlen, List.findIdx?_cons]
          simp only [Option.some.injEq]
          rw [List.findIdx?_succ]
          cases List.findIdx? (fun key => eqk key == some true) ks 0 <;> simp

theorem findIdx?_congr_mem (p q : scamval → Bool) (l : List scamval)
    (h : ∀ x ∈ l, p x = q x) : ∀ (i : Nat), l.findIdx? p i = l.findIdx? q i := by
  induction l with
  | nil => intro i; rfl
  | cons x l ih =>
    intro i
    have hx := h x (List.mem_cons_self _ _)
    simp only [List.findIdx?_cons, hx]
    rw [ih (fun y hy => h y (List.mem_cons_of_mem _ hy))]

theorem findIdx?_lt_length (p : scamval → Bool) (l : List scamval) (i : Nat)
    (h : l.findIdx? p = some i) : i < l.length := by
  rw [List.findIdx?_eq_some_iff_findIdx_eq] at h
  exact h.1

theorem scamseq_append_seq (k : seqkind) (r : Bool) (m : Nat) (a : Option (List scamval))
    (v : scamval) (hs : seq_ok (.seq k r m a)) :
    ∃ m', scamseq_append (.seq k r m a) v =
        some (.seq k r m' (some (a.getD [] ++ [gc_unset_root v])))
      ∧ (a.getD []).length + 1 ≤ m' := by
  obtain ⟨m', hins, hm', _⟩ := scamseq_insert_seq k r m a (a.getD []).length v hs (Nat.le_refl _)
  refine ⟨m', ?_, hm'⟩
  simpa [scamseq_append, scamseq_len] using hins

theorem unbindable_unset_root (k : scamval) :
    unbindable (gc_unset_root k).type ↔ unbindable k.type := by
  simp only [gc_unset_root, type_with_root]

/-- `scamdict_bind` with a bindable key on a dictionary that satisfies the
invariant, all comparisons with its keys being defined: the new key and value
lists are those of `bind_ref`, and they fit their capacities. -/
theorem scamdict_bind_dict (r : Bool) (e : Option scamval) (kk vk : seqkind) (kr vr : Bool)
    (km vm : Nat) (ka va : Option (List scamval)) (k v : scamval)
    (hks : seq_ok (.seq kk kr km ka)) (hvs : seq_ok (.seq vk vr vm va))
    (hlen : (ka.getD []).length = (va.getD []).length)
    (hdef : ∀ key ∈ ka.getD [], (scamval_eq key k).isSome) (hb : ¬ unbindable k.type) :
    ∃ km' vm' K V,
      scamdict_bind (.dict r e (.seq kk kr km ka) (.seq vk vr vm va)) k v =
        some (.dict r e (.seq kk kr km' (some K)) (.seq vk vr vm' (some V))) ∧
      (K, V) = bind_ref (ka.getD []) (va.getD []) k v ∧ K.length ≤ km' ∧ V.length ≤ vm' := by
  have hb' : ¬ (((gc_unset_root k).type = SCAM_PORT ∨ (gc_unset_root k).type = SCAM_LAMBDA ∨
      (gc_unset_root k).type = SCAM_BUILTIN ∨ (gc_unset_root k).type = SCAM_NULL)) :=
    fun h => hb ((unbindable_unset_root k).mp h)
  have hp : (fun key => scamval_eq key (gc_unset_root k) == some true) =
      (fun key => scamval_eq key k == some true) := by
    funext key
    rw [gc_unset_root, scamval_eq_with_root_right]
  have hscan := bind_scan_eq_findIdx (gc_unset_root k) (ka.getD []) 0
    (by intro key hkey; rw [gc_unset_root, scamval_eq_with_root_right]; exact hdef key hkey)
  rw [hp] at hscan
  cases hfind : List.findIdx? (fun key => scamval_eq key k == some true) (ka.getD []) with
  | none =>
    obtain ⟨km', hak, hkm'⟩ := scamseq_append_seq kk kr km ka (gc_unset_root k) hks
    obtain ⟨vm', hav, hvm'⟩ := scamseq_append_seq vk vr vm va (gc_unset_root v) hvs
    rw [gc_unset_root_idem] at hak hav
    refine ⟨km', vm', ka.getD [] ++ [gc_unset_root k], va.getD [] ++ [gc_unset_root v],
      ?_, ?_, by simpa using hkm', by simpa using hvm'⟩
    · simp only [scamdict_bind, hb', if_false, scamseq_elems_seq, hscan, hfind, hak, hav]
    · simp only [bind_ref, hb, if_false, hfind]
  | some i =>
    have hi : i < (ka.getD []).length := findIdx?_lt_length _ _ _ hfind
    cases ka with
    | none => simp at hi
    | some kl =>
      cases va with
      | none => simp at hlen; simp [hlen] at hi
      | some vl =>
        simp only [Option.getD_some] at hi hlen hfind hscan ⊢
        simp only [seq_ok] at hks hvs
        have hiv : i < vl.length := by omega
        refine ⟨km, vm, kl, vl.set i (gc_unset_root v), ?_, ?_, hks, by simpa using hvs⟩
        · have hget : vl.get? i = some vl[i] := by
            rw [List.get?_eq_getElem?]; exact List.getElem?_eq_getElem hiv
          simp only [scamdict_bind, hb', if_false, scamseq_elems, hscan, hfind, scamseq_get,
            hget, scamseq_set, scamseq_len, Option.getD_some, hiv, if_true, Option.map_some']
        · simp only [bind_ref, hb, if_false, hfind]

/-! ## Binding against the reference definition -/

/-- `scamdict_bind` on a dictionary that satisfies the invariant computes the
lists of `bind_ref`. -/
theorem scamdict_bind_core (d k v : scamval) (hd : dict_ok d)
    (hdef : ¬ unbindable k.type → ∀ key ∈ dict_key_list d, (scamval_eq key k).isSome) :
    ∃ d', scamdict_bind d k v = some d' ∧
      (dict_key_list d', dict_val_list d') =
        bind_ref (dict_key_list d) (dict_val_list d) k v ∧
      scamdict_enclosing d' = scamdict_enclosing d ∧
      dict_ok d' ∧
      scamdict_len d' = (bind_ref (dict_key_list d) (dict_val_list d) k v).1.length ∧
      (unbindable k.type → d' = d) := by
  match d, hd with
  | .dict r e (.seq kk kr km ka) (.seq vk vr vm va), hd =>
    obtain ⟨hks, hvs, hlen⟩ := hd
    simp only [scamseq_len] at hlen
    by_cases hb : unbindable k.type
    · have hb' : ((gc_unset_root k).type = SCAM_PORT ∨ (gc_unset_root k).type = SCAM_LAMBDA ∨
          (gc_unset_root k).type = SCAM_BUILTIN ∨ (gc_unset_root k).type = SCAM_NULL) :=
        (unbindable_unset_root k).mpr hb
      refine ⟨_, by simp only [scamdict_bind, hb', if_true], by simp only [bind_ref, hb, if_true],
        rfl, ⟨hks, hvs, by simpa only [scamseq_len] using hlen⟩, ?_, fun _ => rfl⟩
      simp only [bind_ref, hb, if_true, scamdict_len, scamdict_keys, scamseq_len, dict_key_list,
        scamseq_elems_seq]
    · obtain ⟨km', vm', K, V, hbind, href, hK, hV⟩ :=
        scamdict_bind_dict r e kk vk kr vr km vm ka va k v hks hvs hlen
          (by simpa [dict_key_list, scamdict_keys, scamseq_elems_seq] using hdef hb) hb
      have hlenKV : K.length = V.length := by
        have h1 : K = (bind_ref (ka.getD []) (va.getD []) k v).1 := by rw [← href]
        have h2 : V = (bind_ref (ka.getD []) (va.getD []) k v).2 := by rw [← href]
        rw [h1, h2]
        simp only [bind_ref, hb, if_false]
        split <;> simp [hlen]
      refine ⟨_, hbind, ?_, rfl, ⟨hK, hV, by simpa only [scamseq_len] using hlenKV⟩, ?_,
        fun h => absurd h hb⟩
      · simpa [dict_key_list, dict_val_list, scamdict_keys, scamdict_vals, scamseq_elems_seq]
          using href
      · simp only [scamdict_len, scamdict_keys, scamdict_vals, scamseq_len, dict_key_list,
          dict_val_list, scamseq_elems_seq, Option.getD_some, ← href]

/-- C2 (defect).  A fresh dictionary accepts the empty string of
`scamstr_empty` as a key; the next bind, with the key `"a"`, compares that key
with `"a"` through `strcmp` on its NULL buffer and has no defined result, where
the reference definition finds no equal key and appends. -/
theorem scamdict_bind_undefined_after_empty_str_key :
    scamdict_bind (scamdict none) scamstr_empty (scamint 1) = some dict_keyed_by_empty_str ∧
    dict_ok dict_keyed_by_empty_str ∧
    scamval_eq (gc_unset_root scamstr_empty) (scamstr "a".toList) = none ∧
    scamdict_bind dict_keyed_by_empty_str (scamstr "a".toList) (scamint 2) = none ∧
    bind_ref (dict_key_list dict_keyed_by_empty_str) (dict_val_list dict_keyed_by_empty_str)
        (scamstr "a".toList) (scamint 2) =
      ([gc_unset_root scamstr_empty, gc_unset_root (scamstr "a".toList)],
        [.int false 1, gc_unset_root (scamint 2)]) :=
  ⟨rfl, ⟨by simp [dict_keyed_by_empty_str, seq_ok], by simp [dict_keyed_by_empty_str, seq_ok],
    rfl⟩, rfl, rfl, rfl⟩

/-! ## Round trip of binding and lookup -/

theorem cmp_ok_all_iff (l : List scamval) :
    cmp_ok_all l = true ↔ ∀ x ∈ l, cmp_ok x = true := by
  induction l with
  | nil => simp [cmp_ok_all]
  | cons x l ih => simp [cmp_ok_all, ih]

/-- A local hit: the scan of the local entries decides the lookup. -/
theorem scamdict_lookup_local (d k val : scamval) (hd : dict_ok d)
    (h : lookup_scan (fun this_key => scamval_eq k this_key) (dict_key_list d)
      (dict_val_list d) = some (some val)) :
    scamdict_lookup d k = some val := by
  match d, hd with
  | .dict r e (.seq kk kr km ka) (.seq vk vr vm va), _ =>
    simp only [dict_key_list, dict_val_list, scamdict_keys, scamdict_vals,
      scamseq_elems_seq] at h
    rw [scamdict_lookup_source, h]

/-- A local miss: the lookup continues in the enclosing dictionary. -/
theorem scamdict_lookup_miss (d k : scamval) (hd : dict_ok d)
    (h : lookup_scan (fun this_key => scamval_eq k this_key) (dict_key_list d)
      (dict_val_list d) = some none) :
    scamdict_lookup d k =
      match scamdict_enclosing d with
      | some p => scamdict_lookup p k
      | none => unbound_variable k := by
  match d, hd with
  | .dict r e (.seq kk kr km ka) (.seq vk vr vm va), _ =>
    simp only [dict_key_list, dict_val_list, scamdict_keys, scamdict_vals,
      scamseq_elems_seq] at h
    rw [scamdict_lookup_source, h]
    rfl

/-- On the lists that `bind_ref` returns for a key built from numbers other
than NaN, booleans, terminated strings and symbols, and sequences of such, the
scan of `scamdict_lookup` finds the value just bound; the key is found by the
scan of a second bind. -/
theorem bind_ref_lookup (ks vs : List scamval) (k v : scamval) (hk : keyable k = true)
    (hc : cmp_ok_all ks = true) (hlen : ks.length = vs.length) :
    lookup_scan (fun this_key => scamval_eq k this_key) (bind_ref ks vs k v).1
        (bind_ref ks vs k v).2 = some (some (gc_unset_root v)) ∧
      cmp_ok_all (bind_ref ks vs k v).1 = true ∧
      (bind_ref ks vs k v).1.length = (bind_ref ks vs k v).2.length ∧
      ∃ i, (bind_ref ks vs k v).1.findIdx? (fun key => scamval_eq key k == some true) = some i := by
  have hb := not_unbindable_of_keyable k hk
  have hcm := (cmp_ok_all_iff ks).mp hc
  have hpq : ∀ key ∈ ks, (scamval_eq key k == some true) = (scamval_eq k key == some true) := by
    intro key hkey
    obtain ⟨b, h1, h2⟩ := scamval_eq_comm k key hk (hcm key hkey)
    rw [h1, h2]
  have hdefq : ∀ key ∈ ks, (scamval_eq k key).isSome := by
    intro key hkey
    obtain ⟨b, h1, _⟩ := scamval_eq_comm k key hk (hcm key hkey)
    simp [h1]
  have hself : scamval_eq k (gc_unset_root k) = some true := by
    rw [gc_unset_root, scamval_eq_with_root_right]
    exact scamval_eq_self k hk
  have hself' : scamval_eq (gc_unset_root k) k = some true := by
    rw [gc_unset_root, scamval_eq_with_root_left]
    exact scamval_eq_self k hk
  have hfq := findIdx?_congr_mem _ _ ks hpq 0
  cases hfind : List.findIdx? (fun key => scamval_eq key k == some true) ks with
  | some i =>
    have hi : i < ks.length := findIdx?_lt_length _ _ _ hfind
    have href : bind_ref ks vs k v = (ks, vs.set i (gc_unset_root v)) := by
      simp only [bind_ref, hb, if_false, hfind]
    rw [href]
    refine ⟨?_, hc, by simpa using hlen, i, hfind⟩
    rw [lookup_scan_eq_findIdx _ ks _ hdefq (by simp; omega), ← hfq, hfind]
    simp only [Option.some_bind, List.get?_eq_getElem?]
    rw [List.getElem?_set_self (by omega)]
  | none =>
    have href : bind_ref ks vs k v = (ks ++ [gc_unset_root k], vs ++ [gc_unset_root v]) := by
      simp only [bind_ref, hb, if_false, hfind]
    rw [href]
    have hq : List.findIdx? (fun key => scamval_eq k key == some true)
        (ks ++ [gc_unset_root k]) = some ks.length := by
      rw [List.findIdx?_append, ← hfq, hfind]
      simp [hself]
    refine ⟨?_, ?_, by simp [hlen], ks.length, ?_⟩
    · rw [lookup_scan_eq_findIdx _ _ _ (by
        intro key hkey
        rcases List.mem_append.mp hkey with h | h
        · exact hdefq key h
        · rw [List.mem_singleton.mp h, hself]; rfl) (by simp [hlen]), hq]
      simp only [Option.some_bind, List.get?_eq_getElem?]
      rw [hlen, List.getElem?_append_right (Nat.le_refl _)]
      simp
    · rw [cmp_ok_all_append, hc]
      simp only [Bool.true_and, cmp_ok_all, Bool.and_true, gc_unset_root, cmp_ok_with_root]
      exact cmp_ok_of_keyable k hk
    · rw [List.findIdx?_append, hfind]
      simp [hself']

/-- C1 (as stated, refuted).  A key of tag `Dict` is bindable, but a binding
made with it need not be the one that lookup returns: in a dictionary that
binds the key `{"a":1}` to 10, binding the empty dictionary `{}` to 20 appends
a second entry (`scamval_eq({"a":1}, {})` is false), and looking `{}` up
returns 10 (`scamval_eq({}, {"a":1})` is true). -/
theorem scamdict_round_trip_fails_for_dict_key :
    scamdict_bind (scamdict none) dict_one (.int true 10) = some dict_keyed_by_dict ∧
      (scamdict none).type = SCAM_DICT ∧
      scamdict_bind dict_keyed_by_dict (scamdict none) (.int true 20) =
        some dict_keyed_by_dicts ∧
      scamdict_len dict_keyed_by_dicts = 2 ∧
      scamdict_lookup dict_keyed_by_dicts (scamdict none) = some (.int false 10) ∧
      scamdict_lookup dict_keyed_by_dicts (scamdict none) ≠
        some (gc_unset_root (.int true 20)) := by
  refine ⟨rfl, rfl, rfl, rfl, rfl, ?_⟩
  intro h
  have h10 : scamdict_lookup dict_keyed_by_dicts (scamdict none) = some (.int false 10) := rfl
  rw [h10] at h
  simp [gc_unset_root, scamval.with_root] at h

/-- Two binds of a key built from numbers other than NaN, booleans, terminated
strings and symbols, and sequences of such: each is followed by a lookup that
returns the value bound, and the second one keeps the length. -/
theorem scamdict_bind_twice (d k v v' : scamval) (hd : dict_ok d)
    (hc : cmp_ok_all (dict_key_list d) = true) (hk : keyable k = true) :
    ∃ d1 d2, scamdict_bind d k v = some d1 ∧
      scamdict_lookup d1 k = some (gc_unset_root v) ∧
      scamdict_bind d1 k v' = some d2 ∧
      scamdict_lookup d2 k = some (gc_unset_root v') ∧
      scamdict_len d2 = scamdict_len d1 ∧
      scamdict_enclosing d1 = scamdict_enclosing d := by
  have hcm := (cmp_ok_all_iff _).mp hc
  have hdef : ∀ (d : scamval), cmp_ok_all (dict_key_list d) = true →
      ¬ unbindable k.type → ∀ key ∈ dict_key_list d, (scamval_eq key k).isSome := by
    intro d hcd _ key hkey
    obtain ⟨b, _, h2⟩ := scamval_eq_comm k key hk ((cmp_ok_all_iff _).mp hcd key hkey)
    simp [h2]
  have hlen : ∀ (d : scamval), dict_ok d → (dict_key_list d).length = (dict_val_list d).length := by
    intro d hd
    match d, hd with
    | .dict r e (.seq kk kr km ka) (.seq vk vr vm va), hd =>
      simpa [dict_key_list, dict_val_list, scamdict_keys, scamdict_vals, scamseq_elems_seq,
        scamseq_len] using hd.2.2
  obtain ⟨d1, hb1, hl1, he1, hd1, hn1, _⟩ := scamdict_bind_core d k v hd (hdef d hc)
  obtain ⟨hlk1, hc1, _, i, hi⟩ := bind_ref_lookup (dict_key_list d) (dict_val_list d) k v hk hc
    (hlen d hd)
  have hK1 : dict_key_list d1 = (bind_ref (dict_key_list d) (dict_val_list d) k v).1 := by
    rw [← hl1]
  have hV1 : dict_val_list d1 = (bind_ref (dict_key_list d) (dict_val_list d) k v).2 := by
    rw [← hl1]
  rw [← hK1, ← hV1] at hlk1
  rw [← hK1] at hc1 hi
  obtain ⟨d2, hb2, hl2, _, hd2, hn2, _⟩ := scamdict_bind_core d1 k v' hd1 (hdef d1 hc1)
  obtain ⟨hlk2, _, _, _⟩ := bind_ref_lookup (dict_key_list d1) (dict_val_list d1) k v' hk hc1
    (hlen d1 hd1)
  have hK2 : dict_key_list d2 = (bind_ref (dict_key_list d1) (dict_val_list d1) k v').1 := by
    rw [← hl2]
  have hV2 : dict_val_list d2 = (bind_ref (dict_key_list d1) (dict_val_list d1) k v').2 := by
    rw [← hl2]
  rw [← hK2, ← hV2] at hlk2
  refine ⟨d1, d2, hb1, scamdict_lookup_local d1 k _ hd1 hlk1, hb2,
    scamdict_lookup_local d2 k _ hd2 hlk2, ?_, he1⟩
  rw [hn2, hn1, ← hK1]
  simp only [bind_ref, not_unbindable_of_keyable k hk, if_false, hi]

/-- C1 (amended).  For every dictionary `d` that satisfies the invariant and
whose keys have terminated strings, every key `k` built from `Int`, `Dec` other
than NaN, `Bool`, terminated `Str` and `Sym`, and `List`s and `SExpr`s of such,
and all values `v` and `v'`: `scamdict_bind d k v` succeeds and
`scamdict_lookup` of `k` then returns `v` (its root flag cleared); a further
`scamdict_bind` of `k` to `v'` succeeds, lookup then returns `v'`, and
`scamdict_len` is the same as after the first bind. -/
theorem scamdict_bind_lookup (d k v v' : scamval) (hd : dict_ok d)
    (hc : cmp_ok_all (dict_key_list d) = true) (hk : keyable k = true) :
    ∃ d1 d2, scamdict_bind d k v = some d1 ∧
      scamdict_lookup d1 k = some (gc_unset_root v) ∧
      scamdict_bind d1 k v' = some d2 ∧
      scamdict_lookup d2 k = some (gc_unset_root v') ∧
      scamdict_len d2 = scamdict_len d1 := by
  obtain ⟨d1, d2, h1, h2, h3, h4, h5, _⟩ := scamdict_bind_twice d k v v' hd hc hk
  exact ⟨d1, d2, h1, h2, h3, h4, h5⟩

/-- A concrete instance of `scamdict_bind_lookup`: binding `"a"` twice in
`dict_one`. -/
theorem scamdict_bind_lookup_witness :
    ∃ d1 d2, scamdict_bind dict_one (scamstr "a".toList) (.int true 2) = some d1 ∧
      scamdict_lookup d1 (scamstr "a".toList) = some (gc_unset_root (.int true 2)) ∧
      scamdict_bind d1 (scamstr "a".toList) (.int true 3) = some d2 ∧
      scamdict_lookup d2 (scamstr "a".toList) = some (gc_unset_root (.int true 3)) ∧
      scamdict_len d2 = scamdict_len d1 :=
  scamdict_bind_lookup dict_one (scamstr "a".toList) (.int true 2) (.int true 3)
    ⟨by simp [seq_ok], by simp [seq_ok], rfl⟩ rfl rfl

/-! ## Lookup through the enclosing chain -/

theorem lookup_scan_all_false (eqk : scamval → Option Bool) (ks : List scamval) :
    ∀ (vs : List scamval), (∀ key ∈ ks, eqk key = some false) →
      lookup_scan eqk ks vs = some none := by
  induction ks with
  | nil => intro vs _; rfl
  | cons key ks ih =>
    intro vs h
    simp only [lookup_scan, h key (List.mem_cons_self _ _)]
    exact ih vs.tail (fun key' hk => h key' (List.mem_cons_of_mem _ hk))

theorem scamseq_get_eq (s : scamval) (i : Nat) : scamseq_get s i = (scamseq_elems s).get? i := by
  cases s with
  | seq k r m a => cases a <;> simp [scamseq_get, scamseq_elems]
  | _ => simp [scamseq_get, scamseq_elems]

theorem scamdict_key_eq (d : scamval) (i : Nat) :
    scamdict_key d i = (dict_key_list d).get? i := by
  cases d <;> simp [scamdict_key, dict_key_list, scamdict_keys, scamseq_get_eq]

theorem scamdict_val_eq (d : scamval) (i : Nat) :
    scamdict_val d i = (dict_val_list d).get? i := by
  cases d <;> simp [scamdict_val, dict_val_list, scamdict_vals, scamseq_get_eq]

/-- A successful insert splices the value, root flag cleared, into the slots. -/
theorem scamseq_insert_elems (s : scamval) (i : Nat) (v s' : scamval)
    (h : scamseq_insert s i v = some s') :
    scamseq_elems s' =
      (scamseq_elems s).take i ++ gc_unset_root v :: (scamseq_elems s).drop i := by
  cases s with
  | seq k r m a =>
    by_cases hc : (a.getD []).length + 1 > m
    · obtain ⟨m', hg, hm'⟩ := scamseq_grow_seq k r m a ((a.getD []).length + 1) (by omega)
      simp only [scamseq_insert, hc, if_true, hg] at h
      split_ifs at h
      cases h
      simp [scamseq_elems_seq]
    · cases a with
      | none =>
        have hm : m ≠ 0 := by simp at hc; omega
        simp [scamseq_insert, hm] at h
      | some l =>
        simp only [Option.getD_some] at hc
        simp only [scamseq_insert, Option.getD_some, hc, if_false] at h
        split_ifs at h
        cases h
        simp [scamseq_elems]
  | _ => simp [scamseq_insert] at h

/-- A successful bind keeps the key list, or appends a bindable key to it. -/
theorem scamdict_bind_keys (d k v d' : scamval) (h : scamdict_bind d k v = some d') :
    dict_key_list d' = dict_key_list d ∨
      (¬ unbindable k.type ∧ dict_key_list d' = dict_key_list d ++ [gc_unset_root k]) := by
  by_cases hb : unbindable k.type
  · have hb' : ((gc_unset_root k).type = SCAM_PORT ∨ (gc_unset_root k).type = SCAM_LAMBDA ∨
        (gc_unset_root k).type = SCAM_BUILTIN ∨ (gc_unset_root k).type = SCAM_NULL) :=
      (unbindable_unset_root k).mpr hb
    simp only [scamdict_bind, hb', if_true, Option.some.injEq] at h
    left
    rw [h]
  · have hb' : ¬ ((gc_unset_root k).type = SCAM_PORT ∨ (gc_unset_root k).type = SCAM_LAMBDA ∨
        (gc_unset_root k).type = SCAM_BUILTIN ∨ (gc_unset_root k).type = SCAM_NULL) :=
      fun h' => hb ((unbindable_unset_root k).mp h')
    cases d with
    | dict r e keys vals =>
      simp only [scamdict_bind, hb', if_false] at h
      cases hscan : bind_scan (gc_unset_root k) (scamseq_elems keys) 0 with
      | none => simp [hscan] at h
      | some o =>
        cases o with
        | some i =>
          simp only [hscan] at h
          cases hg : scamseq_get vals i with
          | none => simp [hg] at h
          | some old =>
            simp only [hg] at h
            cases hset : scamseq_set vals i (gc_unset_root v) with
            | none => simp [hset] at h
            | some vals' =>
              simp only [hset, Option.map_some', Option.some.injEq] at h
              left
              rw [← h]
              rfl
        | none =>
          simp only [hscan] at h
          cases hak : scamseq_append keys (gc_unset_root k) with
          | none => simp [hak] at h
          | some keys' =>
            simp only [hak] at h
            cases hav : scamseq_append vals (gc_unset_root v) with
            | none => simp [hav] at h
            | some vals' =>
              simp only [hav, Option.some.injEq] at h
              right
              refine ⟨hb, ?_⟩
              rw [← h]
              have := scamseq_insert_elems keys (scamseq_len keys) (gc_unset_root k) keys' hak
              rw [gc_unset_root_idem] at this
              simp only [dict_key_list, scamdict_keys, this]
              have hlen : scamseq_len keys = (scamseq_elems keys).length ∨
                  scamseq_elems keys = [] := by
                cases keys with
                | seq kk kr km ka => left; cases ka <;> simp [scamseq_len, scamseq_elems]
                | _ => right; rfl
              rcases hlen with hlen | hlen
              · rw [hlen]; simp
              · rw [hlen]; simp
    | _ => simp [scamdict_bind, hb'] at h

/-- C4 (as stated, refuted).  Binding the key `"x"` to the `Null` value stores
`Null` in the values list. -/
theorem null_is_storable_as_dict_value :
    (scamdict_bind_all (scamdict none) [(scamstr "x".toList, scamnull)]).map
        (fun d => (dict_val_list d).map scamval.type) = some [SCAM_NULL] ∧
      (scamdict_bind (scamdict none) (scamstr "x".toList) scamnull).map dict_val_list =
        some [scamnull] := ⟨rfl, rfl⟩

/-- C4 (amended).  In every dictionary obtained from `scamdict` by a finite
sequence of `scamdict_bind` calls with arbitrary keys and values, no element of
the keys list has tag `Null` (nor `Port`, `Lambda` or `Builtin`).  Nothing is
said of the values list. -/
theorem no_null_key (enclosing : Option scamval) (kvs : List (scamval × scamval))
    (d : scamval) (h : scamdict_bind_all (scamdict enclosing) kvs = some d) :
    ∀ key ∈ dict_key_list d, key.type ≠ SCAM_NULL ∧ ¬ unbindable key.type := by
  have step : ∀ (kvs : List (scamval × scamval)) (d0 d : scamval),
      (∀ key ∈ dict_key_list d0, ¬ unbindable key.type) →
      scamdict_bind_all d0 kvs = some d → ∀ key ∈ dict_key_list d, ¬ unbindable key.type := by
    intro kvs
    induction kvs with
    | nil =>
      intro d0 d h0 h
      simp only [scamdict_bind_all, Option.some.injEq] at h
      rw [← h]
      exact h0
    | cons kv kvs ih =>
      intro d0 d h0 h
      obtain ⟨k, v⟩ := kv
      simp only [scamdict_bind_all] at h
      cases hb : scamdict_bind d0 k v with
      | none => simp [hb] at h
      | some d1 =>
        simp only [hb] at h
        refine ih d1 d ?_ h
        rcases scamdict_bind_keys d0 k v d1 hb with hk | ⟨hnb, hk⟩
        · rw [hk]; exact h0
        · rw [hk]
          intro key hkey
          rcases List.mem_append.mp hkey with hkey | hkey
          · exact h0 key hkey
          · rw [List.mem_singleton.mp hkey, unbindable_unset_root]
            exact hnb
  intro key hkey
  have hnb := step kvs (scamdict enclosing) d (by intro key hkey; cases hkey) h key hkey
  exact ⟨fun hn => hnb (Or.inr (Or.inr (Or.inr hn))), hnb⟩

/-- A concrete instance of `no_null_key`: two binds, the first with a `Null`
key, give `dict_one`. -/
theorem no_null_key_witness :
    scamdict_bind_all (scamdict none)
        [(scamnull, .int true 0), (scamstr "a".toList, .int true 1)] = some dict_one ∧
      (gc_unset_root (scamstr "a".toList)).type ≠ SCAM_NULL ∧
      ¬ unbindable (gc_unset_root (scamstr "a".toList)).type :=
  ⟨rfl, no_null_key none [(scamnull, .int true 0), (scamstr "a".toList, .int true 1)] dict_one
    rfl (gc_unset_root (scamstr "a".toList))
    (by simp [dict_one, dict_key_list, scamdict_keys, scamseq_elems])⟩

/-- After a bind with a bindable key the lists of `bind_ref` hold, at one and
the same position, a key that is `k` itself or compares equal to `k`, and the
value bound. -/
theorem bind_ref_position (ks vs : List scamval) (k v : scamval) (hb : ¬ unbindable k.type)
    (hlen : ks.length = vs.length) :
    ∃ i key, (bind_ref ks vs k v).1.get? i = some key ∧
      (key = gc_unset_root k ∨ scamval_eq key k = some true) ∧
      (bind_ref ks vs k v).2.get? i = some (gc_unset_root v) := by
  cases hfind : List.findIdx? (fun key => scamval_eq key k == some true) ks with
  | none =>
    refine ⟨ks.length, gc_unset_root k, ?_, Or.inl rfl, ?_⟩
    · simp only [bind_ref, hb, if_false, hfind, List.get?_eq_getElem?]
      rw [List.getElem?_append_right (Nat.le_refl _)]
      simp
    · simp only [bind_ref, hb, if_false, hfind, List.get?_eq_getElem?]
      rw [hlen, List.getElem?_append_right (Nat.le_refl _)]
      simp
  | some i =>
    obtain ⟨hi, hp, _⟩ := List.findIdx?_eq_some_iff_getElem.mp hfind
    refine ⟨i, ks[i], ?_, Or.inr (by simpa using hp), ?_⟩
    · simp only [bind_ref, hb, if_false, hfind, List.get?_eq_getElem?]
      exact List.getElem?_eq_getElem hi
    · simp only [bind_ref, hb, if_false, hfind, List.get?_eq_getElem?]
      rw [List.getElem?_set_self (by omega)]

/-- A scan of `scamdict_bind` that returns has found the first key that
compares equal, whatever the later comparisons would give. -/
theorem bind_scan_eq_some (sym : scamval) (ks : List scamval) :
    ∀ (i0 : Nat) (r : Option Nat), bind_scan sym ks i0 = some r →
      r = ks.findIdx? (fun key => scamval_eq key sym == some true) i0 := by
  induction ks with
  | nil => intro i0 r h; simpa [bind_scan] using h.symm
  | cons key ks ih =>
    intro i0 r h
    cases hb : scamval_eq key sym with
    | none => simp [bind_scan, hb] at h
    | some b =>
      cases b with
      | true => simpa [bind_scan, hb, List.findIdx?_cons] using h.symm
      | false =>
        simp only [bind_scan, hb] at h
        simp only [List.findIdx?_cons, hb]
        simpa using ih (i0 + 1) r h

/-- `scamdict_bind` with a bindable key on a dictionary that satisfies the
invariant, when its scan returns: the new key and value lists are those of
`bind_ref`, and they fit their capacities. -/
theorem scamdict_bind_dict_scan (r : Bool) (e : Option scamval) (kk vk : seqkind) (kr vr : Bool)
    (km vm : Nat) (ka va : Option (List scamval)) (k v : scamval)
    (hks : seq_ok (.seq kk kr km ka)) (hvs : seq_ok (.seq vk vr vm va))
    (hlen : (ka.getD []).length = (va.getD []).length)
    (hret : (bind_scan (gc_unset_root k) (ka.getD []) 0).isSome) (hb : ¬ unbindable k.type) :
    ∃ km' vm' K V,
      scamdict_bind (.dict r e (.seq kk kr km ka) (.seq vk vr vm va)) k v =
        some (.dict r e (.seq kk kr km' (some K)) (.seq vk vr vm' (some V))) ∧
      (K, V) = bind_ref (ka.getD []) (va.getD []) k v ∧ K.length ≤ km' ∧ V.length ≤ vm' := by
  have hb' : ¬ (((gc_unset_root k).type = SCAM_PORT ∨ (gc_unset_root k).type = SCAM_LAMBDA ∨
      (gc_unset_root k).type = SCAM_BUILTIN ∨ (gc_unset_root k).type = SCAM_NULL)) :=
    fun h => hb ((unbindable_unset_root k).mp h)
  have hp : (fun key => scamval_eq key (gc_unset_root k) == some true) =
      (fun key => scamval_eq key k == some true) := by
    funext key
    rw [gc_unset_root, scamval_eq_with_root_right]
  obtain ⟨res, hres⟩ := Option.isSome_iff_exists.mp hret
  have hscan : bind_scan (gc_unset_root k) (ka.getD []) 0 =
      some (List.findIdx? (fun key => scamval_eq key k == some true) (ka.getD []) 0) := by
    rw [hres, bind_scan_eq_some _ _ 0 res hres, hp]
  cases hfind : List.findIdx? (fun key => scamval_eq key k == some true) (ka.getD []) with
  | none =>
    obtain ⟨km', hak, hkm'⟩ := scamseq_append_seq kk kr km ka (gc_unset_root k) hks
    obtain ⟨vm', hav, hvm'⟩ := scamseq_append_seq vk vr vm va (gc_unset_root v) hvs
    rw [gc_unset_root_idem] at hak hav
    refine ⟨km', vm', ka.getD [] ++ [gc_unset_root k], va.getD [] ++ [gc_unset_root v],
      ?_, ?_, by simpa using hkm', by simpa using hvm'⟩
    · simp only [scamdict_bind, hb', if_false, scamseq_elems_seq, hscan, hfind, hak, hav]
    · simp only [bind_ref, hb, if_false, hfind]
  | some i =>
    have hi : i < (ka.getD []).length := findIdx?_lt_length _ _ _ hfind
    cases ka with
    | none => simp at hi
    | some kl =>
      cases va with
      | none => simp at hlen; simp [hlen] at hi
      | some vl =>
        simp only [Option.getD_some] at hi hlen hfind hscan ⊢
        simp only [seq_ok] at hks hvs
        have hiv : i < vl.length := by omega
        refine ⟨km, vm, kl, vl.set i (gc_unset_root v), ?_, ?_, hks, by simpa using hvs⟩
        · have hget : vl.get? i = some vl[i] := by
            rw [List.get?_eq_getElem?]; exact List.getElem?_eq_getElem hiv
          simp only [scamdict_bind, hb', if_false, scamseq_elems, hscan, hfind, scamseq_get,
            hget, scamseq_set, scamseq_len, Option.getD_some, hiv, if_true, Option.map_some']
        · simp only [bind_ref, hb, if_false, hfind]

/-- A bind is undefined when its scan is. -/
theorem scamdict_bind_scan_none (d k v : scamval) (hb : ¬ unbindable k.type)
    (hs : bind_scan (gc_unset_root k) (dict_key_list d) 0 = none) :
    scamdict_bind d k v = none := by
  have hb' : ¬ (((gc_unset_root k).type = SCAM_PORT ∨ (gc_unset_root k).type = SCAM_LAMBDA ∨
      (gc_unset_root k).type = SCAM_BUILTIN ∨ (gc_unset_root k).type = SCAM_NULL)) :=
    fun h => hb ((unbindable_unset_root k).mp h)
  cases d <;> simp only [scamdict_bind, hb', if_false]
  simp only [dict_key_list, scamdict_keys] at hs
  simp only [hs]

/-- A bind that returns on a dictionary that satisfies the invariant has
computed the lists of `bind_ref`, and it returns exactly when the key is
unbindable or the scan returns. -/
theorem scamdict_bind_returns (d k v : scamval) (hd : dict_ok d) :
    (∀ d', scamdict_bind d k v = some d' →
      (dict_key_list d', dict_val_list d') =
        bind_ref (dict_key_list d) (dict_val_list d) k v ∧
      scamdict_enclosing d' = scamdict_enclosing d ∧ dict_ok d' ∧
      (unbindable k.type → d' = d)) ∧
    ((∃ d', scamdict_bind d k v = some d') ↔
      (unbindable k.type ∨ (bind_scan (gc_unset_root k) (dict_key_list d) 0).isSome)) := by
  have hlenOf : ∀ (K V : List scamval),
      (K, V) = bind_ref (dict_key_list d) (dict_val_list d) k v →
      (dict_key_list d).length = (dict_val_list d).length → ¬ unbindable k.type →
      K.length = V.length := by
    intro K V href hlen hb
    have h1 : K = (bind_ref (dict_key_list d) (dict_val_list d) k v).1 := by rw [← href]
    have h2 : V = (bind_ref (dict_key_list d) (dict_val_list d) k v).2 := by rw [← href]
    rw [h1, h2]
    simp only [bind_ref, hb, if_false]
    split <;> simp [hlen]
  by_cases hb : unbindable k.type
  · have hb' : ((gc_unset_root k).type = SCAM_PORT ∨ (gc_unset_root k).type = SCAM_LAMBDA ∨
        (gc_unset_root k).type = SCAM_BUILTIN ∨ (gc_unset_root k).type = SCAM_NULL) :=
      (unbindable_unset_root k).mpr hb
    have hbind : scamdict_bind d k v = some d := by simp only [scamdict_bind, hb', if_true]
    refine ⟨?_, ?_⟩
    · intro d' h
      rw [hbind] at h
      simp only [Option.some.injEq] at h
      subst h
      exact ⟨by simp only [bind_ref, hb, if_true], rfl, hd, fun _ => rfl⟩
    · exact ⟨fun _ => Or.inl hb, fun _ => ⟨d, hbind⟩⟩
  · cases hs : bind_scan (gc_unset_root k) (dict_key_list d) 0 with
    | none =>
      have hnone := scamdict_bind_scan_none d k v hb hs
      refine ⟨?_, ?_⟩
      · intro d' h; rw [hnone] at h; cases h
      · constructor
        · rintro ⟨d', h⟩; rw [hnone] at h; cases h
        · rintro (h | h)
          · exact absurd h hb
          · simp at h
    | some res =>
      match d, hd with
      | .dict r e (.seq kk kr km ka) (.seq vk vr vm va), hd =>
        obtain ⟨hks, hvs, hlen⟩ := hd
        simp only [scamseq_len] at hlen
        have hret : (bind_scan (gc_unset_root k) (ka.getD []) 0).isSome := by
          simp only [dict_key_list, scamdict_keys, scamseq_elems_seq] at hs
          simp [hs]
        obtain ⟨km', vm', K, V, hbind, href, hK, hV⟩ :=
          scamdict_bind_dict_scan r e kk vk kr vr km vm ka va k v hks hvs hlen hret hb
        have href' : (K, V) = bind_ref (dict_key_list (.dict r e (.seq kk kr km ka)
            (.seq vk vr vm va))) (dict_val_list (.dict r e (.seq kk kr km ka)
            (.seq vk vr vm va))) k v := by
          simpa [dict_key_list, dict_val_list, scamdict_keys, scamdict_vals, scamseq_elems_seq]
            using href
        have hlenKV : K.length = V.length :=
          hlenOf K V href' (by
            simpa [dict_key_list, dict_val_list, scamdict_keys, scamdict_vals,
              scamseq_elems_seq] using hlen) hb
        refine ⟨?_, ?_⟩
        · intro d' h
          rw [hbind] at h
          simp only [Option.some.injEq] at h
          subst h
          refine ⟨?_, rfl, ⟨hK, hV, by simpa only [scamseq_len] using hlenKV⟩,
            fun h => absurd h hb⟩
          simpa [dict_key_list, dict_val_list, scamdict_keys, scamdict_vals, scamseq_elems_seq]
            using href
        · exact ⟨fun _ => Or.inr (by simp), fun _ => ⟨_, hbind⟩⟩

/-- C5.  A dictionary returned by `scamdict` has empty key and value lists and
satisfies the invariant.  For every dictionary `d` that satisfies the invariant
(equal lengths of the two lists, each within its capacity), every key `k` and
every value `v`: whenever `scamdict_bind d k v` returns, the invariant and the
equality of the two lengths hold afterwards, and when `k` is bindable there is a
position `i` at which the keys list holds `k` itself or a key that compares
equal to `k` and the values list holds `v`.  The call returns exactly when `k`
is unbindable or the scan over the keys returns, that is when every comparison
`scamval_eq(key, k)` up to the first equal key is defined; in particular when
all of them are. -/
theorem scamdict_parallel_lists (enclosing : Option scamval) (d k v : scamval)
    (hd : dict_ok d) :
    (scamdict_keys (scamdict enclosing)).map scamseq_len = some 0 ∧
    (scamdict_vals (scamdict enclosing)).map scamseq_len = some 0 ∧
    dict_ok (scamdict enclosing) ∧
    (∀ d', scamdict_bind d k v = some d' →
      dict_ok d' ∧
      (scamdict_keys d').map scamseq_len = (scamdict_vals d').map scamseq_len ∧
      (dict_key_list d').length = (dict_val_list d').length ∧
      (¬ unbindable k.type → ∃ i key, scamdict_key d' i = some key ∧
        (key = gc_unset_root k ∨ scamval_eq key k = some true) ∧
        scamdict_val d' i = some (gc_unset_root v))) ∧
    ((∃ d', scamdict_bind d k v = some d') ↔
      (unbindable k.type ∨ (bind_scan (gc_unset_root k) (dict_key_list d) 0).isSome)) ∧
    ((¬ unbindable k.type → ∀ key ∈ dict_key_list d, (scamval_eq key k).isSome) →
      ∃ d', scamdict_bind d k v = some d') := by
  have hlen : ∀ (d : scamval), dict_ok d →
      (scamdict_keys d).map scamseq_len = (scamdict_vals d).map scamseq_len ∧
      (dict_key_list d).length = (dict_val_list d).length := by
    intro d hd
    match d, hd with
    | .dict r e (.seq kk kr km ka) (.seq vk vr vm va), hd =>
      exact ⟨by simpa [scamdict_keys, scamdict_vals] using hd.2.2,
        by simpa [dict_key_list, dict_val_list, scamdict_keys, scamdict_vals, scamseq_elems_seq,
          scamseq_len] using hd.2.2⟩
  obtain ⟨hret, hiff⟩ := scamdict_bind_returns d k v hd
  refine ⟨rfl, rfl, ⟨rfl, rfl, rfl⟩, ?_, hiff, ?_⟩
  · intro d' hb
    obtain ⟨hl, _, hd', _⟩ := hret d' hb
    refine ⟨hd', (hlen d' hd').1, (hlen d' hd').2, ?_⟩
    intro hnb
    obtain ⟨i, key, h1, h2, h3⟩ := bind_ref_position (dict_key_list d) (dict_val_list d) k v hnb
      (hlen d hd).2
    have hK : dict_key_list d' = (bind_ref (dict_key_list d) (dict_val_list d) k v).1 := by
      rw [← hl]
    have hV : dict_val_list d' = (bind_ref (dict_key_list d) (dict_val_list d) k v).2 := by
      rw [← hl]
    exact ⟨i, key, by rw [scamdict_key_eq, hK]; exact h1, h2,
      by rw [scamdict_val_eq, hV]; exact h3⟩
  · intro hdef
    obtain ⟨d', hb, _⟩ := scamdict_bind_core d k v hd hdef
    exact ⟨d', hb⟩

/-- Two concrete instances of `scamdict_parallel_lists`: binding `"b"` in
`dict_one`, and binding `{1: "a", 2: 3}` in a dictionary whose second key
`{1: s}`, `s` the empty string of `scamstr_empty`, cannot be compared with it:
the scan stops at the first key, which is equal. -/
theorem scamdict_parallel_lists_witness :
    dict_ok dict_one ∧
    scamdict_bind dict_one (scamstr "b".toList) (.int true 2) = some dict_two ∧
    dict_ok dict_two ∧
    (dict_key_list dict_two).length = (dict_val_list dict_two).length ∧
    (∃ i key, scamdict_key dict_two i = some key ∧
      (key = gc_unset_root (scamstr "b".toList) ∨
        scamval_eq key (scamstr "b".toList) = some true) ∧
      scamdict_val dict_two i = some (gc_unset_root (.int true 2))) ∧
    dict_ok dict_keyed_mixed ∧
    scamdict_key dict_keyed_mixed 1 = some (gc_unset_root dict_1_empty_str) ∧
    scamval_eq (gc_unset_root dict_1_empty_str) dict_1a_2_3 = none ∧
    ∃ d', scamdict_bind dict_keyed_mixed dict_1a_2_3 (scamint 9) = some d' ∧
      dict_ok d' ∧ (dict_key_list d').length = (dict_val_list d').length ∧
      scamdict_key d' 0 = some (gc_unset_root dict_2_3) ∧
      scamdict_val d' 0 = some (gc_unset_root (scamint 9)) := by
  have h1 := (scamdict_parallel_lists none dict_one (scamstr "b".toList) (.int true 2)
    ⟨by simp [seq_ok], by simp [seq_ok], rfl⟩).2.2.2.1 dict_two rfl
  have hb : scamdict_bind dict_keyed_mixed dict_1a_2_3 (scamint 9) =
      some (.dict true none
        (.seq .list false 5 (some [gc_unset_root dict_2_3, gc_unset_root dict_1_empty_str]))
        (.seq .list false 5 (some [gc_unset_root (scamint 9), .int false 20]))) := rfl
  have h2 := (scamdict_parallel_lists none dict_keyed_mixed dict_1a_2_3 (scamint 9)
    ⟨by simp [seq_ok], by simp [seq_ok], rfl⟩).2.2.2.1 _ hb
  exact ⟨⟨by simp [seq_ok], by simp [seq_ok], rfl⟩, rfl, h1.1, h1.2.2.1,
    h1.2.2.2 (by decide), ⟨by simp [seq_ok], by simp [seq_ok], rfl⟩, rfl, rfl,
    _, hb, h2.1, h2.2.2.1, rfl, rfl⟩
/-! ## Popping an element -/

theorem str_text_scamerr (msg : List Char) (h : msg.length < MAX_ERROR_SIZE)
    (hn : ∀ c ∈ msg, c ≠ NUL) : str_text (scamerr msg) = some msg := by
  have ht : msg.take (MAX_ERROR_SIZE - 1) = msg := by
    apply List.take_of_length_le
    omega
  simp only [str_text, scamerr, scam_as_str, Option.some_bind, ht]
  have hr : List.replicate (MAX_ERROR_SIZE - msg.length) NUL =
      NUL :: List.replicate (MAX_ERROR_SIZE - msg.length - 1) NUL := by
    obtain ⟨n, hn'⟩ : ∃ n, MAX_ERROR_SIZE - msg.length = n + 1 := ⟨MAX_ERROR_SIZE - msg.length - 1, by omega⟩
    rw [hn']
    simp [List.replicate_succ]
  rw [hr]
  exact cstr_append_nul msg _ hn

theorem get?_eraseIdx_lt (l : List scamval) :
    ∀ (i j : Nat), j < i → (l.eraseIdx i).get? j = l.get? j := by
  induction l with
  | nil => intro i j _; simp
  | cons x l ih =>
    intro i j h
    cases i with
    | zero => omega
    | succ i =>
      cases j with
      | zero => simp
      | succ j => simpa using ih i j (by omega)

theorem get?_eraseIdx_ge (l : List scamval) :
    ∀ (i j : Nat), i ≤ j → (l.eraseIdx i).get? j = l.get? (j + 1) := by
  induction l with
  | nil => intro i j _; simp
  | cons x l ih =>
    intro i j h
    cases i with
    | zero => simp
    | succ i =>
      cases j with
      | zero => omega
      | succ j => simpa using ih i j (by omega)

/-- C11.  For every sequence `s` and index `i`: if `i < scamseq_len s`,
`scamseq_pop s i` returns the original `i`-th element with its is-root flag
set, the length drops by one, the elements before `i` stay and those after `i`
move down by one; if `i ≥ scamseq_len s` (so for any pop on an empty sequence)
it returns an `Err` value whose message is
"attempted sequence access out of range" and the sequence is unchanged. -/
theorem scamseq_pop_post (s : scamval) (i : Nat) (hs : is_seq s) :
    (i < scamseq_len s →
      ∃ x s', scamseq_get s i = some x ∧
        scamseq_pop s i = some (gc_set_root x, s') ∧
        (gc_set_root x).is_root = true ∧
        gc_set_root x = x.with_root true ∧
        scamseq_len s' = scamseq_len s - 1 ∧
        scamseq_elems s' = (scamseq_elems s).eraseIdx i ∧
        (∀ j, j < i → scamseq_get s' j = scamseq_get s j) ∧
        (∀ j, i ≤ j → scamseq_get s' j = scamseq_get s (j + 1))) ∧
    (scamseq_len s ≤ i →
      scamseq_pop s i =
        some (scamerr "attempted sequence access out of range".toList, s) ∧
      (scamerr "attempted sequence access out of range".toList).type = SCAM_ERR ∧
      str_text (scamerr "attempted sequence access out of range".toList) =
        some "attempted sequence access out of range".toList) := by
  constructor
  · intro hi
    match s, hs with
    | .seq k r m none, _ => simp [scamseq_len] at hi
    | .seq k r m (some l), _ =>
      simp only [scamseq_len, Option.getD_some] at hi
      have hget : l.get? i = some l[i] := by
        rw [List.get?_eq_getElem?]; exact List.getElem?_eq_getElem hi
      refine ⟨l[i], .seq k r m (some (l.eraseIdx i)), by simp [scamseq_get, hget], ?_,
        is_root_with_root true _, rfl, ?_, by simp [scamseq_elems], ?_, ?_⟩
      · simp [scamseq_pop, scamseq_len, hi, hget]
      · simp [scamseq_len, List.length_eraseIdx, hi]
      · intro j hj
        simpa [scamseq_get] using get?_eraseIdx_lt l i j hj
      · intro j hj
        simpa [scamseq_get] using get?_eraseIdx_ge l i j hj
  · intro hi
    refine ⟨?_, rfl, str_text_scamerr _ (by decide) (by decide)⟩
    have : ¬ i < scamseq_len s := by omega
    simp [scamseq_pop, this]

/-- A concrete instance of `scamseq_pop_post`: popping index 0 of a one-element
list, and index 3 of the same list. -/
theorem scamseq_pop_post_witness :
    (∃ x s', scamseq_get seq_one 0 = some x ∧
        scamseq_pop seq_one 0 = some (gc_set_root x, s') ∧
        scamseq_len s' = scamseq_len seq_one - 1) ∧
      scamseq_pop seq_one 3 =
        some (scamerr "attempted sequence access out of range".toList, seq_one) := by
  obtain ⟨x, s', h1, h2, _, _, h3, _⟩ :=
    (scamseq_pop_post seq_one 0 trivial).1 (by decide)
  exact ⟨⟨x, s', h1, h2, h3⟩, ((scamseq_pop_post seq_one 3 trivial).2 (by decide)).1⟩

/-! ## Type lattice -/

/-- `scamval_typecheck` looks only at the tag of the value. -/
theorem scamval_typecheck_tag (v : scamval) (T : scamtype) :
    scamval_typecheck v T = tag_passes v.type T := by
  cases T <;> rfl

theorem type_sample_of_tag (t : scamtype) (h : t ∈ concrete_tags) :
    (sample_of_tag t).type = t := by
  cases t <;> first | rfl | (simp [concrete_tags] at h)

theorem type_mem_concrete_tags (v : scamval) : v.type ∈ concrete_tags := by
  cases v with
  | seq k _ _ _ => cases k <;> simp [scamval.type, concrete_tags]
  | str k _ _ _ _ => cases k <;> simp [scamval.type, concrete_tags]
  | _ => simp [scamval.type, concrete_tags]

/-- C13.  `narrowest_type` is commutative on all type codes, the concrete tags
and the abstract codes `Num`, `Seq`, `Container`, `Cmp`, `Function`, `Any`. -/
theorem narrowest_type_comm (a b : scamtype) : narrowest_type a b = narrowest_type b a := by
  cases a <;> cases b <;> rfl

/-- C14 (defect).  On the concrete tags `Int`, `Int`, `Dec` the two ways of
bracketing differ: `narrowest_type (narrowest_type Int Int) Dec` is `Num`, but
`narrowest_type Int (narrowest_type Int Dec)` is `narrowest_type Int Num`, which
is `Any`, as `is_numeric_type` does not accept the abstract code `Num`. -/
theorem narrowest_type_not_assoc :
    narrowest_type (narrowest_type SCAM_INT SCAM_INT) SCAM_DEC = SCAM_NUM ∧
      narrowest_type SCAM_INT SCAM_DEC = SCAM_NUM ∧
      narrowest_type SCAM_INT (narrowest_type SCAM_INT SCAM_DEC) = SCAM_ANY ∧
      narrowest_type (narrowest_type SCAM_INT SCAM_INT) SCAM_DEC ≠
        narrowest_type SCAM_INT (narrowest_type SCAM_INT SCAM_DEC) := by
  refine ⟨rfl, rfl, rfl, ?_⟩
  decide

/-- C16.  `scamval_typecheck v T` is true exactly when the tag of `v` is in the
set of `T` as the specification lists it (`type_set`); hence it is true for
`T` the tag of `v` and for `T = Any`. -/
theorem scamval_typecheck_iff (v : scamval) (T : scamtype) :
    (scamval_typecheck v T = true ↔ v.type ∈ type_set T) ∧
      scamval_typecheck v v.type = true ∧
      scamval_typecheck v SCAM_ANY = true := by
  have hmem := type_mem_concrete_tags v
  have key : ∀ t T : scamtype, t ∈ concrete_tags →
      (tag_passes t T = true ↔ t ∈ type_set T) ∧ tag_passes t t = true := by
    intro t T ht
    cases t <;> cases T <;> first | (simp [concrete_tags] at ht; done) | decide
  rw [scamval_typecheck_tag, scamval_typecheck_tag]
  exact ⟨(key v.type T hmem).1, (key v.type T hmem).2, rfl⟩

theorem narrowest_least_check_true : narrowest_least_check = true := by decide

/-- C15 (as stated, refuted).  `narrowest_type Int Str` is `Any`, although `Cmp`
accepts every `Int` and every `Str` value and its member set is strictly
smaller than that of `Any`: what `Cmp` accepts `Any` accepts, and `Any` accepts
a `Bool` value that `Cmp` rejects. -/
theorem narrowest_type_not_least_with_cmp :
    narrowest_type SCAM_INT SCAM_STR = SCAM_ANY ∧
      (∀ v : scamval, v.type = SCAM_INT ∨ v.type = SCAM_STR →
        scamval_typecheck v SCAM_CMP = true) ∧
      (∀ v : scamval, scamval_typecheck v SCAM_CMP = true →
        scamval_typecheck v SCAM_ANY = true) ∧
      scamval_typecheck (.bool true 1) SCAM_ANY = true ∧
      scamval_typecheck (.bool true 1) SCAM_CMP = false := by
  refine ⟨rfl, ?_, fun _ _ => rfl, rfl, rfl⟩
  intro v hv
  rw [scamval_typecheck_tag]
  rcases hv with h | h <;> rw [h] <;> rfl

/-- C15 (amended).  For all concrete tags `a` and `b`, `narrowest_type a b` is a
type of the lattice (concrete tags, `Num`, `Seq`, `Container`, `Any`) that
accepts, under `scamval_typecheck`, every value of tag `a` and every value of
tag `b`; every type `S` of that lattice that accepts them accepts every value
that `narrowest_type a b` accepts, so none has a strictly smaller member
set. -/
theorem narrowest_type_least (a b : scamtype) (ha : a ∈ concrete_tags)
    (hb : b ∈ concrete_tags) :
    narrowest_type a b ∈ narrowest_lattice ∧
      (∀ v : scamval, v.type = a ∨ v.type = b →
        scamval_typecheck v (narrowest_type a b) = true) ∧
      ∀ S ∈ narrowest_lattice,
        (∀ v : scamval, v.type = a ∨ v.type = b → scamval_typecheck v S = true) →
        (∀ v : scamval, scamval_typecheck v (narrowest_type a b) = true →
          scamval_typecheck v S = true) ∧
        ¬ ((∀ v : scamval, scamval_typecheck v S = true →
              scamval_typecheck v (narrowest_type a b) = true) ∧
            ∃ v : scamval, scamval_typecheck v (narrowest_type a b) = true ∧
              scamval_typecheck v S = false) := by
  have hchk := narrowest_least_check_true
  simp only [narrowest_least_check, List.all_eq_true, Bool.and_eq_true, Bool.or_eq_true,
    Bool.not_eq_true'] at hchk
  obtain ⟨⟨hTa, hTb⟩, hleast⟩ := hchk a ha b hb
  have hlat : narrowest_type a b ∈ narrowest_lattice := by
    revert ha hb
    cases a <;> cases b <;> decide
  have hacc : ∀ v : scamval, v.type = a ∨ v.type = b →
      scamval_typecheck v (narrowest_type a b) = true := by
    intro v hv
    rw [scamval_typecheck_tag]
    rcases hv with h | h <;> rw [h] <;> assumption
  refine ⟨hlat, hacc, ?_⟩
  intro S hS hboth
  have hSa : tag_passes a S = true := by
    have := hboth (sample_of_tag a) (Or.inl (type_sample_of_tag a ha))
    rwa [scamval_typecheck_tag, type_sample_of_tag a ha] at this
  have hSb : tag_passes b S = true := by
    have := hboth (sample_of_tag b) (Or.inr (type_sample_of_tag b hb))
    rwa [scamval_typecheck_tag, type_sample_of_tag b hb] at this
  have hsub : ∀ v : scamval, scamval_typecheck v (narrowest_type a b) = true →
      scamval_typecheck v S = true := by
    intro v hv
    rw [scamval_typecheck_tag] at hv ⊢
    rcases hleast S hS with h | h
    · rw [hSa, hSb] at h
      simp at h
    · rcases h v.type (type_mem_concrete_tags v) with h' | h'
      · rw [hv] at h'
        simp at h'
      · exact h'
  refine ⟨hsub, ?_⟩
  rintro ⟨_, v, hv1, hv2⟩
  rw [hsub v hv1] at hv2
  simp at hv2

/-- A concrete instance of `narrowest_type_least`: the tags `List` and `Dict`,
whose narrowest type is `Container`. -/
theorem narrowest_type_least_witness :
    narrowest_type SCAM_LIST SCAM_DICT = SCAM_CONTAINER ∧
      narrowest_type SCAM_LIST SCAM_DICT ∈ narrowest_lattice ∧
      scamval_typecheck dict_one (narrowest_type SCAM_LIST SCAM_DICT) = true ∧
      scamval_typecheck seq_one (narrowest_type SCAM_LIST SCAM_DICT) = true :=
  have h := narrowest_type_least SCAM_LIST SCAM_DICT (by decide) (by decide)
  ⟨rfl, h.1, h.2.1 dict_one (Or.inr rfl), h.2.1 seq_one (Or.inl rfl)⟩

/-! ## Subsequences -/

/-- The loop of `scamseq_subseq` appends, to a result that satisfies the
capacity invariant, the copies of the `todo` elements from index `i` on. -/
theorem scamseq_subseq_loop_seq (k : seqkind) (r : Bool) (m : Nat) (l : List scamval) :
    ∀ (todo i : Nat) (k2 : seqkind) (r2 : Bool) (m2 : Nat) (a2 : Option (List scamval)),
      seq_ok (.seq k2 r2 m2 a2) → i + todo ≤ l.length →
      ∃ m' a', scamseq_subseq_loop (.seq k r m (some l)) todo i (.seq k2 r2 m2 a2) =
          some (.seq k2 r2 m' a') ∧
        seq_ok (.seq k2 r2 m' a') ∧
        a'.getD [] = a2.getD [] ++
          ((l.drop i).take todo).map fun x => gc_unset_root (gc_copy_scamval x) := by
  intro todo
  induction todo with
  | zero =>
    intro i k2 r2 m2 a2 hok _
    exact ⟨m2, a2, rfl, hok, by simp⟩
  | succ todo ih =>
    intro i k2 r2 m2 a2 hok hi
    have hlt : i < l.length := by omega
    have hget : scamseq_get (.seq k r m (some l)) i = some l[i] := by
      simp only [scamseq_get, List.get?_eq_getElem?]
      exact List.getElem?_eq_getElem hlt
    obtain ⟨m1, happ, hm1⟩ := scamseq_append_seq k2 r2 m2 a2 (gc_copy_scamval l[i]) hok
    obtain ⟨m', a', hloop, hok', hel⟩ := ih (i + 1) k2 r2 m1
      (some (a2.getD [] ++ [gc_unset_root (gc_copy_scamval l[i])]))
      (by simp only [seq_ok]; simpa using hm1) (by omega)
    refine ⟨m', a', ?_, hok', ?_⟩
    · simp only [scamseq_subseq_loop, hget, happ, hloop]
    · rw [hel, Option.getD_some, List.drop_eq_getElem_cons hlt, List.take_succ_cons,
        List.map_cons, List.append_assoc]
      rfl

/-- C12.  For every `List` or `SExpr` `s`: if `start ≤ stop ≤ scamseq_len s`,
`scamseq_subseq s start stop` is a new root sequence with the tag of `s` and
length `stop - start` whose `k`-th element is the copy of element `start + k` of
`s` (the element itself up to the is-root flag, which is cleared in the new
sequence); otherwise the result is an `Err` value.  `s` is only read. -/
theorem scamseq_subseq_post (s : scamval) (start stop : Nat) (hs : is_seq s) :
    (start ≤ stop → stop ≤ scamseq_len s →
      ∃ r, scamseq_subseq s start stop = some r ∧
        r.type = s.type ∧ r.is_root = true ∧
        scamseq_len r = stop - start ∧
        scamseq_elems r = (((scamseq_elems s).drop start).take (stop - start)).map
          (fun x => gc_unset_root (gc_copy_scamval x)) ∧
        ∀ k, k < stop - start →
          ∃ x, scamseq_get s (start + k) = some x ∧
            scamseq_get r k = some (gc_unset_root (gc_copy_scamval x)) ∧
            (gc_unset_root (gc_copy_scamval x)).with_root x.is_root = x) ∧
    (¬ (start ≤ stop ∧ stop ≤ scamseq_len s) →
      ∃ e, scamseq_subseq s start stop = some e ∧ e.type = SCAM_ERR) := by
  constructor
  · intro h1 h2
    match s, hs with
    | .seq k r m a, _ =>
      have hcond : stop ≤ scamseq_len (.seq k r m a) ∧ start ≤ stop := ⟨h2, h1⟩
      simp only [scamseq_len] at h2
      have hloop : ∃ m' a', scamseq_subseq_loop (.seq k r m a) (stop - start) start
            (scam_internal_seq k) = some (.seq k gc_new_is_root m' a') ∧
          a'.getD [] = (((a.getD []).drop start).take (stop - start)).map
            (fun x => gc_unset_root (gc_copy_scamval x)) := by
        cases a with
        | none =>
          simp only [Option.getD_none, List.length_nil, Nat.le_zero] at h2
          have hz : stop - start = 0 := by omega
          rw [hz]
          exact ⟨0, none, rfl, by simp⟩
        | some l =>
          simp only [Option.getD_some] at h2 ⊢
          obtain ⟨m', a', hl, _, hel⟩ := scamseq_subseq_loop_seq k r m l (stop - start) start
            k gc_new_is_root 0 none rfl (by omega)
          exact ⟨m', a', hl, by simpa using hel⟩
      obtain ⟨m', a', hl, hel⟩ := hloop
      have helems : scamseq_elems (.seq k gc_new_is_root m' a') =
          (((scamseq_elems (.seq k r m a)).drop start).take (stop - start)).map
            (fun x => gc_unset_root (gc_copy_scamval x)) := by
        rw [scamseq_elems_seq, scamseq_elems_seq, hel]
      have hlen : scamseq_len (.seq k gc_new_is_root m' a') = stop - start := by
        simp only [scamseq_len, hel, List.length_map, List.length_take, List.length_drop]
        omega
      refine ⟨.seq k gc_new_is_root m' a', ?_, by cases k <;> rfl, rfl, hlen, helems, ?_⟩
      · simp only [scamseq_subseq, hcond, and_self, if_true, hl]
      · intro j hj
        have hidx : start + j < (a.getD []).length := by omega
        refine ⟨(a.getD [])[start + j], ?_, ?_, ?_⟩
        · rw [scamseq_get_eq, scamseq_elems_seq, List.get?_eq_getElem?]
          exact List.getElem?_eq_getElem hidx
        · rw [scamseq_get_eq, helems, scamseq_elems_seq, List.get?_eq_getElem?,
            List.getElem?_map, List.getElem?_take_of_lt hj, List.getElem?_drop,
            List.getElem?_eq_getElem hidx]
          rfl
        · simp only [gc_unset_root, gc_copy_scamval, gc_set_root, with_root_with_root,
            with_root_is_root]
  · intro h
    refine ⟨scamerr "attempted sequence access out of bounds".toList, ?_, rfl⟩
    have : ¬ (stop ≤ scamseq_len s ∧ start ≤ stop) := fun hc => h ⟨hc.2, hc.1⟩
    simp only [scamseq_subseq, this, if_false]

/-- A concrete instance of `scamseq_subseq_post`: the whole of a one-element
list, and a range past its end. -/
theorem scamseq_subseq_post_witness :
    (∃ r, scamseq_subseq seq_one 0 1 = some r ∧ r.type = SCAM_LIST ∧
        scamseq_len r = 1) ∧
      ∃ e, scamseq_subseq seq_one 0 2 = some e ∧ e.type = SCAM_ERR := by
  obtain ⟨r, h1, h2, _, h3, _⟩ :=
    (scamseq_subseq_post seq_one 0 1 trivial).1 (by decide) (by decide)
  exact ⟨⟨r, h1, h2, h3⟩, (scamseq_subseq_post seq_one 0 2 trivial).2 (by decide)⟩

/-! ## Ordered comparison -/

theorem char_toNat_ne (c1 c2 : Char) (h : c1 ≠ c2) : c1.toNat ≠ c2.toNat := by
  intro he
  apply char_toNat_sub_ne c1 c2 h
  omega

theorem NUL_toNat : NUL.toNat = 0 := rfl

/-- On two terminated blocks `strcmp` is positive exactly when the text of the
first is lexicographically greater than the text of the second. -/
theorem strcmp_pos_iff (a : List Char) :
    ∀ (b ta tb : List Char), cstr a = some ta → cstr b = some tb →
      ∃ z, strcmp a b = some z ∧ decide (z > 0) = bytes_gt ta tb := by
  induction a with
  | nil => intro b ta tb h; simp [cstr] at h
  | cons c1 a ih =>
    intro b ta tb ha hb
    cases b with
    | nil => simp [cstr] at hb
    | cons c2 b =>
      simp only [cstr] at ha hb
      by_cases h1 : c1 = NUL
      · simp only [h1, if_true, Option.some.injEq] at ha
        subst ha
        by_cases h2 : c2 = NUL
        · exact ⟨0, by simp [strcmp, h1, h2], by simp [bytes_gt]⟩
        · have hne : c1 ≠ c2 := by rw [h1]; exact fun h => h2 h.symm
          refine ⟨(c1.toNat : Int) - (c2.toNat : Int), by simp [strcmp, hne], ?_⟩
          rw [h1, NUL_toNat]
          simp only [bytes_gt]
          simp only [decide_eq_false_iff_not]
          omega
      · simp only [h1, if_false] at ha
        cases hta : cstr a with
        | none => simp [hta] at ha
        | some ta' =>
          simp only [hta, Option.map_some', Option.some.injEq] at ha
          subst ha
          by_cases h2 : c2 = NUL
          · simp only [h2, if_true, Option.some.injEq] at hb
            subst hb
            have hne : c1 ≠ c2 := by rw [h2]; exact h1
            refine ⟨(c1.toNat : Int) - (c2.toNat : Int), by simp [strcmp, hne], ?_⟩
            have hpos : c1.toNat ≠ 0 := by
              have := char_toNat_ne c1 NUL h1
              rwa [NUL_toNat] at this
            rw [h2, NUL_toNat]
            simp only [bytes_gt, decide_eq_true_eq]
            omega
          · simp only [h2, if_false] at hb
            cases htb : cstr b with
            | none => simp [htb] at hb
            | some tb' =>
              simp only [htb, Option.map_some', Option.some.injEq] at hb
              subst hb
              by_cases hne : c1 = c2
              · subst hne
                obtain ⟨z, hz, hzb⟩ := ih b ta' tb' hta htb
                refine ⟨z, by simp [strcmp, h1, hz], ?_⟩
                simp [bytes_gt, hzb]
              · refine ⟨(c1.toNat : Int) - (c2.toNat : Int), by simp [strcmp, hne], ?_⟩
                have hn := char_toNat_ne c1 c2 hne
                simp only [bytes_gt]
                by_cases hgt : c1.toNat > c2.toNat
                · simp only [hgt, if_true, decide_eq_true_eq]
                  omega
                · have hlt : c1.toNat < c2.toNat := by omega
                  simp only [hgt, if_false, hlt, if_true, decide_eq_false_iff_not]
                  omega

/-- The comparison `scamval_gt a b` where it is defined: when both values are
`Int` it is the comparison of the two integers; when both have tag `Str` and
hold the texts `ta` and `tb` it says whether `ta` is lexicographically greater
than `tb` by bytes; and for every pair that is neither both numeric nor both
`Str` it is false. -/
theorem scamval_gt_spec (a b : scamval) :
    (a.type = SCAM_INT → b.type = SCAM_INT →
      scamval_gt a b = some (decide (scam_as_int a > scam_as_int b))) ∧
    (a.type = SCAM_STR → b.type = SCAM_STR →
      ∀ ta tb, str_text a = some ta → str_text b = some tb →
        scamval_gt a b = some (bytes_gt ta tb)) ∧
    (¬ (scamval_typecheck a SCAM_NUM = true ∧ scamval_typecheck b SCAM_NUM = true) →
      ¬ (a.type = SCAM_STR ∧ b.type = SCAM_STR) →
      scamval_gt a b = some false) := by
  refine ⟨?_, ?_, ?_⟩
  · intro ha hb
    simp [scamval_gt, scamval_typecheck, scamval_numeric_gt, ha, hb]
  · intro ha hb ta tb hta htb
    cases hsa : scam_as_str a with
    | none => simp [str_text, hsa] at hta
    | some sa =>
      cases hsb : scam_as_str b with
      | none => simp [str_text, hsb] at htb
      | some sb =>
        simp only [str_text, hsa, hsb, Option.some_bind] at hta htb
        obtain ⟨z, hz, hzb⟩ := strcmp_pos_iff sa sb ta tb hta htb
        have hp : strcmp_ptr (scam_as_str a) (scam_as_str b) = some z := by
          rw [hsa, hsb]; exact hz
        simp [scamval_gt, scamval_typecheck, ha, hb, hp, ← hzb]
  · intro hnum hstr
    have h1 : (scamval_typecheck a SCAM_NUM && scamval_typecheck b SCAM_NUM) = false := by
      cases h : scamval_typecheck a SCAM_NUM <;> cases h' : scamval_typecheck b SCAM_NUM <;>
        simp_all
    have h2 : (scamval_typecheck a SCAM_STR && scamval_typecheck b SCAM_STR) = false := by
      rw [scamval_typecheck_tag, scamval_typecheck_tag]
      simp only [tag_passes, Bool.and_eq_false_iff, beq_eq_false_iff_ne, ne_eq]
      by_cases h : a.type = SCAM_STR
      · right; exact fun hb => hstr ⟨h, hb⟩
      · left; exact h
    simp only [scamval_gt, h1, h2]
    simp

/-- Concrete instances of `scamval_gt_spec`: 3 against 2 is true, `"b"`
against `"ab"` is true, and the symbols `b` against `a` is false. -/
theorem scamval_gt_spec_witness :
    scamval_gt (.int true 3) (.int true 2) = some true ∧
      scamval_gt (scamstr "b".toList) (scamstr "ab".toList) = some true ∧
      scamval_gt (scamsym "b".toList) (scamsym "a".toList) = some false :=
  ⟨(scamval_gt_spec (.int true 3) (.int true 2)).1 rfl rfl,
    (scamval_gt_spec (scamstr "b".toList) (scamstr "ab".toList)).2.1 rfl rfl
      "b".toList "ab".toList rfl rfl,
    (scamval_gt_spec (scamsym "b".toList) (scamsym "a".toList)).2.2 (by decide) (by decide)⟩

/-- C20 (defect).  The empty string of `scamstr_empty` has tag `Str` and a NULL
buffer.  `scamval_gt` hands it to `strcmp`, so comparing it with `"a"`, in
either order, or with itself has no defined result, where the bytes of the
empty string are not greater than those of `"a"` and those of `"a"` are greater
than those of the empty string. -/
theorem scamval_gt_undefined_on_empty_str :
    scamstr_empty.type = SCAM_STR ∧ (scamstr "a".toList).type = SCAM_STR ∧
    scamstr_len scamstr_empty = 0 ∧ scam_as_str scamstr_empty = none ∧
    scamval_gt scamstr_empty (scamstr "a".toList) = none ∧
    scamval_gt (scamstr "a".toList) scamstr_empty = none ∧
    scamval_gt scamstr_empty scamstr_empty = none ∧
    bytes_gt [] "a".toList = false ∧ bytes_gt "a".toList [] = true :=
  ⟨rfl, rfl, rfl, rfl, rfl, rfl, rfl, rfl, rfl⟩

/-! ## Symmetry of equality -/

theorem strcmp_symm (a : List Char) :
    ∀ (b : List Char), (strcmp a b).map (· == 0) = (strcmp b a).map (· == 0) := by
  induction a with
  | nil => intro b; cases b <;> simp [strcmp]
  | cons c1 a ih =>
    intro b
    cases b with
    | nil => simp [strcmp]
    | cons c2 b =>
      by_cases hne : c1 = c2
      · subst hne
        by_cases hc : c1 = NUL
        · simp [strcmp, hc]
        · simp only [strcmp, ne_eq, not_true_eq_false, if_false, hc]
          exact ih b
      · have hne' : ¬ c2 = c1 := fun h => hne h.symm
        have h1 := char_toNat_sub_ne c1 c2 hne
        have h2 := char_toNat_sub_ne c2 c1 hne'
        simp [strcmp, hne, hne', h1, h2]

theorem strcmp_ptr_symm (s t : Option (List Char)) :
    (strcmp_ptr s t).map (· == 0) = (strcmp_ptr t s).map (· == 0) := by
  cases s <;> cases t <;> simp [strcmp_ptr]
  exact strcmp_symm _ _

theorem scamval_eq_symm_of_mismatch (x y : scamval)
    (hnum : (scamval_typecheck x SCAM_NUM && scamval_typecheck y SCAM_NUM) = false)
    (ht : x.type ≠ y.type) : scamval_eq x y = scamval_eq y x := by
  obtain ⟨b, h1, h2⟩ := scamval_eq_mismatch x y hnum ht
  rw [h1, h2]

theorem int_beq_comm (n m : Int) : (n == m) = (m == n) :=
  Bool.eq_iff_iff.mpr (by simp only [beq_iff_eq]; exact eq_comm)

theorem list_eq_scan_symm (l : List scamval) :
    ∀ (ys : List scamval), l.length = ys.length →
      (∀ x ∈ l, ∀ y, scamval_eq x y = scamval_eq y x) →
      list_eq_scan (scamval_eq_each l) ys = list_eq_scan (scamval_eq_each ys) l := by
  induction l with
  | nil =>
    intro ys hl _
    cases ys with
    | nil => rfl
    | cons y ys => simp at hl
  | cons x xs ih =>
    intro ys hl h
    cases ys with
    | nil => simp at hl
    | cons y ys =>
      simp only [List.length_cons, Nat.add_right_cancel_iff] at hl
      have hx := h x (List.mem_cons_self _ _) y
      have hxs := ih ys hl (fun x' hx' => h x' (List.mem_cons_of_mem _ hx'))
      simp only [scamval_eq_each, list_eq_scan, hx, hxs]

mutual
/-- A value with no `Dict` inside compares the same way in both argument
orders against every value. -/
theorem scamval_eq_symm : ∀ (a b : scamval), dict_free a = true →
    scamval_eq a b = scamval_eq b a
  | .int r n, b, _ => by
    rcases b with _ | _ | _ | ⟨⟨⟩, _, _, _⟩ | ⟨⟨⟩, _, _, _, _⟩ | _ | _ | _ | _ | _
    all_goals first
      | (refine scamval_eq_symm_of_mismatch _ _ rfl ?_; simp [scamval.type])
      | simp [scamval_eq, scamval_typecheck, scamval.type, scamval_numeric_eq, scam_as_int,
          scam_as_dec, int_beq_comm n, Dbl.eq_comm (Dbl.ofInt n)]
  | .dec r d, b, _ => by
    rcases b with _ | _ | _ | ⟨⟨⟩, _, _, _⟩ | ⟨⟨⟩, _, _, _, _⟩ | _ | _ | _ | _ | _
    all_goals first
      | (refine scamval_eq_symm_of_mismatch _ _ rfl ?_; simp [scamval.type])
      | simp [scamval_eq, scamval_typecheck, scamval.type, scamval_numeric_eq, scam_as_int,
          scam_as_dec, Dbl.eq_comm d]
  | .bool r n, b, _ => by
    rcases b with _ | _ | _ | ⟨⟨⟩, _, _, _⟩ | ⟨⟨⟩, _, _, _, _⟩ | _ | _ | _ | _ | _
    all_goals first
      | (refine scamval_eq_symm_of_mismatch _ _ rfl ?_; simp [scamval.type]; done)
      | simp [scamval_eq, scamval_typecheck, scamval.type, scam_as_bool, scam_as_int,
          int_beq_comm n]
  | .str .str r c m s, b, _ => by
    rcases b with _ | _ | _ | ⟨⟨⟩, _, _, _⟩ | ⟨⟨⟩, _, _, _, _⟩ | _ | _ | _ | _ | _
    all_goals first
      | (refine scamval_eq_symm_of_mismatch _ _ rfl ?_; simp [scamval.type]; done)
      | simpa [scamval_eq, scamval_typecheck, scamval.type, scam_as_str] using
          strcmp_ptr_symm s _
  | .str .sym r c m s, b, _ => by
    rcases b with _ | _ | _ | ⟨⟨⟩, _, _, _⟩ | ⟨⟨⟩, _, _, _, _⟩ | _ | _ | _ | _ | _
    all_goals first
      | (refine scamval_eq_symm_of_mismatch _ _ rfl ?_; simp [scamval.type]; done)
      | simpa [scamval_eq, scamval_typecheck, scamval.type, scam_as_str] using
          strcmp_ptr_symm s _
  | .str .err r c m s, b, _ => by
    rcases b with _ | _ | _ | ⟨⟨⟩, _, _, _⟩ | ⟨⟨⟩, _, _, _, _⟩ | _ | _ | _ | _ | _
    all_goals first
      | (refine scamval_eq_symm_of_mismatch _ _ rfl ?_; simp [scamval.type]; done)
      | simp [scamval_eq, scamval_typecheck, scamval.type]
  | .lambda r e p bd, b, _ => by
    rcases b with _ | _ | _ | ⟨⟨⟩, _, _, _⟩ | ⟨⟨⟩, _, _, _, _⟩ | _ | _ | _ | _ | _
    all_goals first
      | (refine scamval_eq_symm_of_mismatch _ _ rfl ?_; simp [scamval.type]; done)
      | simp [scamval_eq, scamval_typecheck, scamval.type]
  | .builtin r f c, b, _ => by
    rcases b with _ | _ | _ | ⟨⟨⟩, _, _, _⟩ | ⟨⟨⟩, _, _, _, _⟩ | _ | _ | _ | _ | _
    all_goals first
      | (refine scamval_eq_symm_of_mismatch _ _ rfl ?_; simp [scamval.type]; done)
      | simp [scamval_eq, scamval_typecheck, scamval.type]
  | .port r st fp, b, _ => by
    rcases b with _ | _ | _ | ⟨⟨⟩, _, _, _⟩ | ⟨⟨⟩, _, _, _, _⟩ | _ | _ | _ | _ | _
    all_goals first
      | (refine scamval_eq_symm_of_mismatch _ _ rfl ?_; simp [scamval.type]; done)
      | simp [scamval_eq, scamval_typecheck, scamval.type]
  | .null r, b, _ => by
    rcases b with _ | _ | _ | ⟨⟨⟩, _, _, _⟩ | ⟨⟨⟩, _, _, _, _⟩ | _ | _ | _ | _ | _
    all_goals first
      | (refine scamval_eq_symm_of_mismatch _ _ rfl ?_; simp [scamval.type]; done)
      | simp [scamval_eq, scamval_typecheck, scamval.type]
  | .seq k r m a, b, h => by
    simp only [dict_free] at h
    have hel := scamval_eq_symm_slots a h
    cases b with
    | seq k2 r2 m2 a2 =>
      rw [scamval_eq_seq, scamval_eq_seq]
      by_cases hkk : k = k2
      · subst hkk
        by_cases hl : (a.getD []).length = (a2.getD []).length
        · simp only [if_true, hl]
          exact list_eq_scan_symm (a.getD []) (a2.getD []) hl hel
        · have hl' : ¬ (a2.getD []).length = (a.getD []).length := fun h' => hl h'.symm
          simp [hl, hl']
      · have hkk' : ¬ k2 = k := fun h' => hkk h'.symm
        simp [hkk, hkk']
    | str k2 _ _ _ _ =>
      cases k <;> cases k2 <;> exact scamval_eq_symm_of_mismatch _ _ rfl (by simp [scamval.type])
    | _ =>
      cases k <;> exact scamval_eq_symm_of_mismatch _ _ rfl (by simp [scamval.type])
  | .dict _ _ _ _, _, h => by simp [dict_free] at h
/-- `scamval_eq_symm` for the slots of a storage block. -/
theorem scamval_eq_symm_slots : ∀ (a : Option (List scamval)), dict_free_slots a = true →
    ∀ x ∈ a.getD [], ∀ y, scamval_eq x y = scamval_eq y x
  | none, _ => by intro x hx; simp at hx
  | some l, h => by
    simp only [dict_free_slots] at h
    simpa using scamval_eq_symm_all l h
/-- `scamval_eq_symm` for the elements of a list. -/
theorem scamval_eq_symm_all : ∀ (l : List scamval), dict_free_all l = true →
    ∀ x ∈ l, ∀ y, scamval_eq x y = scamval_eq y x
  | [], _ => by intro x hx; simp at hx
  | x :: xs, h => by
    simp only [dict_free_all, Bool.and_eq_true] at h
    intro x' hx' y
    rcases List.mem_cons.mp hx' with rfl | hx'
    · exact scamval_eq_symm x' y h.1
    · exact scamval_eq_symm_all xs h.2 x' hx' y
end

/-- C18 (as stated, refuted).  Neither `[{}]` nor `[{"a":1}]` has tag `Dict`,
yet `scamval_eq([{}], [{"a":1}])` is true and `scamval_eq([{"a":1}], [{}])` is
false: the one-directional comparison of the dictionaries inside shows
through. -/
theorem scamval_eq_not_symmetric_on_lists_of_dicts :
    list_of_empty_dict.type = SCAM_LIST ∧ list_of_dict_one.type = SCAM_LIST ∧
      scamval_eq list_of_empty_dict list_of_dict_one = some true ∧
      scamval_eq list_of_dict_one list_of_empty_dict = some false ∧
      scamval_eq list_of_empty_dict list_of_dict_one ≠
        scamval_eq list_of_dict_one list_of_empty_dict := by
  refine ⟨rfl, rfl, rfl, rfl, ?_⟩
  have h1 : scamval_eq list_of_empty_dict list_of_dict_one = some true := rfl
  have h2 : scamval_eq list_of_dict_one list_of_empty_dict = some false := rfl
  rw [h1, h2]
  simp

/-- C18 (amended).  For all values `a` and `b` of which at least one holds no
`Dict`, neither at the top nor inside its `List`s and `SExpr`s at any depth,
`scamval_eq a b = scamval_eq b a`. -/
theorem scamval_eq_symmetric_without_dict (a b : scamval)
    (h : dict_free a = true ∨ dict_free b = true) :
    scamval_eq a b = scamval_eq b a := by
  rcases h with h | h
  · exact scamval_eq_symm a b h
  · exact (scamval_eq_symm b a h).symm

/-- A concrete instance of `scamval_eq_symmetric_without_dict`: the list
`["a" 1]` against the list `[{"a":1}]`. -/
theorem scamval_eq_symmetric_without_dict_witness :
    scamval_eq list_a_one list_of_dict_one = scamval_eq list_of_dict_one list_a_one :=
  scamval_eq_symmetric_without_dict list_a_one list_of_dict_one (Or.inl rfl)


/-! ## Dictionary equality -/

/-- The loop of `scamval_dict_eq` answers true exactly when every key of the
first dictionary is found in the second with an equal value. -/
theorem scamval_dict_eq_loop_iff (b : scamval) (K : List scamval) :
    ∀ V : List scamval, scamval_dict_eq_loop b K V = some true ↔
      ∀ i, i < K.length → ∃ key val1 val2, K.get? i = some key ∧ V.get? i = some val1 ∧
        scamdict_lookup b key = some val2 ∧ scamval_eq val1 val2 = some true := by
  induction K with
  | nil => intro V; simp [scamval_dict_eq_loop]
  | cons key ks ih =>
    intro V
    cases V with
    | nil =>
      simp only [scamval_dict_eq_loop]
      constructor
      · intro h; cases h
      · intro h
        obtain ⟨_, _, _, _, h2, _⟩ := h 0 (by simp)
        simp at h2
    | cons val1 vs =>
      simp only [scamval_dict_eq_loop]
      constructor
      · intro h i hi
        cases hl : scamdict_lookup b key with
        | none => simp [hl] at h
        | some val2 =>
          simp only [hl] at h
          cases he : scamval_eq val1 val2 with
          | none => simp [he] at h
          | some t =>
            cases t with
            | false => simp [he] at h
            | true =>
              simp only [he] at h
              cases i with
              | zero => exact ⟨key, val1, val2, by simp, by simp, hl, he⟩
              | succ j =>
                obtain ⟨k, v1, v2, h1, h2, h3, h4⟩ := (ih vs).mp h j (by simpa using hi)
                exact ⟨k, v1, v2, by simpa using h1, by simpa using h2, h3, h4⟩
      · intro h
        obtain ⟨k, v1, v2, h1, h2, h3, h4⟩ := h 0 (by simp)
        simp at h1 h2
        subst h1; subst h2
        rw [h3]
        simp only [h4]
        refine (ih vs).mpr ?_
        intro i hi
        obtain ⟨k, v1, v2, h1, h2, h3, h4⟩ := h (i + 1) (by simpa using hi)
        exact ⟨k, v1, v2, by simpa using h1, by simpa using h2, h3, h4⟩

/-- On a dictionary and a value of tag `Dict`, `scamval_eq` is the loop of
`scamval_dict_eq`. -/
theorem scamval_eq_dict_loop (r : Bool) (e : Option scamval) (kk vk : seqkind) (kr vr : Bool)
    (km vm : Nat) (ka va : Option (List scamval)) (b : scamval) (hb : b.type = SCAM_DICT) :
    scamval_eq (.dict r e (.seq kk kr km ka) (.seq vk vr vm va)) b =
      scamval_dict_eq_loop b (ka.getD []) (va.getD []) := by
  rw [scamval_eq_source_eq]
  rcases b with _ | _ | _ | ⟨⟨⟩, _, _, _⟩ | ⟨⟨⟩, _, _, _, _⟩ | _ | _ | _ | _ | _ <;>
    first
      | (exfalso; revert hb; simp [scamval.type]; done)
      | simp [scamval_eq_source, scamval_typecheck, scamval.type, scamval_dict_eq]

/-- C19.  Dict equality is one-directional.  For a dictionary `a` and a value
`b` of tag `Dict`, `scamval_eq(a, b)` is true exactly when at every local
position `i` of `a` the lookup of `scamdict_key(a, i)` in `b` returns a value
that `scamval_eq` finds equal to `scamdict_val(a, i)`; the keys of `b` are not
consulted.  Hence the empty dictionary equals the one-binding dictionary
`{"a": 1}`, while `{"a": 1}` does not equal the empty dictionary. -/
theorem scamval_eq_dict_iff (a b : scamval) (ha : is_dict a) (hb : b.type = SCAM_DICT) :
    (scamval_eq a b = some true ↔
      ∀ i, i < scamdict_len a → ∃ key val1 val2, scamdict_key a i = some key ∧
        scamdict_val a i = some val1 ∧ scamdict_lookup b key = some val2 ∧
        scamval_eq val1 val2 = some true) ∧
    scamval_eq (scamdict none) dict_one = some true ∧
    scamval_eq dict_one (scamdict none) = some false := by
  refine ⟨?_, rfl, rfl⟩
  match a, ha with
  | .dict r e (.seq kk kr km ka) (.seq vk vr vm va), _ =>
    rw [scamval_eq_dict_loop _ _ _ _ _ _ _ _ _ _ b hb, scamval_dict_eq_loop_iff]
    simp only [scamdict_key_eq, scamdict_val_eq, scamdict_len, scamdict_keys, scamseq_len,
      dict_key_list, dict_val_list, scamdict_vals, scamseq_elems_seq]

theorem scamval_eq_dict_iff_witness :
    is_dict dict_one ∧ dict_two.type = SCAM_DICT ∧
    scamval_eq dict_one dict_two = some true ∧
    scamval_eq dict_two dict_one = some false ∧
    (scamval_eq dict_one dict_two = some true ↔
      ∀ i, i < scamdict_len dict_one → ∃ key val1 val2, scamdict_key dict_one i = some key ∧
        scamdict_val dict_one i = some val1 ∧ scamdict_lookup dict_two key = some val2 ∧
        scamval_eq val1 val2 = some true) :=
  ⟨trivial, rfl, rfl, rfl, (scamval_eq_dict_iff dict_one dict_two trivial rfl).1⟩

/-! ## Reflexivity of equality -/

theorem list_eq_scan_refl (l : List scamval) (h : ∀ x ∈ l, scamval_eq x x = some true) :
    list_eq_scan (scamval_eq_each l) l = some true := by
  induction l with
  | nil => simp [scamval_eq_each, list_eq_scan]
  | cons x xs ih =>
    simp [scamval_eq_each, list_eq_scan, h x (List.mem_cons_self _ _),
      ih (fun y hy => h y (List.mem_cons_of_mem _ hy))]

/-- A key of a list without repetitions differs from every earlier key. -/
theorem distinct_keys_get (K : List scamval) :
    ∀ (i j : Nat) (x y : scamval), distinct_keys K = true → j < i → K.get? j = some x →
      K.get? i = some y → scamval_eq y x = some false := by
  induction K with
  | nil => intro i j x y _ _ hx; simp at hx
  | cons k ks ih =>
    intro i j x y hd hji hx hy
    simp only [distinct_keys, Bool.and_eq_true, List.all_eq_true, beq_iff_eq] at hd
    cases i with
    | zero => omega
    | succ i =>
      simp only [List.get?_cons_succ] at hy
      cases j with
      | zero =>
        simp only [List.get?_cons_zero, Option.some.injEq] at hx
        subst hx
        exact hd.1 y (List.get?_mem hy)
      | succ j =>
        simp only [List.get?_cons_succ] at hx
        exact ih i j x y hd.2 (by omega) hx hy

/-- The scan of `scamdict_lookup` returns the value at the first position whose
key compares equal. -/
theorem lookup_scan_hit (eqk : scamval → Option Bool) (K : List scamval) :
    ∀ (V : List scamval) (i : Nat) (key val : scamval), K.get? i = some key →
      V.get? i = some val → (∀ j x, j < i → K.get? j = some x → eqk x = some false) →
      eqk key = some true → lookup_scan eqk K V = some (some val) := by
  induction K with
  | nil => intro V i key val hk; simp at hk
  | cons k ks ih =>
    intro V i key val hk hv hpre hkey
    cases i with
    | zero =>
      simp only [List.get?_cons_zero, Option.some.injEq] at hk
      subst hk
      cases V with
      | nil => simp at hv
      | cons v vs =>
        simp only [List.get?_cons_zero, Option.some.injEq] at hv
        simp [lookup_scan, hkey, hv]
    | succ i =>
      have h0 : eqk k = some false := hpre 0 k (by omega) (by simp)
      cases V with
      | nil => simp at hv
      | cons v vs =>
        simp only [List.get?_cons_succ] at hk hv
        simp only [lookup_scan, h0, List.tail_cons]
        exact ih vs i key val hk hv
          (fun j x hj hx => hpre (j + 1) x (by omega) (by simpa using hx)) hkey

/-- A dictionary with a value for every key, no repeated key, and keys and
values that are equal to themselves, is equal to itself. -/
theorem scamval_eq_dict_refl (r : Bool) (e : Option scamval) (kk vk : seqkind) (kr vr : Bool)
    (km vm : Nat) (ka va : Option (List scamval))
    (hk : ∀ x ∈ ka.getD [], scamval_eq x x = some true)
    (hv : ∀ x ∈ va.getD [], scamval_eq x x = some true)
    (hlen : (ka.getD []).length ≤ (va.getD []).length)
    (hd : distinct_keys (ka.getD []) = true) :
    scamval_eq (.dict r e (.seq kk kr km ka) (.seq vk vr vm va))
      (.dict r e (.seq kk kr km ka) (.seq vk vr vm va)) = some true := by
  rw [scamval_eq_dict_loop r e kk vk kr vr km vm ka va
    (.dict r e (.seq kk kr km ka) (.seq vk vr vm va)) rfl, scamval_dict_eq_loop_iff]
  intro i hi
  obtain ⟨key, hkey⟩ : ∃ key, (ka.getD []).get? i = some key :=
    ⟨_, List.get?_eq_get hi⟩
  obtain ⟨val, hval⟩ : ∃ val, (va.getD []).get? i = some val :=
    ⟨_, List.get?_eq_get (Nat.lt_of_lt_of_le hi hlen)⟩
  refine ⟨key, val, val, hkey, hval, ?_, hv val (List.get?_mem hval)⟩
  rw [scamdict_lookup_source,
    lookup_scan_hit _ _ _ i key val hkey hval
      (fun j x hj hx => distinct_keys_get _ i j x key hd hj hx hkey)
      (hk key (List.get?_mem hkey))]

mutual
/-- Numbers other than NaN, booleans, `Null`, terminated strings and symbols,
sequences of such values and well-formed dictionaries of such values are equal
to themselves under `scamval_eq`. -/
theorem scamval_eq_refl : ∀ (v : scamval), eq_refl_ok v = true → scamval_eq v v = some true
  | .int _ n, _ => by
    simp [scamval_eq, scamval_typecheck, scamval.type, scamval_numeric_eq, scam_as_int]
  | .dec _ d, h => by
    simp only [eq_refl_ok, Bool.not_eq_true'] at h
    simp [scamval_eq, scamval_typecheck, scamval.type, scamval_numeric_eq, scam_as_dec,
      Dbl.eq_self d h]
  | .bool _ n, _ => by
    simp [scamval_eq, scamval_typecheck, scamval.type, scam_as_bool, scam_as_int]
  | .null _, _ => by
    simp [scamval_eq, scamval_typecheck, scamval.type]
  | .str .str _ _ _ s, h => by
    simp only [eq_refl_ok] at h
    cases s with
    | none => simp at h
    | some b =>
      simp [scamval_eq, scamval_typecheck, scamval.type, scam_as_str, strcmp_ptr,
        strcmp_self b h]
  | .str .sym _ _ _ s, h => by
    simp only [eq_refl_ok] at h
    cases s with
    | none => simp at h
    | some b =>
      simp [scamval_eq, scamval_typecheck, scamval.type, scam_as_str, strcmp_ptr,
        strcmp_self b h]
  | .seq k _ _ a, h => by
    simp only [eq_refl_ok] at h
    rw [scamval_eq_seq]
    simpa using list_eq_scan_refl (a.getD []) (scamval_eq_refl_slots a h)
  | .dict r e (.seq kk kr km ka) (.seq vk vr vm va), h => by
    simp only [eq_refl_ok, Bool.and_eq_true, decide_eq_true_eq] at h
    exact scamval_eq_dict_refl r e kk vk kr vr km vm ka va (scamval_eq_refl_slots ka h.1.1.1)
      (scamval_eq_refl_slots va h.1.1.2) h.1.2 h.2
  | .dict _ _ (.int _ _) _, h => by simp [eq_refl_ok] at h
  | .dict _ _ (.dec _ _) _, h => by simp [eq_refl_ok] at h
  | .dict _ _ (.bool _ _) _, h => by simp [eq_refl_ok] at h
  | .dict _ _ (.str _ _ _ _ _) _, h => by simp [eq_refl_ok] at h
  | .dict _ _ (.lambda _ _ _ _) _, h => by simp [eq_refl_ok] at h
  | .dict _ _ (.builtin _ _ _) _, h => by simp [eq_refl_ok] at h
  | .dict _ _ (.port _ _ _) _, h => by simp [eq_refl_ok] at h
  | .dict _ _ (.dict _ _ _ _) _, h => by simp [eq_refl_ok] at h
  | .dict _ _ (.null _) _, h => by simp [eq_refl_ok] at h
  | .dict _ _ (.seq _ _ _ _) (.int _ _), h => by simp [eq_refl_ok] at h
  | .dict _ _ (.seq _ _ _ _) (.dec _ _), h => by simp [eq_refl_ok] at h
  | .dict _ _ (.seq _ _ _ _) (.bool _ _), h => by simp [eq_refl_ok] at h
  | .dict _ _ (.seq _ _ _ _) (.str _ _ _ _ _), h => by simp [eq_refl_ok] at h
  | .dict _ _ (.seq _ _ _ _) (.lambda _ _ _ _), h => by simp [eq_refl_ok] at h
  | .dict _ _ (.seq _ _ _ _) (.builtin _ _ _), h => by simp [eq_refl_ok] at h
  | .dict _ _ (.seq _ _ _ _) (.port _ _ _), h => by simp [eq_refl_ok] at h
  | .dict _ _ (.seq _ _ _ _) (.dict _ _ _ _), h => by simp [eq_refl_ok] at h
  | .dict _ _ (.seq _ _ _ _) (.null _), h => by simp [eq_refl_ok] at h
  | .str .err _ _ _ _, h => by simp [eq_refl_ok] at h
  | .lambda _ _ _ _, h => by simp [eq_refl_ok] at h
  | .builtin _ _ _, h => by simp [eq_refl_ok] at h
  | .port _ _ _, h => by simp [eq_refl_ok] at h
/-- `scamval_eq_refl` for the slots of a storage block. -/
theorem scamval_eq_refl_slots : ∀ (a : Option (List scamval)), eq_refl_ok_slots a = true →
    ∀ x ∈ a.getD [], scamval_eq x x = some true
  | none, _ => by simp
  | some l, h => by
    simp only [eq_refl_ok_slots] at h
    simpa using scamval_eq_refl_all l h
/-- `scamval_eq_refl` along a list. -/
theorem scamval_eq_refl_all : ∀ (l : List scamval), eq_refl_ok_all l = true →
    ∀ x ∈ l, scamval_eq x x = some true
  | [], _ => by simp
  | y :: ys, h => by
    simp only [eq_refl_ok_all, Bool.and_eq_true] at h
    intro x hx
    rcases List.mem_cons.mp hx with rfl | hx
    · exact scamval_eq_refl _ h.1
    · exact scamval_eq_refl_all ys h.2 x hx
end

/-- C17 (counterexample).  `scamval_eq` is not reflexive: an `Err` value is not
equal to itself, a list that holds it is not equal to itself, and neither is a
`Dec` that is NaN (bit pattern `0x7FF8000000000000`). -/
theorem scamval_eq_not_reflexive_on_err :
    scamval_eq (scamerr "e".toList) (scamerr "e".toList) = some false ∧
    scamval_eq (.seq .list true 5 (some [gc_unset_root (scamerr "e".toList)]))
      (.seq .list true 5 (some [gc_unset_root (scamerr "e".toList)])) = some false ∧
    scamval_eq (.dec true ⟨0x7FF8000000000000⟩) (.dec true ⟨0x7FF8000000000000⟩) = some false :=
  ⟨rfl, rfl, rfl⟩

/-- A value of tag `Err`, `Lambda`, `Builtin` or `Port` is equal to no value. -/
theorem scamval_eq_never (x y : scamval)
    (h : x.type = SCAM_ERR ∨ x.type = SCAM_LAMBDA ∨ x.type = SCAM_BUILTIN ∨
      x.type = SCAM_PORT) : scamval_eq x y = some false := by
  rcases x with _ | _ | _ | ⟨⟨⟩, _, _, _⟩ | ⟨⟨⟩, _, _, _, _⟩ | _ | _ | _ | _ | _ <;>
    first
      | (exfalso; revert h; simp [scamval.type]; done)
      | (rcases y with _ | _ | _ | ⟨⟨⟩, _, _, _⟩ | ⟨⟨⟩, _, _, _, _⟩ | _ | _ | _ | _ | _ <;>
          simp [scamval_eq, scamval_typecheck, scamval.type])

/-- A sequence that is equal to itself has only elements that are equal to
themselves. -/
theorem list_eq_scan_true_self (l : List scamval)
    (h : list_eq_scan (scamval_eq_each l) l = some true) :
    ∀ x ∈ l, scamval_eq x x = some true := by
  induction l with
  | nil => intro x hx; cases hx
  | cons y ys ih =>
    simp only [scamval_eq_each, list_eq_scan] at h
    cases hy : scamval_eq y y with
    | none => simp [hy] at h
    | some b =>
      cases b with
      | false => simp [hy] at h
      | true =>
        simp only [hy] at h
        intro x hx
        rcases List.mem_cons.mp hx with rfl | hx
        · exact hy
        · exact ih h x hx

/-- C17 (amended).  `scamval_eq(v, v)` is true for every `Int`, `Dec` other
than NaN, `Bool`, `Null`, NUL-terminated `Str` and `Sym`, every `List` and
`SExpr` of such values, and every `Dict` of such keys and values that has a
value for each key and no key equal to an earlier one.  It is false for every
value of tag `Err`, `Lambda`, `Builtin` or `Port`, which is equal to no value
at all, and for every `Dec` that is NaN.  It is never true for a `List` or
`SExpr` holding an element that is not equal to itself, nor for a `Dict`
holding, at a position that has a key, a value that is equal to no value. -/
theorem scamval_eq_reflexive_on (v : scamval) :
    (eq_refl_ok v = true → scamval_eq v v = some true) ∧
    (v.type = SCAM_ERR ∨ v.type = SCAM_LAMBDA ∨ v.type = SCAM_BUILTIN ∨ v.type = SCAM_PORT →
      scamval_eq v v = some false ∧ ∀ y, scamval_eq v y = some false) ∧
    (v.type = SCAM_DEC → (scam_as_dec v).isNaN = true → scamval_eq v v = some false) ∧
    (is_seq v → ∀ x ∈ scamseq_elems v, scamval_eq x x ≠ some true →
      scamval_eq v v ≠ some true) ∧
    (is_dict v → ∀ i x, i < scamdict_len v → scamdict_val v i = some x →
      (∀ y, scamval_eq x y ≠ some true) → scamval_eq v v ≠ some true) := by
  refine ⟨scamval_eq_refl v, fun h => ⟨scamval_eq_never v v h, fun y => scamval_eq_never v y h⟩,
    ?_, ?_, ?_⟩
  · intro ht hnan
    rcases v with _ | ⟨r, d⟩ | _ | ⟨⟨⟩, _, _, _⟩ | ⟨⟨⟩, _, _, _, _⟩ | _ | _ | _ | _ | _ <;>
      first
        | (exfalso; revert ht; simp [scamval.type]; done)
        | (simp only [scam_as_dec] at hnan
           simp [scamval_eq, scamval_typecheck, scamval.type, scamval_numeric_eq, scam_as_dec,
             Dbl.eq, hnan])
  · intro hs x hx hne htrue
    match v, hs with
    | .seq k r m a, _ =>
      rw [scamval_eq_seq] at htrue
      simp only [if_true] at htrue
      cases a with
      | none => simp [scamseq_elems] at hx
      | some l =>
        simp only [scamseq_elems] at hx
        simp only [Option.getD_some] at htrue
        exact hne (list_eq_scan_true_self l htrue x hx)
  · intro hd i x hi hx hnever htrue
    match v, hd with
    | .dict r e (.seq kk kr km ka) (.seq vk vr vm va), _ =>
      rw [scamval_eq_dict_loop r e kk vk kr vr km vm ka va
        (.dict r e (.seq kk kr km ka) (.seq vk vr vm va)) rfl,
        scamval_dict_eq_loop_iff] at htrue
      simp only [scamdict_len, scamdict_keys, scamseq_len] at hi
      obtain ⟨key, val1, val2, _, hv1, _, heq⟩ := htrue i hi
      simp only [scamdict_val_eq, dict_val_list, scamdict_vals, scamseq_elems_seq] at hx
      rw [hx] at hv1
      simp only [Option.some.injEq] at hv1
      subst hv1
      exact hnever val2 heq

theorem scamval_eq_reflexive_on_witness :
    eq_refl_ok dict_two = true ∧ scamval_eq dict_two dict_two = some true ∧
    eq_refl_ok list_a_one = true ∧ scamval_eq list_a_one list_a_one = some true ∧
    (scamerr "e".toList).type = SCAM_ERR ∧
    scamval_eq (scamerr "e".toList) (scamerr "e".toList) = some false :=
  ⟨rfl, (scamval_eq_reflexive_on dict_two).1 rfl, rfl, (scamval_eq_reflexive_on list_a_one).1 rfl,
    rfl, ((scamval_eq_reflexive_on (scamerr "e".toList)).2.1 (Or.inl rfl)).1⟩

/-! ## Printing -/

theorem rendering_all_length (fmt_f : Dbl → List Char) (l : List scamval) :
    (rendering_all fmt_f l).length = l.length := by
  induction l with
  | nil => simp [rendering_all]
  | cons x xs ih => simp [rendering_all, ih]

theorem rendering_slots_length (fmt_f : Dbl → List Char) (a : Option (List scamval)) :
    (rendering_slots fmt_f a).length = (a.getD []).length := by
  cases a <;> simp [rendering_slots, rendering_all_length]

theorem seq_print_scan_cons (count i : Nat) (out : List Char)
    (ps : List (Option (List Char))) :
    seq_print_scan count i (some out :: ps) =
      (seq_print_scan count (i + 1) ps).map fun rest =>
        out ++ (if i ≠ count - 1 then " ".toList else []) ++ rest := rfl

theorem dict_print_scan_cons (len i : Nat) (key val : List Char)
    (ks vs : List (Option (List Char))) :
    dict_print_scan len i (some key :: ks) (some val :: vs) =
      (dict_print_scan len (i + 1) ks vs).map fun rest =>
        key ++ ":".toList ++ val ++ (if i ≠ len - 1 then " ".toList else []) ++ rest := rfl

/-- The loop of `scamseq_print` writes the outputs of the elements separated by
single spaces. -/
theorem seq_print_scan_eq (count : Nat) (l : List (List Char)) :
    ∀ i, count = i + l.length →
      seq_print_scan count i (l.map some) = some (List.intercalate " ".toList l) := by
  induction l with
  | nil => intro i _; rfl
  | cons x xs ih =>
    intro i hc
    cases xs with
    | nil =>
      have hi : i = count - 1 := by simp at hc; omega
      simp [seq_print_scan, hi, List.intercalate]
    | cons y ys =>
      have hi : i ≠ count - 1 := by simp at hc; omega
      have h2 := ih (i + 1) (by simp at hc ⊢; omega)
      rw [List.map_cons, seq_print_scan_cons, h2]
      simp [hi, List.intercalate]

/-- The loop of `scamdict_print` writes the `key:value` outputs separated by
single spaces. -/
theorem dict_print_scan_eq (len : Nat) (ks : List (List Char)) :
    ∀ (vs : List (List Char)) (i : Nat), ks.length = vs.length → len = i + ks.length →
      dict_print_scan len i (ks.map some) (vs.map some) =
        some (List.intercalate " ".toList
          (List.zipWith (fun key val => key ++ ":".toList ++ val) ks vs)) := by
  induction ks with
  | nil => intro vs i _ _; rfl
  | cons k ks ih =>
    intro vs i hl hc
    cases vs with
    | nil => simp at hl
    | cons v vs =>
      simp only [List.length_cons, Nat.add_right_cancel_iff] at hl
      cases ks with
      | nil =>
        have hv : vs = [] := List.length_eq_zero.mp (by simpa using hl.symm)
        subst hv
        have hi : i = len - 1 := by simp at hc; omega
        simp [dict_print_scan, hi, List.intercalate]
      | cons k2 ks =>
        cases vs with
        | nil => simp at hl
        | cons v2 vs =>
          have hi : i ≠ len - 1 := by simp at hc; omega
          have h2 := ih (v2 :: vs) (i + 1) hl (by simp at hc ⊢; omega)
          show dict_print_scan len i (some k :: List.map some (k2 :: ks))
            (some v :: List.map some (v2 :: vs)) = _
          rw [dict_print_scan_cons, h2]
          simp [hi, List.intercalate]

mutual
/-- On a value with terminated strings and well-formed dictionaries,
`scamval_print` writes the canonical rendering. -/
theorem scamval_print_eq (fmt_f : Dbl → List Char) : ∀ (v : scamval), print_ok v = true →
    scamval_print fmt_f v = some (rendering fmt_f v)
  | .int _ n, _ => by simp [scamval_print, rendering]
  | .dec _ d, _ => by simp [scamval_print, rendering]
  | .bool _ n, _ => by
    by_cases hn : n = 0 <;> simp [scamval_print, rendering, hn]
  | .null _, _ => by simp [scamval_print, rendering]
  | .lambda _ _ _ _, _ => by simp [scamval_print, rendering]
  | .builtin _ _ _, _ => by simp [scamval_print, rendering]
  | .port _ _ _, _ => by simp [scamval_print, rendering]
  | .str .str _ _ _ s, h => by
    simp only [print_ok] at h
    obtain ⟨t, ht⟩ := Option.isSome_iff_exists.mp h
    simp [scamval_print, rendering, ht]
  | .str .sym _ _ _ s, h => by
    simp only [print_ok] at h
    obtain ⟨t, ht⟩ := Option.isSome_iff_exists.mp h
    simp [scamval_print, rendering, ht]
  | .str .err _ _ _ s, h => by
    simp only [print_ok] at h
    obtain ⟨t, ht⟩ := Option.isSome_iff_exists.mp h
    simp [scamval_print, rendering, ht]
  | .seq .list _ _ a, h => by
    simp only [print_ok] at h
    simp only [scamval_print, rendering, scamval_print_slots_eq fmt_f a h]
    rw [seq_print_scan_eq _ _ 0 (by simp [rendering_slots_length])]
    rfl
  | .seq .sexpr _ _ a, h => by
    simp only [print_ok] at h
    simp only [scamval_print, rendering, scamval_print_slots_eq fmt_f a h]
    rw [seq_print_scan_eq _ _ 0 (by simp [rendering_slots_length])]
    rfl
  | .dict _ _ (.seq _ _ _ ks) (.seq _ _ _ vs), h => by
    simp only [print_ok, Bool.and_eq_true, decide_eq_true_eq] at h
    simp only [scamval_print, rendering, scamval_print_slots_eq fmt_f ks h.1.1,
      scamval_print_slots_eq fmt_f vs h.1.2]
    rw [dict_print_scan_eq _ _ _ 0 (by simp [rendering_slots_length, h.2])
      (by simp [rendering_slots_length])]
    rfl
  | .dict _ _ (.int _ _) _, h => by simp [print_ok] at h
  | .dict _ _ (.dec _ _) _, h => by simp [print_ok] at h
  | .dict _ _ (.bool _ _) _, h => by simp [print_ok] at h
  | .dict _ _ (.str _ _ _ _ _) _, h => by simp [print_ok] at h
  | .dict _ _ (.lambda _ _ _ _) _, h => by simp [print_ok] at h
  | .dict _ _ (.builtin _ _ _) _, h => by simp [print_ok] at h
  | .dict _ _ (.port _ _ _) _, h => by simp [print_ok] at h
  | .dict _ _ (.dict _ _ _ _) _, h => by simp [print_ok] at h
  | .dict _ _ (.null _) _, h => by simp [print_ok] at h
  | .dict _ _ (.seq _ _ _ _) (.int _ _), h => by simp [print_ok] at h
  | .dict _ _ (.seq _ _ _ _) (.dec _ _), h => by simp [print_ok] at h
  | .dict _ _ (.seq _ _ _ _) (.bool _ _), h => by simp [print_ok] at h
  | .dict _ _ (.seq _ _ _ _) (.str _ _ _ _ _), h => by simp [print_ok] at h
  | .dict _ _ (.seq _ _ _ _) (.lambda _ _ _ _), h => by simp [print_ok] at h
  | .dict _ _ (.seq _ _ _ _) (.builtin _ _ _), h => by simp [print_ok] at h
  | .dict _ _ (.seq _ _ _ _) (.port _ _ _), h => by simp [print_ok] at h
  | .dict _ _ (.seq _ _ _ _) (.dict _ _ _ _), h => by simp [print_ok] at h
  | .dict _ _ (.seq _ _ _ _) (.null _), h => by simp [print_ok] at h
/-- `scamval_print_eq` for the slots of a storage block. -/
theorem scamval_print_slots_eq (fmt_f : Dbl → List Char) : ∀ (a : Option (List scamval)),
    print_ok_slots a = true →
    scamval_print_slots fmt_f a = (rendering_slots fmt_f a).map some
  | none, _ => by simp [scamval_print_slots, rendering_slots]
  | some l, h => by
    simp only [print_ok_slots] at h
    simpa [scamval_print_slots, rendering_slots] using scamval_print_each_eq fmt_f l h
/-- `scamval_print_eq` along a list. -/
theorem scamval_print_each_eq (fmt_f : Dbl → List Char) : ∀ (l : List scamval),
    print_ok_all l = true →
    scamval_print_each fmt_f l = (rendering_all fmt_f l).map some
  | [], _ => by simp [scamval_print_each, rendering_all]
  | x :: xs, h => by
    simp only [print_ok_all, Bool.and_eq_true] at h
    simp [scamval_print_each, rendering_all, scamval_print_eq fmt_f x h.1,
      scamval_print_each_eq fmt_f xs h.2]
end

theorem rendering_all_eq_map (fmt_f : Dbl → List Char) (l : List scamval) :
    rendering_all fmt_f l = l.map (rendering fmt_f) := by
  induction l with
  | nil => rfl
  | cons x xs ih => simp [rendering_all, ih]

/-- Canonical rendering where the print is defined.  For every value whose
strings (`Str`, `Sym`, `Err`, at any depth) hold a NUL-terminated block and
whose dictionaries hold a key list and a value list of the same length,
`scamval_print` writes exactly the canonical rendering: the decimal integer for
`Int`; `true` or `false` for `Bool`; the raw bytes in double quotes for `Str`;
the bare text for `Sym`; `Error: ` followed by the message for `Err`; `[`, the
renderings of the elements separated by single spaces, `]` for `List`
(parentheses for `SExpr`; no space after the last element, and `[]` for the
empty list); `{`, the `key:value` renderings in insertion order separated by
single spaces, `}` for `Dict`.  A fresh dictionary after binding `"a"` to 1 and
then `"a"` to 2 prints `{"a":2}`. -/
theorem scamval_print_canonical (fmt_f : Dbl → List Char) (v : scamval)
    (h : print_ok v = true) :
    scamval_print fmt_f v = some (rendering fmt_f v) ∧
    (∀ (r : Bool) (m : Nat) (l : List scamval),
      rendering fmt_f (.seq .list r m (some l)) =
        "[".toList ++ List.intercalate " ".toList (l.map (rendering fmt_f)) ++ "]".toList ∧
      rendering fmt_f (.seq .sexpr r m (some l)) =
        "(".toList ++ List.intercalate " ".toList (l.map (rendering fmt_f)) ++ ")".toList) ∧
    (∀ (r : Bool) (e : Option scamval) (kk vk : seqkind) (kr vr : Bool) (km vm : Nat)
        (ks vs : List scamval),
      rendering fmt_f (.dict r e (.seq kk kr km (some ks)) (.seq vk vr vm (some vs))) =
        "\x7b".toList ++
          List.intercalate " ".toList
            (List.zipWith (fun key val => rendering fmt_f key ++ ":".toList ++ rendering fmt_f val)
              ks vs) ++
          "\x7d".toList) ∧
    (∀ (r : Bool) (n : Int), rendering fmt_f (.int r n) = fmt_lli n) ∧
    (∀ (r : Bool) (c m : Nat) (s text : List Char), cstr s = some text →
      rendering fmt_f (.str .str r c m (some s)) = [DQUOTE] ++ text ++ [DQUOTE] ∧
      rendering fmt_f (.str .sym r c m (some s)) = text ∧
      rendering fmt_f (.str .err r c m (some s)) = "Error: ".toList ++ text) ∧
    scamval_print fmt_f scamlist = some "[]".toList ∧
    scamval_print fmt_f (scambool 1) = some "true".toList ∧
    scamval_print fmt_f (scambool 0) = some "false".toList ∧
    scamval_print fmt_f (scamint (-120)) = some "-120".toList ∧
    (∃ d1 d2, scamdict_bind (scamdict none) (scamstr "a".toList) (scamint 1) = some d1 ∧
      scamdict_bind d1 (scamstr "a".toList) (scamint 2) = some d2 ∧
      scamval_print fmt_f d2 =
        some ("\x7b".toList ++ [DQUOTE] ++ "a".toList ++ [DQUOTE] ++ ":2\x7d".toList)) := by
  refine ⟨scamval_print_eq fmt_f v h, ?_, ?_, ?_, ?_, rfl, rfl, rfl, rfl, ⟨_, _, rfl, rfl, rfl⟩⟩
  · intro r m l
    simp [rendering, rendering_slots, rendering_all_eq_map]
  · intro r e kk vk kr vr km vm ks vs
    simp [rendering, rendering_slots, rendering_all_eq_map, List.zipWith_map]
  · intro r n
    simp [rendering]
  · intro r c m s text ht
    simp [rendering, ht]

theorem scamval_print_canonical_witness :
    print_ok dict_two = true ∧
    scamval_print fmt_f_none dict_two =
      some ("\x7b".toList ++ [DQUOTE] ++ "a".toList ++ [DQUOTE] ++ ":1 ".toList ++
        [DQUOTE] ++ "b".toList ++ [DQUOTE] ++ ":2\x7d".toList) ∧
    print_ok list_a_one = true ∧
    scamval_print fmt_f_none list_a_one =
      some ("[".toList ++ [DQUOTE] ++ "a".toList ++ [DQUOTE] ++ " 1]".toList) :=
  ⟨rfl, (scamval_print_canonical fmt_f_none dict_two rfl).1.trans rfl,
    rfl, (scamval_print_canonical fmt_f_none list_a_one rfl).1.trans rfl⟩

/-- C21 (defect).  The empty string of `scamstr_empty` has tag `Str` and a NULL
buffer.  `scamval_print` hands it to `%s`, so printing it, or a list or a
dictionary that holds it, has no defined output, where the canonical rendering
of the empty string is two double quotes. -/
theorem scamval_print_undefined_on_empty_str (fmt_f : Dbl → List Char) :
    scamstr_empty.type = SCAM_STR ∧ scamstr_len scamstr_empty = 0 ∧
    scam_as_str scamstr_empty = none ∧
    scamval_print fmt_f scamstr_empty = none ∧
    rendering fmt_f scamstr_empty = [DQUOTE, DQUOTE] ∧
    (∃ l, scamseq_append scamlist scamstr_empty = some l ∧ scamval_print fmt_f l = none) ∧
    scamdict_bind (scamdict none) scamstr_empty (scamint 1) = some dict_keyed_by_empty_str ∧
    scamval_print fmt_f dict_keyed_by_empty_str = none :=
  ⟨rfl, rfl, rfl, rfl, rfl, ⟨_, rfl, rfl⟩, rfl, rfl⟩

/-! ## Constructors and the root flag -/

/-- C22 (as stated, refuted).  `scamnull` resets the flag that the collector
set: the value it returns is not a root. -/
theorem scamnull_not_root : gc_new_is_root = true ∧ scamnull.is_root = false :=
  ⟨rfl, rfl⟩

/-- C22 (amended).  With a collector that hands out new objects flagged as
roots, the value returned by each of `scamint`, `scamdec`, `scambool`,
`scamlist`, `scamsexpr`, `scamstr`, `scamsym`, `scamerr`, `scamlambda`,
`scambuiltin`, `scamport` and `scamdict` (and by `scamstr_empty` and
`scambuiltin_const`) has its is-root flag set, for all arguments; the value
returned by `scamnull` has it cleared. -/
theorem constructors_return_roots (n b : Int) (d : Dbl) (s : List Char)
    (env parameters body : scamval) (bltin : Nat) (fp : Option Nat)
    (enclosing : Option scamval) :
    (scamint n).is_root = true ∧ (scamdec d).is_root = true ∧
    (scambool b).is_root = true ∧ scamlist.is_root = true ∧ scamsexpr.is_root = true ∧
    (scamstr s).is_root = true ∧ (scamsym s).is_root = true ∧ (scamerr s).is_root = true ∧
    (scamlambda env parameters body).is_root = true ∧
    (scambuiltin bltin).is_root = true ∧ (scamport fp).is_root = true ∧
    (scamdict enclosing).is_root = true ∧
    scamstr_empty.is_root = true ∧ (scambuiltin_const bltin).is_root = true ∧
    scamnull.is_root = false :=
  ⟨rfl, rfl, rfl, rfl, rfl, rfl, rfl, rfl, rfl, rfl, rfl, rfl, rfl, rfl, rfl⟩

/-! ## Unbound keys -/

mutual
/-- A key that no dictionary of the chain holds is reported as unbound. -/
theorem scamdict_lookup_unbound_in : ∀ (d k : scamval), unbound_in k d = true →
    scamdict_lookup d k = unbound_variable k
  | .dict r e (.seq kk kr km ka) (.seq vk vr vm va), k, h => by
    simp only [unbound_in, Bool.and_eq_true, List.all_eq_true, beq_iff_eq] at h
    rw [scamdict_lookup_source, lookup_scan_all_false _ _ _ h.1]
    exact scamdict_lookup_unbound_in_enclosing e k h.2
  | .dict _ _ (.int _ _) _, _, h => by simp [unbound_in] at h
  | .dict _ _ (.dec _ _) _, _, h => by simp [unbound_in] at h
  | .dict _ _ (.bool _ _) _, _, h => by simp [unbound_in] at h
  | .dict _ _ (.str _ _ _ _ _) _, _, h => by simp [unbound_in] at h
  | .dict _ _ (.lambda _ _ _ _) _, _, h => by simp [unbound_in] at h
  | .dict _ _ (.builtin _ _ _) _, _, h => by simp [unbound_in] at h
  | .dict _ _ (.port _ _ _) _, _, h => by simp [unbound_in] at h
  | .dict _ _ (.dict _ _ _ _) _, _, h => by simp [unbound_in] at h
  | .dict _ _ (.null _) _, _, h => by simp [unbound_in] at h
  | .dict _ _ (.seq _ _ _ _) (.int _ _), _, h => by simp [unbound_in] at h
  | .dict _ _ (.seq _ _ _ _) (.dec _ _), _, h => by simp [unbound_in] at h
  | .dict _ _ (.seq _ _ _ _) (.bool _ _), _, h => by simp [unbound_in] at h
  | .dict _ _ (.seq _ _ _ _) (.str _ _ _ _ _), _, h => by simp [unbound_in] at h
  | .dict _ _ (.seq _ _ _ _) (.lambda _ _ _ _), _, h => by simp [unbound_in] at h
  | .dict _ _ (.seq _ _ _ _) (.builtin _ _ _), _, h => by simp [unbound_in] at h
  | .dict _ _ (.seq _ _ _ _) (.port _ _ _), _, h => by simp [unbound_in] at h
  | .dict _ _ (.seq _ _ _ _) (.dict _ _ _ _), _, h => by simp [unbound_in] at h
  | .dict _ _ (.seq _ _ _ _) (.null _), _, h => by simp [unbound_in] at h
  | .int _ _, _, h => by simp [unbound_in] at h
  | .dec _ _, _, h => by simp [unbound_in] at h
  | .bool _ _, _, h => by simp [unbound_in] at h
  | .seq _ _ _ _, _, h => by simp [unbound_in] at h
  | .str _ _ _ _ _, _, h => by simp [unbound_in] at h
  | .lambda _ _ _ _, _, h => by simp [unbound_in] at h
  | .builtin _ _ _, _, h => by simp [unbound_in] at h
  | .port _ _ _, _, h => by simp [unbound_in] at h
  | .null _, _, h => by simp [unbound_in] at h
/-- `scamdict_lookup_unbound_in` for the tail of the lookup. -/
theorem scamdict_lookup_unbound_in_enclosing : ∀ (e : Option scamval) (k : scamval),
    unbound_in_enclosing k e = true →
    (match e with
      | some p => scamdict_lookup p k
      | none => unbound_variable k) = unbound_variable k
  | none, _, _ => rfl
  | some p, k, h => by
    simp only [unbound_in_enclosing] at h
    exact scamdict_lookup_unbound_in p k h
end

/-- C24 (defect).  On `[1 2.0 3]`, whose elements are all `Int` or `Dec` with
both present, `scamseq_narrowest_type` returns `Any`, although `Num` accepts
every element and is strictly narrower (it rejects a `Bool`, which `Any`
accepts); on the reordering `[1 3 2.0]` it returns `Num`. -/
theorem scamseq_narrowest_type_order_dependent :
    scamseq_narrowest_type list_int_dec_int = some SCAM_ANY ∧
    (∀ x ∈ scamseq_elems list_int_dec_int, scamval_typecheck x SCAM_NUM = true) ∧
    (∀ x ∈ scamseq_elems list_int_dec_int, x.type = SCAM_INT ∨ x.type = SCAM_DEC) ∧
    scamval_typecheck (scambool 1) SCAM_ANY = true ∧
    scamval_typecheck (scambool 1) SCAM_NUM = false ∧
    scamseq_narrowest_type list_int_int_dec = some SCAM_NUM ∧
    narrowest_type SCAM_INT (narrowest_type SCAM_DEC SCAM_INT) = SCAM_ANY := by
  refine ⟨rfl, ?_, ?_, rfl, rfl, rfl, rfl⟩
  · intro x hx
    simp only [list_int_dec_int, scamseq_elems, List.mem_cons, List.mem_singleton,
      List.not_mem_nil, or_false] at hx
    rcases hx with rfl | rfl | rfl <;> rfl
  · intro x hx
    simp only [list_int_dec_int, scamseq_elems, List.mem_cons, List.mem_singleton,
      List.not_mem_nil, or_false] at hx
    rcases hx with rfl | rfl | rfl <;> simp [scamval.type]

/-! ## Capacity invariant -/

theorem seq_ok_len_le (s : scamval) (h : seq_ok s) : scamseq_len s ≤ seq_mem_size s := by
  match s, h with
  | .seq _ _ m none, h => simp [scamseq_len, seq_mem_size]
  | .seq _ _ m (some a), h => simpa [scamseq_len, seq_mem_size, seq_ok] using h

/-- A pop keeps the capacity invariant. -/
theorem scamseq_pop_seq_ok (s : scamval) (i : Nat) (h : seq_ok s) :
    ∃ p, scamseq_pop s i = some p ∧ seq_ok p.2 := by
  match s, h with
  | .seq k r m none, h =>
    exact ⟨(scamerr "attempted sequence access out of range".toList, .seq k r m none),
      by simp [scamseq_pop, scamseq_len], h⟩
  | .seq k r m (some a), h =>
    by_cases hi : i < a.length
    · have hget : a.get? i = some a[i] := by
        rw [List.get?_eq_getElem?]; exact List.getElem?_eq_getElem hi
      refine ⟨(gc_set_root a[i], .seq k r m (some (a.eraseIdx i))), by
        simp [scamseq_pop, scamseq_len, hi, hget], ?_⟩
      simp only [seq_ok] at h ⊢
      have := List.length_eraseIdx_le a i
      omega
    · exact ⟨(scamerr "attempted sequence access out of range".toList, .seq k r m (some a)),
        by simp [scamseq_pop, scamseq_len, hi], h⟩

/-- A concatenation moves the elements of a non-empty second sequence to the
first, whose capacity becomes exactly the sum of the two lengths. -/
theorem scamseq_concat_seq (k : seqkind) (r : Bool) (m : Nat) (a : Option (List scamval))
    (k2 : seqkind) (r2 : Bool) (m2 : Nat) (x : scamval) (l2 : List scamval) :
    scamseq_concat (.seq k r m a) (.seq k2 r2 m2 (some (x :: l2))) =
      some (.seq k r ((a.getD []).length + (l2.length + 1))
              (some (a.getD [] ++ (x :: l2).map gc_unset_root)),
            .seq k2 r2 m2 (some [])) := by
  cases a with
  | none =>
    simp only [scamseq_concat, scamseq_len, Option.getD_some, List.length_cons,
      gt_iff_lt, Nat.zero_lt_succ, if_true, scamseq_resize, Option.getD_none,
      List.length_nil]
    exact scamseq_concat_loop_seq k2 r2 m2 (x :: l2) _ k r _ [] (by simp) (by simp)
  | some l1 =>
    simp only [scamseq_concat, scamseq_len, Option.getD_some, List.length_cons,
      gt_iff_lt, Nat.zero_lt_succ, if_true, scamseq_resize]
    rw [List.take_of_length_le (by omega)]
    exact scamseq_concat_loop_seq k2 r2 m2 (x :: l2) _ k r _ l1 (by simp) (by simp)

/-- Every call of the sequence API with arguments in range is defined on a
sequence that satisfies the capacity invariant, and the sequence satisfies it
afterwards. -/
theorem apply_seq_op_seq_ok (s : scamval) (op : seq_op) (hs : seq_ok s)
    (hop : seq_op_in_range s op = true) :
    ∃ s', apply_seq_op s op = some s' ∧ seq_ok s' := by
  match s, hs with
  | .seq k r m a, hs =>
    cases op with
    | insert i v =>
      simp only [seq_op_in_range, decide_eq_true_eq, scamseq_len] at hop
      obtain ⟨m', h1, h2, _⟩ := scamseq_insert_seq k r m a i v hs hop
      refine ⟨_, h1, ?_⟩
      simp only [seq_ok, List.length_append, List.length_cons, List.length_take,
        List.length_drop]
      omega
    | append v =>
      obtain ⟨m', h1, h2⟩ := scamseq_append_seq k r m a v hs
      refine ⟨_, h1, ?_⟩
      simpa [seq_ok] using h2
    | prepend v =>
      obtain ⟨m', h1, h2, _⟩ := scamseq_insert_seq k r m a 0 v hs (Nat.zero_le _)
      refine ⟨_, h1, ?_⟩
      simp only [seq_ok, List.length_append, List.length_cons, List.length_take,
        List.length_drop]
      omega
    | pop i =>
      obtain ⟨p, h1, h2⟩ := scamseq_pop_seq_ok (.seq k r m a) i hs
      exact ⟨p.2, by simp [apply_seq_op, h1], h2⟩
    | delete i =>
      obtain ⟨p, h1, h2⟩ := scamseq_pop_seq_ok (.seq k r m a) i hs
      exact ⟨p.2, by simp [apply_seq_op, scamseq_delete, h1], h2⟩
    | concat seq2 =>
      match seq2, hop with
      | .seq k2 r2 m2 none, _ =>
        exact ⟨.seq k r m a, by simp [apply_seq_op, scamseq_concat, scamseq_len], hs⟩
      | .seq k2 r2 m2 (some []), _ =>
        exact ⟨.seq k r m a, by simp [apply_seq_op, scamseq_concat, scamseq_len], hs⟩
      | .seq k2 r2 m2 (some (x :: l2)), _ =>
        refine ⟨.seq k r ((a.getD []).length + (l2.length + 1))
          (some (a.getD [] ++ (x :: l2).map gc_unset_root)),
          by simp only [apply_seq_op, scamseq_concat_seq, Option.map_some'], ?_⟩
        simp [seq_ok]
    | concat_onto seq1 =>
      match seq1, hop with
      | .seq k1 r1 m1 a1, _ =>
        match a, hs with
        | none, hs =>
          exact ⟨.seq k r m none, by simp [apply_seq_op, scamseq_concat, scamseq_len], hs⟩
        | some [], hs =>
          exact ⟨.seq k r m (some []), by simp [apply_seq_op, scamseq_concat, scamseq_len], hs⟩
        | some (x :: l2), hs =>
          refine ⟨.seq k r m (some []),
            by simp only [apply_seq_op, scamseq_concat_seq, Option.map_some'], ?_⟩
          simp [seq_ok]

/-- A series of calls in range is defined on a sequence that satisfies the
capacity invariant, and the sequence satisfies it afterwards. -/
theorem run_seq_ops_seq_ok (ops : List seq_op) :
    ∀ (s : scamval), seq_ok s → seq_ops_in_range s ops = true →
      ∃ s', run_seq_ops s ops = some s' ∧ seq_ok s' := by
  induction ops with
  | nil => intro s hs _; exact ⟨s, rfl, hs⟩
  | cons op ops ih =>
    intro s hs hr
    simp only [seq_ops_in_range, Bool.and_eq_true] at hr
    obtain ⟨s1, h1, hs1⟩ := apply_seq_op_seq_ok s op hs hr.1
    have hr2 := hr.2
    simp only [h1] at hr2
    obtain ⟨s', h2, hs'⟩ := ih s1 hs1 hr2
    exact ⟨s', by simp [run_seq_ops, h1, h2], hs'⟩

/-- A series in range stays in range when cut short. -/
theorem seq_ops_in_range_take (ops : List seq_op) :
    ∀ (s : scamval) (n : Nat), seq_ops_in_range s ops = true →
      seq_ops_in_range s (ops.take n) = true := by
  induction ops with
  | nil => intro s n h; simpa using h
  | cons op ops ih =>
    intro s n h
    cases n with
    | zero => rfl
    | succ n =>
      simp only [seq_ops_in_range, Bool.and_eq_true, List.take_succ_cons] at h ⊢
      refine ⟨h.1, ?_⟩
      cases ha : apply_seq_op s op with
      | none => rfl
      | some s1 =>
        have h2 := h.2
        simp only [ha] at h2
        exact ih s1 n h2

/-- An insert is defined only when its store lands inside the storage: then
the index is below the new count and the new count is within the capacity. -/
theorem scamseq_insert_in_storage (s : scamval) (i : Nat) (v s' : scamval)
    (h : scamseq_insert s i v = some s') :
    i < scamseq_len s' ∧ scamseq_len s' ≤ seq_mem_size s' := by
  match s with
  | .seq k r m a =>
    by_cases hc : (a.getD []).length + 1 > m
    · obtain ⟨m', hg, hm'⟩ := scamseq_grow_seq k r m a ((a.getD []).length + 1) (by omega)
      simp only [scamseq_insert, hc, if_true, hg] at h
      split_ifs at h with hi
      simp only [Option.some.injEq] at h
      subst h
      simp only [scamseq_len, seq_mem_size, Option.getD_some, List.length_append,
        List.length_cons, List.length_take, List.length_drop]
      omega
    · cases a with
      | none =>
        simp only [Option.getD_none, List.length_nil] at hc
        simp only [scamseq_insert, Option.getD_none, List.length_nil, hc, if_false] at h
        simp at h
      | some l =>
        simp only [Option.getD_some] at hc
        simp only [scamseq_insert, Option.getD_some, hc, if_false] at h
        split_ifs at h with hi
        simp only [Option.some.injEq] at h
        subst h
        simp only [scamseq_len, seq_mem_size, Option.getD_some, List.length_append,
          List.length_cons, List.length_take, List.length_drop]
        omega
  | .int _ _ => simp [scamseq_insert] at h
  | .dec _ _ => simp [scamseq_insert] at h
  | .bool _ _ => simp [scamseq_insert] at h
  | .str _ _ _ _ _ => simp [scamseq_insert] at h
  | .lambda _ _ _ _ => simp [scamseq_insert] at h
  | .builtin _ _ _ => simp [scamseq_insert] at h
  | .port _ _ _ => simp [scamseq_insert] at h
  | .dict _ _ _ _ => simp [scamseq_insert] at h
  | .null _ => simp [scamseq_insert] at h

/-- C25.  Capacity invariant.  A sequence created by `scamlist` or `scamsexpr`
has capacity 0 and no storage.  After every call of any finite series of
`scamseq_insert`, `scamseq_append`, `scamseq_prepend`, `scamseq_pop`,
`scamseq_delete` and `scamseq_concat` (in either argument position) with insert
indices not past the end, every call so far was defined and
`count ≤ mem_size` holds, also after a concatenation, which sets the capacity
to exactly the sum of the two lengths.  An insert is defined only when its
store lands inside the storage. -/
theorem capacity_invariant (k : seqkind) (ops : List seq_op)
    (h : seq_ops_in_range (scam_internal_seq k) ops = true) :
    seq_mem_size (scam_internal_seq k) = 0 ∧ scamseq_len (scam_internal_seq k) = 0 ∧
    (∀ n, ∃ s', run_seq_ops (scam_internal_seq k) (ops.take n) = some s' ∧
      scamseq_len s' ≤ seq_mem_size s' ∧ seq_ok s') ∧
    (∀ s i v s', scamseq_insert s i v = some s' →
      i < scamseq_len s' ∧ scamseq_len s' ≤ seq_mem_size s') := by
  refine ⟨rfl, rfl, ?_, scamseq_insert_in_storage⟩
  intro n
  obtain ⟨s', h1, h2⟩ := run_seq_ops_seq_ok (ops.take n) (scam_internal_seq k) rfl
    (seq_ops_in_range_take ops _ n h)
  exact ⟨s', h1, seq_ok_len_le s' h2, h2⟩

theorem capacity_invariant_witness :
    seq_ops_in_range (scam_internal_seq .list) sample_seq_ops = true ∧
    (∃ s', run_seq_ops (scam_internal_seq .list) (sample_seq_ops.take 8) = some s' ∧
      scamseq_len s' = 7 ∧ seq_mem_size s' = 7) ∧
    ∀ n, ∃ s', run_seq_ops (scam_internal_seq .list) (sample_seq_ops.take n) = some s' ∧
      scamseq_len s' ≤ seq_mem_size s' ∧ seq_ok s' :=
  ⟨rfl, ⟨_, rfl, rfl, rfl⟩, (capacity_invariant .list sample_seq_ops rfl).2.2.1⟩

/-! ## String length -/

/-- C26 (defect).  `scamstr_truncate` stores the NUL but leaves `count` as it
was: after `scamstr_truncate(v, 1)` on `v = scamstr("abc")` the text is `"a"`
while `scamstr_len` still answers 3, not 1.  The sibling `scamstr_remove(v, 1, 3)`
on the same string gives the same text and the length 1. -/
theorem scamstr_truncate_keeps_count :
    scamstr_len (scamstr "abc".toList) = 3 ∧
    str_text (scamstr "abc".toList) = some "abc".toList ∧
    (∃ v, scamstr_truncate (scamstr "abc".toList) 1 = some v ∧
      str_text v = some "a".toList ∧ scamstr_len v = 3 ∧ scamstr_len v ≠ 1) ∧
    (∃ v, scamstr_remove (scamstr "abc".toList) 1 3 = some v ∧
      str_text v = some "a".toList ∧ scamstr_len v = 1) :=
  ⟨rfl, rfl, ⟨_, rfl, rfl, rfl, by decide⟩, ⟨_, rfl, rfl, rfl⟩⟩
end Scam
